import Mathlib

/-!
# SplitWise: balance aggregation and greedy settlement

A shallow embedding of `SplitWiseApp::calculateNetBalance` and
`SplitWiseApp::minimizeTransactions` from `src/splitwise.cpp`, with the
properties of the balance calculator and of the settlement minimizer proved
about it.

Modelling conventions.

* A C++ `double` that the program reads as input (an amount, a weight) is an
  exact rational. A `double` that the program computes is a `Dbl`: either a
  finite exact rational, or `Dbl.nonFinite`, which stands for the IEEE values
  NaN and ±Inf that a division by zero produces and that every later
  addition, subtraction and multiplication keeps non-finite. Rounding and
  overflow are not modelled.
* `std::map<string, double>` is a list of (key, value) entries kept in
  strictly ascending key order; iterating the map is iterating the list.
* `weights[i]` with `i` beyond the end of `weights` is undefined behaviour in
  the source; the embedding returns `none` there.
* The literal `0.01` is the rational `1 / 100`.
* The partition and the loop of `minimizeTransactions` compare and subtract
  balances, so there `+Inf`, `-Inf` and NaN are kept apart: `Ieee` is a double
  that is finite and exact, `+Inf`, `-Inf` or NaN, and the definitions of the
  namespace `Ieee` embed `calculateNetBalance` and `minimizeTransactions` on
  such doubles. `Ieee.calculateNetBalance` is proved to have `calculateNetBalance`
  as its image when the three non-finite values are taken together.
* The loop of `minimizeTransactions` is embedded as a step function on its
  variables (`Ieee.loopStep`) and run for a given number of iterations
  (`Ieee.runLoop`), since it does not end on every balance map.
  `Ieee.settleFrom` describes the payments it emits from the cursor positions
  onward and is proved to agree with it.
* `creditorsOf`, `debtorsOf`, `loopStep`, `runLoop` and `minimizeBalances` are
  the partition and the loop on maps of finite balances, proved to be the
  restriction of their namesakes in `Ieee` to such maps; on these the loop ends
  within `creditors.size() + debtors.size()` iterations.
* Order independence is proved by showing that every step of
  `calculateNetBalance` adds fixed keys and fixed changes of balance to a map
  with ascending keys (`Shifts`, `IsShift`), and that such a map is determined
  by its keys and balances.
-/

namespace SplitWise

/-! ## Computed doubles -/

/-- Value of a computed `double`: finite and exact, or non-finite (NaN, ±Inf). -/
inductive Dbl where
  | fin (q : ℚ)
  | nonFinite
  deriving DecidableEq

namespace Dbl

/-- Addition of doubles: non-finite operands give a non-finite sum. -/
def add : Dbl → Dbl → Dbl
  | fin a, fin b => fin (a + b)
  | _, _ => nonFinite

/-- Subtraction of doubles: non-finite operands give a non-finite difference. -/
def sub : Dbl → Dbl → Dbl
  | fin a, fin b => fin (a - b)
  | _, _ => nonFinite

/-- Multiplication of doubles: non-finite operands give a non-finite product. -/
def mul : Dbl → Dbl → Dbl
  | fin a, fin b => fin (a * b)
  | _, _ => nonFinite

/-- Division of doubles: a finite value divided by zero is NaN or ±Inf. -/
def div : Dbl → Dbl → Dbl
  | fin a, fin b => if b = 0 then nonFinite else fin (a / b)
  | _, _ => nonFinite

instance : Add Dbl := ⟨add⟩
instance : Sub Dbl := ⟨sub⟩
instance : Mul Dbl := ⟨mul⟩
instance : Div Dbl := ⟨div⟩

end Dbl

/-! ## Data model (lines 14-69) -/

/-- The `SplitType` enumeration. -/
inductive SplitType where
  | EQUAL
  | PERCENTAGE
  | CUSTOM_WEIGHT
  deriving DecidableEq

/-- The `Transaction` record. -/
structure Transaction where
  id : Int
  payer : String
  amount : ℚ
  participants : List String
  weights : List ℚ
  splitType : SplitType
  description : String
  date : String
  groupName : String
  isSettled : Bool

/-- The `Settlement` record; `from_` and `to_` are the fields `from` and `to`,
which are reserved words here. -/
structure Settlement where
  transactionId : Int
  from_ : String
  to_ : String
  amount : ℚ
  date : String
  groupName : String

/-- The data members of `SplitWiseApp`. -/
structure SplitWiseApp where
  transactions : List Transaction
  settlements : List Settlement
  groups : List String
  nextTransactionId : Int

/-! ## The balance map -/

/-- The `map<string, double> netBalance`: entries in ascending key order. -/
abbrev NetBalance := List (String × Dbl)

namespace NetBalance

/-- The compound assignment `netBalance[key] op= ...`: `operator[]` finds the
entry of `key`, or inserts one with value 0 at its place in key order, and the
entry's value `v` becomes `f v`. -/
def update (f : Dbl → Dbl) (key : String) : NetBalance → NetBalance
  | [] => [(key, f (Dbl.fin 0))]
  | (k, v) :: rest =>
    if key = k then (k, f v) :: rest
    else if key < k then (key, f (Dbl.fin 0)) :: (k, v) :: rest
    else (k, v) :: update f key rest

/-- The balance of a person: the value stored under the key, 0 when absent. -/
def balanceOf (person : String) : NetBalance → Dbl
  | [] => Dbl.fin 0
  | (k, v) :: rest => if person = k then v else balanceOf person rest

/-- The sum of the values of the map, added in key order. -/
def total : NetBalance → Dbl
  | [] => Dbl.fin 0
  | (_, v) :: rest => v + total rest

/-- The keys of the map are strictly ascending, as in a `std::map`. -/
def Ordered (nb : List (String × α)) : Prop :=
  (nb.map Prod.fst).Pairwise (fun a b => a < b)

end NetBalance

/-! ## `calculateNetBalance` (lines 228-284) -/

/-- The `EQUAL` loop (lines 243-245): every participant is charged
`perPersonAmount`. -/
def equalLoop (perPersonAmount : Dbl) : List String → NetBalance → NetBalance
  | [], netBalance => netBalance
  | participant :: rest, netBalance =>
    equalLoop perPersonAmount rest
      (netBalance.update (fun v => v - perPersonAmount) participant)

/-- The indexed loops of `PERCENTAGE` and `CUSTOM_WEIGHT` (lines 249-252 and
261-264): the participant at position `i` is charged
`amount * (weights[i] / divisor)`. The two lists are walked in step, so the
heads are `participants[i]` and `weights[i]`; `none` when `weights` ends before
`participants` does. -/
def weightedLoop (amount : ℚ) (divisor : Dbl) :
    List String → List ℚ → NetBalance → Option NetBalance
  | [], _, netBalance => some netBalance
  | _ :: _, [], _ => none
  | participant :: rest, weight :: weights, netBalance =>
    let owedAmount := Dbl.fin amount * (Dbl.fin weight / divisor)
    weightedLoop amount divisor rest weights
      (netBalance.update (fun v => v - owedAmount) participant)

/-- The accumulation `totalWeight += weight` over `weights` (lines 257-260). -/
def totalWeight (weights : List ℚ) : ℚ :=
  weights.foldl (fun acc weight => acc + weight) 0

/-- One iteration of the loop over `transactions` (lines 232-270). -/
def transactionStep (groupName : String) (netBalance : NetBalance)
    (transaction : Transaction) : Option NetBalance :=
  if transaction.isSettled then some netBalance
  else if groupName ≠ "" ∧ transaction.groupName ≠ groupName then some netBalance
  else
    let charged : Option NetBalance :=
      match transaction.splitType with
      | SplitType.EQUAL =>
        let perPersonAmount :=
          Dbl.fin transaction.amount / Dbl.fin (transaction.participants.length : ℚ)
        some (equalLoop perPersonAmount transaction.participants netBalance)
      | SplitType.PERCENTAGE =>
        weightedLoop transaction.amount (Dbl.fin 100)
          transaction.participants transaction.weights netBalance
      | SplitType.CUSTOM_WEIGHT =>
        weightedLoop transaction.amount (Dbl.fin (totalWeight transaction.weights))
          transaction.participants transaction.weights netBalance
    charged.map (fun nb => nb.update (fun v => v + Dbl.fin transaction.amount) transaction.payer)

/-- One iteration of the loop over `settlements` (lines 276-280). -/
def settlementStep (groupName : String) (netBalance : NetBalance)
    (settlement : Settlement) : NetBalance :=
  if groupName ≠ "" ∧ settlement.groupName ≠ groupName then netBalance
  else
    (netBalance.update (fun v => v + Dbl.fin settlement.amount) settlement.from_).update
      (fun v => v - Dbl.fin settlement.amount) settlement.to_

/-- The function `SplitWiseApp::calculateNetBalance(groupName)`. -/
def calculateNetBalance (app : SplitWiseApp) (groupName : String) : Option NetBalance :=
  (app.transactions.foldlM (transactionStep groupName) ([] : NetBalance)).map
    (fun netBalance => app.settlements.foldl (settlementStep groupName) netBalance)

/-! ## The program on arbitrary doubles

A division by a zero divisor gives `+Inf`, `-Inf` or NaN, and the partition and
the loop of `minimizeTransactions` compare and subtract such balances. `Ieee`
keeps the three apart. The definitions of the namespace `Ieee` embed
`calculateNetBalance` and `minimizeTransactions` on such doubles: `Dbl` and
`calculateNetBalance` above are their image under `Ieee.toDbl`, and
`creditorsOf`, `debtorsOf`, `loopStep`, `runLoop` and `minimizeBalances` below
are their restriction to maps of finite balances. -/

/-- A `double`: finite and exact, `+Inf`, `-Inf` or NaN. The sign of a zero is
not kept: it shows in a quotient by that zero only, and the divisors of
`calculateNetBalance` are a size, the literal `100.0` and a sum started at `+0`,
none of which is `-0`. -/
inductive Ieee where
  | fin (q : ℚ)
  | posInf
  | negInf
  | nan
  deriving DecidableEq

namespace Ieee

/-- The comparison `x < y` of doubles: false when either is NaN. -/
def lt : Ieee → Ieee → Bool
  | fin a, fin b => decide (a < b)
  | fin _, posInf => true
  | negInf, fin _ => true
  | negInf, posInf => true
  | _, _ => false

/-- The unary minus of doubles. -/
def neg : Ieee → Ieee
  | fin a => fin (-a)
  | posInf => negInf
  | negInf => posInf
  | nan => nan

/-- The difference `x - y` of doubles: `Inf - Inf` and every difference with a
NaN is NaN. -/
def sub : Ieee → Ieee → Ieee
  | fin a, fin b => fin (a - b)
  | fin _, posInf => negInf
  | fin _, negInf => posInf
  | posInf, fin _ => posInf
  | posInf, negInf => posInf
  | negInf, fin _ => negInf
  | negInf, posInf => negInf
  | _, _ => nan

/-- The sum `x + y` of doubles: `Inf + (-Inf)` and every sum with a NaN is
NaN. -/
def add : Ieee → Ieee → Ieee
  | fin a, fin b => fin (a + b)
  | fin _, posInf => posInf
  | fin _, negInf => negInf
  | posInf, fin _ => posInf
  | posInf, posInf => posInf
  | negInf, fin _ => negInf
  | negInf, negInf => negInf
  | _, _ => nan

/-- The product `x * y` of doubles: `0 * Inf` and every product with a NaN is
NaN. -/
def mul : Ieee → Ieee → Ieee
  | fin a, fin b => fin (a * b)
  | fin a, posInf => if 0 < a then posInf else if a < 0 then negInf else nan
  | fin a, negInf => if 0 < a then negInf else if a < 0 then posInf else nan
  | posInf, fin b => if 0 < b then posInf else if b < 0 then negInf else nan
  | negInf, fin b => if 0 < b then negInf else if b < 0 then posInf else nan
  | posInf, posInf => posInf
  | posInf, negInf => negInf
  | negInf, posInf => negInf
  | negInf, negInf => posInf
  | _, _ => nan

/-- The quotient `x / y` of doubles, a zero divisor being `+0`: `x / 0` is
`+Inf` or `-Inf` by the sign of `x`, and `0 / 0`, `Inf / Inf` and every quotient
with a NaN is NaN. -/
def div : Ieee → Ieee → Ieee
  | fin a, fin b =>
    if b = 0 then (if 0 < a then posInf else if a < 0 then negInf else nan)
    else fin (a / b)
  | fin _, posInf => fin 0
  | fin _, negInf => fin 0
  | posInf, fin b => if b < 0 then negInf else posInf
  | negInf, fin b => if b < 0 then posInf else negInf
  | _, _ => nan

/-- The call `std::min(a, b)`, which returns `b` when `b < a` and `a`
otherwise. -/
def min (a b : Ieee) : Ieee :=
  if lt b a then b else a

/-- The computed double of `calculateNetBalance` that a double stands for. -/
def toDbl : Ieee → Dbl
  | fin q => Dbl.fin q
  | _ => Dbl.nonFinite

/-- The compound assignment `netBalance[key] op= ...`: `operator[]` finds the
entry of `key`, or inserts one with value 0 at its place in key order, and the
entry's value `v` becomes `f v`. -/
def update (f : Ieee → Ieee) (key : String) : List (String × Ieee) → List (String × Ieee)
  | [] => [(key, f (fin 0))]
  | (k, v) :: rest =>
    if key = k then (k, f v) :: rest
    else if key < k then (key, f (fin 0)) :: (k, v) :: rest
    else (k, v) :: update f key rest

/-- The `EQUAL` loop (lines 243-245): every participant is charged
`perPersonAmount`. -/
def equalLoop (perPersonAmount : Ieee) :
    List String → List (String × Ieee) → List (String × Ieee)
  | [], netBalance => netBalance
  | participant :: rest, netBalance =>
    equalLoop perPersonAmount rest
      (update (fun v => sub v perPersonAmount) participant netBalance)

/-- The indexed loops of `PERCENTAGE` and `CUSTOM_WEIGHT` (lines 249-252 and
261-264): the participant at position `i` is charged
`amount * (weights[i] / divisor)`; `none` when `weights` ends before
`participants` does. -/
def weightedLoop (amount : ℚ) (divisor : Ieee) :
    List String → List ℚ → List (String × Ieee) → Option (List (String × Ieee))
  | [], _, netBalance => some netBalance
  | _ :: _, [], _ => none
  | participant :: rest, weight :: weights, netBalance =>
    let owedAmount := mul (fin amount) (div (fin weight) divisor)
    weightedLoop amount divisor rest weights
      (update (fun v => sub v owedAmount) participant netBalance)

/-- One iteration of the loop over `transactions` (lines 232-270). -/
def transactionStep (groupName : String) (netBalance : List (String × Ieee))
    (transaction : Transaction) : Option (List (String × Ieee)) :=
  if transaction.isSettled then some netBalance
  else if groupName ≠ "" ∧ transaction.groupName ≠ groupName then some netBalance
  else
    let charged : Option (List (String × Ieee)) :=
      match transaction.splitType with
      | SplitType.EQUAL =>
        let perPersonAmount :=
          div (fin transaction.amount) (fin (transaction.participants.length : ℚ))
        some (equalLoop perPersonAmount transaction.participants netBalance)
      | SplitType.PERCENTAGE =>
        weightedLoop transaction.amount (fin 100)
          transaction.participants transaction.weights netBalance
      | SplitType.CUSTOM_WEIGHT =>
        weightedLoop transaction.amount (fin (totalWeight transaction.weights))
          transaction.participants transaction.weights netBalance
    charged.map (fun nb => update (fun v => add v (fin transaction.amount)) transaction.payer nb)

/-- One iteration of the loop over `settlements` (lines 276-280). -/
def settlementStep (groupName : String) (netBalance : List (String × Ieee))
    (settlement : Settlement) : List (String × Ieee) :=
  if groupName ≠ "" ∧ settlement.groupName ≠ groupName then netBalance
  else
    update (fun v => sub v (fin settlement.amount)) settlement.to_
      (update (fun v => add v (fin settlement.amount)) settlement.from_ netBalance)

/-- The function `SplitWiseApp::calculateNetBalance(groupName)` with the
non-finite balances kept apart. -/
def calculateNetBalance (app : SplitWiseApp) (groupName : String) :
    Option (List (String × Ieee)) :=
  (app.transactions.foldlM (transactionStep groupName) ([] : List (String × Ieee))).map
    (fun netBalance => app.settlements.foldl (settlementStep groupName) netBalance)

/-- The balance map of `calculateNetBalance` that a map of doubles stands for. -/
def toNetBalance (netBalance : List (String × Ieee)) : NetBalance :=
  netBalance.map (fun e => (e.1, toDbl e.2))

/-- A suggested payment with its `settleAmount` as a double. -/
structure Payment where
  debtor : String
  creditor : String
  settleAmount : Ieee
  deriving DecidableEq

/-- The `creditors` vector built by the partition loop (lines 327-333): the
entries with `balance.second > 0.01`, in map order. -/
def creditorsOf (netBalance : List (String × Ieee)) : List (String × Ieee) :=
  netBalance.filterMap (fun balance =>
    if lt (fin (1 / 100)) balance.2 then some (balance.1, balance.2) else none)

/-- The `debtors` vector built by the partition loop (lines 327-333): the
entries that are not creditors and have `balance.second < -0.01`, in map order,
each with `-balance.second`. -/
def debtorsOf (netBalance : List (String × Ieee)) : List (String × Ieee) :=
  netBalance.filterMap (fun balance =>
    if lt (fin (1 / 100)) balance.2 then none
    else if lt balance.2 (fin (-(1 / 100))) then some (balance.1, neg balance.2) else none)

/-- The variables of the loop of lines 343-357. -/
structure LoopState where
  creditors : List (String × Ieee)
  debtors : List (String × Ieee)
  i : Nat
  j : Nat
  settlements : List Payment

/-- One iteration of the `while` loop (lines 344-357); `none` when the loop
condition `i < creditors.size() && j < debtors.size()` is false. -/
def loopStep (s : LoopState) : Option LoopState :=
  match s.creditors[s.i]?, s.debtors[s.j]? with
  | some creditor, some debtor =>
    let settleAmount := min creditor.2 debtor.2
    let creditorLeft := sub creditor.2 settleAmount
    let debtorLeft := sub debtor.2 settleAmount
    some
      { creditors := s.creditors.set s.i (creditor.1, creditorLeft)
        debtors := s.debtors.set s.j (debtor.1, debtorLeft)
        i := if lt creditorLeft (fin (1 / 100)) then s.i + 1 else s.i
        j := if lt debtorLeft (fin (1 / 100)) then s.j + 1 else s.j
        settlements := s.settlements ++ [⟨debtor.1, creditor.1, settleAmount⟩] }
  | _, _ => none

/-- The `while` loop run for at most `fuel` iterations: the state at which the
loop condition is false, or `none` when `fuel` iterations do not reach it. -/
def runLoop : Nat → LoopState → Option LoopState
  | 0, s =>
    match loopStep s with
    | none => some s
    | some _ => none
  | fuel + 1, s =>
    match loopStep s with
    | none => some s
    | some s' => runLoop fuel s'

/-- The body of `minimizeTransactions` after line 322 on a balance map of
arbitrary doubles, its loop run for at most `fuel` iterations: the payments
emitted, in order, or `none` when the loop has not ended by then. -/
def minimizeBalances (fuel : Nat) (netBalance : List (String × Ieee)) :
    Option (List Payment) :=
  let creditors := creditorsOf netBalance
  let debtors := debtorsOf netBalance
  if creditors = [] ∧ debtors = [] then some []
  else
    (runLoop fuel
      { creditors := creditors, debtors := debtors, i := 0, j := 0, settlements := [] }).map
      (fun s => s.settlements)

/-- The function `SplitWiseApp::minimizeTransactions(groupName)`, its loop run
for at most `fuel` iterations: the returned vector of (debtor, creditor) pairs,
or `none` when `weights[i]` is read out of range or the loop has not ended by
then. -/
def minimizeTransactions (fuel : Nat) (app : SplitWiseApp) (groupName : String) :
    Option (List (String × String)) :=
  (calculateNetBalance app groupName).bind fun netBalance =>
    (minimizeBalances fuel netBalance).map fun payments =>
      payments.map fun p => (p.debtor, p.creditor)

end Ieee

/-! ## `minimizeTransactions` (lines 321-360) on finite balances -/

/-- A suggested payment: the debtor, the creditor and the `settleAmount` of one
iteration of the loop, which prints all three (lines 347-348) and pushes the
two names (line 350). -/
structure Payment where
  debtor : String
  creditor : String
  settleAmount : ℚ
  deriving DecidableEq

/-- The `creditors` vector built by the partition loop (lines 327-333): the
entries with `balance.second > 0.01`, in map order. -/
def creditorsOf (netBalance : List (String × ℚ)) : List (String × ℚ) :=
  netBalance.filterMap (fun balance =>
    if balance.2 > 1 / 100 then some (balance.1, balance.2) else none)

/-- The `debtors` vector built by the partition loop (lines 327-333): the
entries that are not creditors and have `balance.second < -0.01`, in map order,
each with `-balance.second`. -/
def debtorsOf (netBalance : List (String × ℚ)) : List (String × ℚ) :=
  netBalance.filterMap (fun balance =>
    if balance.2 > 1 / 100 then none
    else if balance.2 < -(1 / 100) then some (balance.1, -balance.2) else none)

/-- The variables of the loop of lines 343-357. -/
structure LoopState where
  creditors : List (String × ℚ)
  debtors : List (String × ℚ)
  i : Nat
  j : Nat
  settlements : List Payment

/-- One iteration of the `while` loop (lines 344-357); `none` when the loop
condition `i < creditors.size() && j < debtors.size()` is false. -/
def loopStep (s : LoopState) : Option LoopState :=
  match s.creditors[s.i]?, s.debtors[s.j]? with
  | some creditor, some debtor =>
    let settleAmount := min creditor.2 debtor.2
    let creditorLeft := creditor.2 - settleAmount
    let debtorLeft := debtor.2 - settleAmount
    some
      { creditors := s.creditors.set s.i (creditor.1, creditorLeft)
        debtors := s.debtors.set s.j (debtor.1, debtorLeft)
        i := if creditorLeft < 1 / 100 then s.i + 1 else s.i
        j := if debtorLeft < 1 / 100 then s.j + 1 else s.j
        settlements := s.settlements ++ [⟨debtor.1, creditor.1, settleAmount⟩] }
  | _, _ => none

/-- The `while` loop run for at most `fuel` iterations: the state at which the
loop condition is false, or `none` when `fuel` iterations do not reach it. -/
def runLoop : Nat → LoopState → Option LoopState
  | 0, s =>
    match loopStep s with
    | none => some s
    | some _ => none
  | fuel + 1, s =>
    match loopStep s with
    | none => some s
    | some s' => runLoop fuel s'

/-- The body of `minimizeTransactions` after line 322 on a balance map of
finite balances: the payments emitted, in order. The loop is given
`creditors.size() + debtors.size()` iterations, within which it ends on such a
map. It is `Ieee.minimizeBalances` restricted to the maps of finite balances
(`minimizeBalances_asDoubles`). -/
def minimizeBalances (netBalance : List (String × ℚ)) : Option (List Payment) :=
  let creditors := creditorsOf netBalance
  let debtors := debtorsOf netBalance
  if creditors = [] ∧ debtors = [] then some []
  else
    (runLoop (creditors.length + debtors.length)
      { creditors := creditors, debtors := debtors, i := 0, j := 0, settlements := [] }).map
      (fun s => s.settlements)

/-- The balance map with its values as rationals; `none` when a value is
non-finite. -/
def finiteBalances : NetBalance → Option (List (String × ℚ))
  | [] => some []
  | (k, Dbl.fin q) :: rest => (finiteBalances rest).map (fun m => (k, q) :: m)
  | (_, Dbl.nonFinite) :: _ => none

/-- A list of entries with finite amounts, as entries of doubles. -/
def asDoubles (entries : List (String × ℚ)) : List (String × Ieee) :=
  entries.map (fun e => (e.1, Ieee.fin e.2))

/-- A payment of a finite amount, as a payment of a double. -/
def Payment.toIeee (p : Payment) : Ieee.Payment :=
  { debtor := p.debtor, creditor := p.creditor, settleAmount := Ieee.fin p.settleAmount }

/-- A loop state with finite amounts, as a loop state of doubles. -/
def LoopState.toIeee (s : LoopState) : Ieee.LoopState :=
  { creditors := asDoubles s.creditors, debtors := asDoubles s.debtors, i := s.i, j := s.j,
    settlements := s.settlements.map Payment.toIeee }

/-! ## Quantities the statements refer to -/

/-- The payments that the loop emits from a state in which `creditors` and
`debtors` are the entries from the two cursors onward. -/
def settleFrom : List (String × ℚ) → List (String × ℚ) → List Payment
  | creditor :: creditors, debtor :: debtors =>
    ⟨debtor.1, creditor.1, min creditor.2 debtor.2⟩ ::
      settleFrom
        (if creditor.2 - min creditor.2 debtor.2 < 1 / 100 then creditors
          else (creditor.1, creditor.2 - min creditor.2 debtor.2) :: creditors)
        (if debtor.2 - min creditor.2 debtor.2 < 1 / 100 then debtors
          else (debtor.1, debtor.2 - min creditor.2 debtor.2) :: debtors)
  | [], _ => []
  | _ :: _, [] => []
termination_by creditors debtors => creditors.length + debtors.length
decreasing_by
  simp_wf
  rcases le_total creditor.2 debtor.2 with h | h
  · have h1 : creditor.2 - min creditor.2 debtor.2 < 100⁻¹ := by
      rw [min_eq_left h]; norm_num
    rw [if_pos h1]
    split_ifs <;> first | omega | (simp only [List.length_cons]; omega)
  · have h1 : debtor.2 - min creditor.2 debtor.2 < 100⁻¹ := by
      rw [min_eq_right h]; norm_num
    rw [if_pos h1]
    split_ifs <;> first | omega | (simp only [List.length_cons]; omega)

/-- The number of entries from the two cursors onward. -/
def LoopState.remaining (s : LoopState) : Nat :=
  (s.creditors.length - s.i) + (s.debtors.length - s.j)

/-- The sum of the amounts of the payments that name `creditor` as creditor. -/
def paidTo (creditor : String) (payments : List Payment) : ℚ :=
  ((payments.filter (fun p => p.creditor = creditor)).map Payment.settleAmount).sum

/-- The sum of the amounts of the payments that name `debtor` as debtor. -/
def paidBy (debtor : String) (payments : List Payment) : ℚ :=
  ((payments.filter (fun p => p.debtor = debtor)).map Payment.settleAmount).sum

namespace Ieee

/-- The number of entries from the two cursors onward. -/
def LoopState.remaining (s : LoopState) : Nat :=
  (s.creditors.length - s.i) + (s.debtors.length - s.j)

/-- The map holds no `+Inf` balance, or it holds no `-Inf` balance. -/
def OneSided (netBalance : List (String × Ieee)) : Prop :=
  (∀ e ∈ netBalance, e.2 ≠ posInf) ∨ (∀ e ∈ netBalance, e.2 ≠ negInf)

/-- The payments of the first `fuel` iterations of the loop from a state in
which `creditors` and `debtors` are the entries from the two cursors onward. -/
def settleFrom : Nat → List (String × Ieee) → List (String × Ieee) → List Payment
  | fuel + 1, creditor :: creditors, debtor :: debtors =>
    ⟨debtor.1, creditor.1, min creditor.2 debtor.2⟩ ::
      settleFrom fuel
        (if lt (sub creditor.2 (min creditor.2 debtor.2)) (fin (1 / 100)) then creditors
          else (creditor.1, sub creditor.2 (min creditor.2 debtor.2)) :: creditors)
        (if lt (sub debtor.2 (min creditor.2 debtor.2)) (fin (1 / 100)) then debtors
          else (debtor.1, sub debtor.2 (min creditor.2 debtor.2)) :: debtors)
  | _, _, _ => []

end Ieee

/-- The sum of `amount * weights[i] / divisor` over the positions `i` at which
`participants[i]` is `person`. -/
def chargedTo (amount divisor : ℚ) (person : String)
    (participants : List String) (weights : List ℚ) : ℚ :=
  (((participants.zip weights).filter (fun e => e.1 = person)).map
    (fun e => amount * e.2 / divisor)).sum

/-- A transaction that `calculateNetBalance(groupName)` aggregates: one that is
not settled and that the group filter does not skip. -/
def Transaction.Aggregated (groupName : String) (t : Transaction) : Prop :=
  t.isSettled = false ∧ (groupName = "" ∨ t.groupName = groupName)

/-- A settlement that `calculateNetBalance(groupName)` applies: one that the
group filter does not skip. -/
def Settlement.Applied (groupName : String) (s : Settlement) : Prop :=
  groupName = "" ∨ s.groupName = groupName

/-- A transaction whose shares add up to its amount: Equal with at least one
participant; Percentage with one weight per participant and weights summing to
100; CustomWeight with one weight per participant and a non-zero weight total. -/
def Transaction.WellFormed (t : Transaction) : Prop :=
  match t.splitType with
  | SplitType.EQUAL => 1 ≤ t.participants.length
  | SplitType.PERCENTAGE =>
    t.weights.length = t.participants.length ∧ t.weights.sum = 100
  | SplitType.CUSTOM_WEIGHT =>
    t.weights.length = t.participants.length ∧ t.weights.sum ≠ 0

/-! ## Example stores (spec §8) -/

/-- A transaction with the given payer, amount, participants, policy and
weights, without a group and not settled. -/
def mkTransaction (payer : String) (amount : ℚ) (participants : List String)
    (splitType : SplitType) (weights : List ℚ) : Transaction :=
  { id := 1, payer := payer, amount := amount, participants := participants,
    weights := weights, splitType := splitType, description := "", date := "",
    groupName := "", isSettled := false }

/-- A store holding the given transactions and settlements. -/
def mkApp (transactions : List Transaction) (settlements : List Settlement) : SplitWiseApp :=
  { transactions := transactions, settlements := settlements, groups := [],
    nextTransactionId := 2 }

/-- Amount 300 paid by A for [A, B, C], split equally. -/
def exampleEqual : SplitWiseApp :=
  mkApp [mkTransaction "A" 300 ["A", "B", "C"] SplitType.EQUAL []] []

/-- Amount 100 paid by A for [A, B], split 60% / 40%. -/
def examplePercentage : SplitWiseApp :=
  mkApp [mkTransaction "A" 100 ["A", "B"] SplitType.PERCENTAGE [60, 40]] []

/-- Amount 100 paid by A for [A, B], with percentages 60 and 30. -/
def examplePercentageShort : SplitWiseApp :=
  mkApp [mkTransaction "A" 100 ["A", "B"] SplitType.PERCENTAGE [60, 30]] []

/-- Amount 90 paid by A for [A, B, C], with weights 1, 2, 3. -/
def exampleCustomWeight : SplitWiseApp :=
  mkApp [mkTransaction "A" 90 ["A", "B", "C"] SplitType.CUSTOM_WEIGHT [1, 2, 3]] []

/-- Amount 90 paid by A for [A, B], with weights 0 and 0, whose total is zero. -/
def exampleZeroWeight : SplitWiseApp :=
  mkApp [mkTransaction "A" 90 ["A", "B"] SplitType.CUSTOM_WEIGHT [0, 0]] []

/-- The settlement of 100 from B to A, without a group. -/
def exampleSettlement : Settlement :=
  { transactionId := 0, from_ := "B", to_ := "A", amount := 100, date := "", groupName := "" }

/-- The store of `exampleEqual` followed by the settlement of 100 from B to A. -/
def exampleSettled : SplitWiseApp :=
  mkApp exampleEqual.transactions (exampleEqual.settlements ++ [exampleSettlement])

/-- The balances {A: +100, B: -60, C: -40}. -/
def exampleBalances : List (String × ℚ) :=
  [("A", 100), ("B", -60), ("C", -40)]

/-- The balances {A: +50, B: +50, C: -49.992, D: -49.992, E: -0.016}, which sum
to zero. -/
def exampleDrift : List (String × ℚ) :=
  [("A", 50), ("B", 50), ("C", -(49992 / 1000)), ("D", -(49992 / 1000)), ("E", -(16 / 1000))]

/-- The store restricted to the transactions and settlements whose `groupName`
is exactly `groupName`. -/
def restrictToGroup (app : SplitWiseApp) (groupName : String) : SplitWiseApp :=
  { app with
    transactions := app.transactions.filter (fun t => t.groupName = groupName)
    settlements := app.settlements.filter (fun s => s.groupName = groupName) }

/-- The store with the group of every transaction and settlement replaced. -/
def regroup (app : SplitWiseApp) (ofTransaction : Transaction → String)
    (ofSettlement : Settlement → String) : SplitWiseApp :=
  { app with
    transactions := app.transactions.map (fun t => { t with groupName := ofTransaction t })
    settlements := app.settlements.map (fun s => { s with groupName := ofSettlement s }) }

/-- A store with 300 paid by A for [A, B, C] in the group "trip", 90 paid by B
for [A, B] without a group, and a settlement of 100 from B to A in "trip". -/
def exampleGrouped : SplitWiseApp :=
  mkApp
    [{ mkTransaction "A" 300 ["A", "B", "C"] SplitType.EQUAL [] with groupName := "trip" },
      mkTransaction "B" 90 ["A", "B"] SplitType.EQUAL []]
    [{ exampleSettlement with groupName := "trip" }]

/-- Negation of doubles: the negation of a non-finite value is non-finite. -/
def Dbl.neg : Dbl → Dbl
  | Dbl.fin a => Dbl.fin (-a)
  | Dbl.nonFinite => Dbl.nonFinite

/-- The map `nb'` is `nb` with the keys `keys` added and `change p` added to
the balance of every person `p`. -/
def Shifts (keys : List String) (change : String → Dbl) (nb nb' : NetBalance) : Prop :=
  NetBalance.Ordered nb' ∧
  (∀ p, p ∈ nb'.map Prod.fst ↔ p ∈ nb.map Prod.fst ∨ p ∈ keys) ∧
  (∀ p, NetBalance.balanceOf p nb' = NetBalance.balanceOf p nb + change p)

/-- A step on balance maps that either fails on every map or adds the same keys
and the same change of balance to every map with ascending keys. -/
def IsShift (step : NetBalance → Option NetBalance) : Prop :=
  (∀ nb, step nb = none) ∨
  ∃ keys change, ∀ nb, NetBalance.Ordered nb →
    ∃ nb', step nb = some nb' ∧ Shifts keys change nb nb'

/-- The transaction `t'` is `t` with its participants left as they are or
permuted: for an Equal transaction the participants alone, otherwise the
participants together with their positionally aligned weights. -/
def Transaction.Reordered (t t' : Transaction) : Prop :=
  t'.payer = t.payer ∧ t'.amount = t.amount ∧ t'.splitType = t.splitType ∧
  t'.groupName = t.groupName ∧ t'.isSettled = t.isSettled ∧
  ((t'.participants = t.participants ∧ t'.weights = t.weights) ∨
    (t.splitType = SplitType.EQUAL ∧ t.participants.Perm t'.participants) ∨
    ∃ pairs pairs' : List (String × ℚ), pairs.Perm pairs' ∧
      t.participants = pairs.map Prod.fst ∧ t.weights = pairs.map Prod.snd ∧
      t'.participants = pairs'.map Prod.fst ∧ t'.weights = pairs'.map Prod.snd)

/-- Amount 90 paid by D for [A, A, B], split equally: the payer is not a
participant and A takes part twice; followed by a settlement of 100 from B to
A. -/
def exampleOutsidePayer : SplitWiseApp :=
  mkApp [mkTransaction "D" 90 ["A", "A", "B"] SplitType.EQUAL []] [exampleSettlement]

/-- A store with 90 paid by A for [A, B, C] under weights 1, 2, 3, then 300 paid
by B for [A, B, C] split equally, and the settlements of 100 from B to A and of
10 from C to A. -/
def exampleOrder : SplitWiseApp :=
  mkApp
    [mkTransaction "A" 90 ["A", "B", "C"] SplitType.CUSTOM_WEIGHT [1, 2, 3],
      mkTransaction "B" 300 ["A", "B", "C"] SplitType.EQUAL []]
    [exampleSettlement, { exampleSettlement with from_ := "C", amount := 10 }]

/-- The store `exampleOrder` with its two transactions exchanged. -/
def exampleOrderTransactions : SplitWiseApp :=
  mkApp
    [mkTransaction "B" 300 ["A", "B", "C"] SplitType.EQUAL [],
      mkTransaction "A" 90 ["A", "B", "C"] SplitType.CUSTOM_WEIGHT [1, 2, 3]]
    [exampleSettlement, { exampleSettlement with from_ := "C", amount := 10 }]

/-- The store `exampleOrder` with its two settlements exchanged. -/
def exampleOrderSettlements : SplitWiseApp :=
  mkApp
    [mkTransaction "A" 90 ["A", "B", "C"] SplitType.CUSTOM_WEIGHT [1, 2, 3],
      mkTransaction "B" 300 ["A", "B", "C"] SplitType.EQUAL []]
    [{ exampleSettlement with from_ := "C", amount := 10 }, exampleSettlement]

/-- The store `exampleOrder` with the first two participants of its first
transaction exchanged together with their weights. -/
def exampleOrderParticipants : SplitWiseApp :=
  mkApp
    [mkTransaction "A" 90 ["B", "A", "C"] SplitType.CUSTOM_WEIGHT [2, 1, 3],
      mkTransaction "B" 300 ["A", "B", "C"] SplitType.EQUAL []]
    [exampleSettlement, { exampleSettlement with from_ := "C", amount := 10 }]

/-- The balances {A: -Inf, B: +60, C: +40, D: NaN}: one infinite debt, no
infinite credit, and a NaN balance, which the partition leaves out. -/
def exampleOneInfinity : List (String × Ieee) :=
  [("A", Ieee.negInf), ("B", Ieee.fin 60), ("C", Ieee.fin 40), ("D", Ieee.nan)]

/-- A store whose balances are `exampleOneInfinity`: 90 paid by A for [A, D]
under the weights 1 and -1, 90 paid by A for [D, D] under the weights 1 and -1,
60 paid by B for [A] and 40 paid by C for [A]. -/
def exampleOneInfinityStore : SplitWiseApp :=
  mkApp
    [mkTransaction "A" 90 ["A", "D"] SplitType.CUSTOM_WEIGHT [1, -1],
      mkTransaction "A" 90 ["D", "D"] SplitType.CUSTOM_WEIGHT [1, -1],
      mkTransaction "B" 60 ["A"] SplitType.EQUAL [],
      mkTransaction "C" 40 ["A"] SplitType.EQUAL []]
    []

/-! # Properties -/

/-! ## Arithmetic of computed doubles -/

namespace Dbl

@[simp] theorem fin_add_fin (a b : ℚ) : fin a + fin b = fin (a + b) := rfl

@[simp] theorem fin_sub_fin (a b : ℚ) : fin a - fin b = fin (a - b) := rfl

@[simp] theorem fin_mul_fin (a b : ℚ) : fin a * fin b = fin (a * b) := rfl

theorem fin_div_fin (a b : ℚ) :
    fin a / fin b = if b = 0 then nonFinite else fin (a / b) := rfl

@[simp] theorem fin_div_fin_of_ne (a : ℚ) {b : ℚ} (hb : b ≠ 0) :
    fin a / fin b = fin (a / b) := by
  simp [fin_div_fin, hb]

@[simp] theorem fin_div_zero (a : ℚ) : fin a / fin 0 = nonFinite := by
  simp [fin_div_fin]

@[simp] theorem nonFinite_add (x : Dbl) : nonFinite + x = nonFinite := rfl

@[simp] theorem add_nonFinite (x : Dbl) : x + nonFinite = nonFinite := by
  cases x <;> rfl

@[simp] theorem nonFinite_sub (x : Dbl) : nonFinite - x = nonFinite := rfl

@[simp] theorem sub_nonFinite (x : Dbl) : x - nonFinite = nonFinite := by
  cases x <;> rfl

@[simp] theorem nonFinite_mul (x : Dbl) : nonFinite * x = nonFinite := rfl

@[simp] theorem mul_nonFinite (x : Dbl) : x * nonFinite = nonFinite := by
  cases x <;> rfl

@[simp] theorem dzero_add (x : Dbl) : fin 0 + x = x := by
  cases x <;> simp

@[simp] theorem dadd_zero (x : Dbl) : x + fin 0 = x := by
  cases x <;> simp

theorem dadd_comm (x y : Dbl) : x + y = y + x := by
  cases x <;> cases y <;> simp [add_comm]

theorem dadd_assoc (x y z : Dbl) : x + y + z = x + (y + z) := by
  cases x <;> cases y <;> cases z <;> simp [add_assoc]

theorem sub_add_eq (v x t : Dbl) : v - x + t = v + t - x := by
  cases v <;> cases x <;> cases t <;> simp
  ring

theorem dadd_sub_assoc (t v x : Dbl) : t + (v - x) = t + v - x := by
  cases v <;> cases x <;> cases t <;> simp
  ring

end Dbl

/-! ## The balance map: order, lookup and total under `update` -/

namespace NetBalance

theorem ordered_nil : Ordered ([] : List (String × α)) := by
  simp [Ordered]

theorem ordered_cons {k : String} {v : α} {rest : List (String × α)} :
    Ordered ((k, v) :: rest) ↔ (∀ e ∈ rest, k < e.1) ∧ Ordered rest := by
  simp [Ordered, List.pairwise_cons]

theorem mem_update_key {f : Dbl → Dbl} {key : String} {nb : NetBalance}
    {e : String × Dbl} (he : e ∈ update f key nb) :
    e.1 = key ∨ e ∈ nb := by
  induction nb with
  | nil =>
    simp only [update, List.mem_singleton] at he
    left; rw [he]
  | cons hd rest ih =>
    obtain ⟨k, v⟩ := hd
    simp only [update] at he
    split_ifs at he with h1 h2
    · rcases List.mem_cons.mp he with h | h
      · left; rw [h, h1]
      · right; exact List.mem_cons_of_mem _ h
    · rcases List.mem_cons.mp he with h | h
      · left; rw [h]
      · right; exact h
    · rcases List.mem_cons.mp he with h | h
      · right; rw [h]; exact List.mem_cons_self _ _
      · rcases ih h with h3 | h3
        · left; exact h3
        · right; exact List.mem_cons_of_mem _ h3

theorem ordered_update (f : Dbl → Dbl) (key : String) {nb : NetBalance}
    (h : Ordered nb) : Ordered (update f key nb) := by
  induction nb with
  | nil => simp [update, Ordered]
  | cons hd rest ih =>
    obtain ⟨k, v⟩ := hd
    rw [ordered_cons] at h
    simp only [update]
    split_ifs with h1 h2
    · rw [ordered_cons]; exact h
    · rw [ordered_cons]
      refine ⟨?_, ordered_cons.mpr h⟩
      intro e he
      rcases List.mem_cons.mp he with h3 | h3
      · rw [h3]; exact h2
      · exact lt_trans h2 (h.1 e h3)
    · rw [ordered_cons]
      refine ⟨?_, ih h.2⟩
      intro e he
      rcases mem_update_key he with h3 | h3
      · rw [h3]
        exact lt_of_le_of_ne (not_lt.mp h2) (fun h4 => h1 h4.symm)
      · exact h.1 e h3

theorem balanceOf_eq_zero_of_lt {person : String} {nb : NetBalance}
    (h : ∀ e ∈ nb, person < e.1) : balanceOf person nb = Dbl.fin 0 := by
  induction nb with
  | nil => rfl
  | cons hd rest ih =>
    obtain ⟨k, v⟩ := hd
    have hk : person < k := h (k, v) (List.mem_cons_self _ _)
    simp only [balanceOf, if_neg (ne_of_lt hk)]
    exact ih (fun e he => h e (List.mem_cons_of_mem _ he))

theorem balanceOf_update (f : Dbl → Dbl) (key person : String) {nb : NetBalance}
    (h : Ordered nb) :
    balanceOf person (update f key nb) =
      if person = key then f (balanceOf key nb) else balanceOf person nb := by
  induction nb with
  | nil =>
    simp only [update, balanceOf]
  | cons hd rest ih =>
    obtain ⟨k, v⟩ := hd
    rw [ordered_cons] at h
    by_cases h1 : key = k
    · subst h1
      by_cases h3 : person = key
      · subst h3; simp [update, balanceOf]
      · simp [update, balanceOf, h3]
    · by_cases h2 : key < k
      · have h6 : balanceOf key rest = Dbl.fin 0 :=
          balanceOf_eq_zero_of_lt (fun e he => lt_trans h2 (h.1 e he))
        by_cases h3 : person = key
        · subst h3; simp [update, balanceOf, h1, h2, h6]
        · simp [update, balanceOf, h1, h2, h3]
      · by_cases h3 : person = key
        · subst h3
          simp only [update, if_neg h1, if_neg h2, balanceOf]
          rw [ih h.2]; simp
        · simp only [update, if_neg h1, if_neg h2, balanceOf]
          rw [ih h.2]; simp [h3]

theorem total_update_add (x : Dbl) (key : String) (nb : NetBalance) :
    total (update (fun v => v + x) key nb) = total nb + x := by
  induction nb with
  | nil => simp [update, total]
  | cons hd rest ih =>
    obtain ⟨k, v⟩ := hd
    simp only [update]
    split_ifs with h1 h2
    · simp only [total]
      rw [Dbl.dadd_assoc, Dbl.dadd_comm x, ← Dbl.dadd_assoc]
    · simp only [total, Dbl.dzero_add]
      rw [Dbl.dadd_comm]
    · simp only [total]
      rw [ih, Dbl.dadd_assoc]

theorem total_update_sub (x : Dbl) (key : String) (nb : NetBalance) :
    total (update (fun v => v - x) key nb) = total nb - x := by
  induction nb with
  | nil =>
    simp only [update, total, Dbl.dadd_zero]
  | cons hd rest ih =>
    obtain ⟨k, v⟩ := hd
    simp only [update]
    split_ifs with h1 h2
    · simp only [total]
      rw [Dbl.sub_add_eq]
    · simp only [total]
      rw [Dbl.sub_add_eq, Dbl.dzero_add]
    · simp only [total]
      rw [ih, Dbl.dadd_sub_assoc]

end NetBalance

/-! ## The charging loops -/

theorem chargedTo_nil (amount divisor : ℚ) (person : String) (weights : List ℚ) :
    chargedTo amount divisor person [] weights = 0 := by
  simp [chargedTo]

theorem chargedTo_cons (amount divisor : ℚ) (person p : String) (ps : List String)
    (w : ℚ) (ws : List ℚ) :
    chargedTo amount divisor person (p :: ps) (w :: ws) =
      (if p = person then amount * w / divisor else 0) +
        chargedTo amount divisor person ps ws := by
  by_cases h : p = person <;> simp [chargedTo, List.filter_cons, h]

theorem totalWeight_eq_sum (weights : List ℚ) : totalWeight weights = weights.sum := by
  have h : ∀ (ws : List ℚ) (acc : ℚ),
      ws.foldl (fun acc weight => acc + weight) acc = acc + ws.sum := by
    intro ws
    induction ws with
    | nil => intro acc; simp
    | cons w ws ih => intro acc; simp [List.foldl_cons, ih, add_assoc]
  simp [totalWeight, h]

theorem ordered_equalLoop (s : Dbl) (ps : List String) {nb : NetBalance}
    (h : NetBalance.Ordered nb) : NetBalance.Ordered (equalLoop s ps nb) := by
  induction ps generalizing nb with
  | nil => exact h
  | cons p ps ih => exact ih (NetBalance.ordered_update _ _ h)

theorem ordered_weightedLoop (amount : ℚ) (divisor : Dbl) (ps : List String)
    (ws : List ℚ) {nb nb' : NetBalance} (h : NetBalance.Ordered nb)
    (hr : weightedLoop amount divisor ps ws nb = some nb') : NetBalance.Ordered nb' := by
  induction ps generalizing nb ws with
  | nil =>
    simp only [weightedLoop, Option.some.injEq] at hr
    rw [← hr]; exact h
  | cons p ps ih =>
    cases ws with
    | nil => simp [weightedLoop] at hr
    | cons w ws =>
      simp only [weightedLoop] at hr
      exact ih ws (NetBalance.ordered_update _ _ h) hr

theorem balanceOf_equalLoop (s : ℚ) (person : String) (ps : List String)
    {nb : NetBalance} {b : ℚ} (h : NetBalance.Ordered nb)
    (hb : NetBalance.balanceOf person nb = Dbl.fin b) :
    NetBalance.balanceOf person (equalLoop (Dbl.fin s) ps nb) =
      Dbl.fin (b - (ps.count person : ℚ) * s) := by
  induction ps generalizing nb b with
  | nil => simp [equalLoop, hb]
  | cons p ps ih =>
    simp only [equalLoop]
    by_cases hp : person = p
    · subst hp
      have h2 : NetBalance.balanceOf person
          (NetBalance.update (fun v => v - Dbl.fin s) person nb) = Dbl.fin (b - s) := by
        rw [NetBalance.balanceOf_update _ _ _ h]; simp [hb]
      rw [ih (NetBalance.ordered_update _ _ h) h2]
      simp only [List.count_cons_self, Nat.cast_add, Nat.cast_one]
      congr 1; ring
    · have h2 : NetBalance.balanceOf person
          (NetBalance.update (fun v => v - Dbl.fin s) p nb) = Dbl.fin b := by
        rw [NetBalance.balanceOf_update _ _ _ h]; simp [hp, hb]
      rw [ih (NetBalance.ordered_update _ _ h) h2]
      rw [List.count_cons_of_ne hp]

theorem balanceOf_weightedLoop (amount : ℚ) {divisor : ℚ} (hd : divisor ≠ 0)
    (person : String) (ps : List String) (ws : List ℚ) (hlen : ps.length ≤ ws.length)
    {nb : NetBalance} {b : ℚ} (h : NetBalance.Ordered nb)
    (hb : NetBalance.balanceOf person nb = Dbl.fin b) :
    ∃ nb', weightedLoop amount (Dbl.fin divisor) ps ws nb = some nb' ∧
      NetBalance.balanceOf person nb' =
        Dbl.fin (b - chargedTo amount divisor person ps ws) := by
  induction ps generalizing nb b ws with
  | nil => exact ⟨nb, rfl, by simp [chargedTo_nil, hb]⟩
  | cons p ps ih =>
    cases ws with
    | nil => simp at hlen
    | cons w ws =>
      have hlen2 : ps.length ≤ ws.length := by simpa using hlen
      simp only [weightedLoop, Dbl.fin_div_fin_of_ne _ hd, Dbl.fin_mul_fin]
      by_cases hp : person = p
      · subst hp
        have h2 : NetBalance.balanceOf person
            (NetBalance.update (fun v => v - Dbl.fin (amount * (w / divisor))) person nb) =
              Dbl.fin (b - amount * (w / divisor)) := by
          rw [NetBalance.balanceOf_update _ _ _ h]; simp [hb]
        obtain ⟨nb', h3, h4⟩ := ih ws hlen2 (NetBalance.ordered_update _ _ h) h2
        refine ⟨nb', h3, ?_⟩
        rw [h4, chargedTo_cons]
        simp only [if_true]
        congr 1; ring
      · have h2 : NetBalance.balanceOf person
            (NetBalance.update (fun v => v - Dbl.fin (amount * (w / divisor))) p nb) =
              Dbl.fin b := by
          rw [NetBalance.balanceOf_update _ _ _ h]; simp [hp, hb]
        obtain ⟨nb', h3, h4⟩ := ih ws hlen2 (NetBalance.ordered_update _ _ h) h2
        refine ⟨nb', h3, ?_⟩
        rw [h4, chargedTo_cons]
        have hp2 : ¬ p = person := fun h5 => hp h5.symm
        simp [hp2]

/-! ## Totals under the charging loops -/

theorem total_equalLoop (s : ℚ) (ps : List String) {nb : NetBalance} {t : ℚ}
    (ht : NetBalance.total nb = Dbl.fin t) :
    NetBalance.total (equalLoop (Dbl.fin s) ps nb) = Dbl.fin (t - (ps.length : ℚ) * s) := by
  induction ps generalizing nb t with
  | nil => simp [equalLoop, ht]
  | cons p ps ih =>
    simp only [equalLoop]
    have h2 : NetBalance.total (NetBalance.update (fun v => v - Dbl.fin s) p nb) =
        Dbl.fin (t - s) := by
      rw [NetBalance.total_update_sub, ht]; rfl
    rw [ih h2]
    simp only [List.length_cons, Nat.cast_add, Nat.cast_one]
    congr 1; ring

theorem total_weightedLoop (amount : ℚ) {divisor : ℚ} (hd : divisor ≠ 0)
    (ps : List String) (ws : List ℚ) (hlen : ws.length = ps.length)
    {nb : NetBalance} {t : ℚ} (ht : NetBalance.total nb = Dbl.fin t) :
    ∃ nb', weightedLoop amount (Dbl.fin divisor) ps ws nb = some nb' ∧
      NetBalance.total nb' = Dbl.fin (t - amount * ws.sum / divisor) := by
  induction ps generalizing nb t ws with
  | nil =>
    have hws : ws = [] := List.length_eq_zero.mp (by simpa using hlen)
    exact ⟨nb, rfl, by simp [hws, ht]⟩
  | cons p ps ih =>
    cases ws with
    | nil => simp at hlen
    | cons w ws =>
      have hlen2 : ws.length = ps.length := by simpa using hlen
      simp only [weightedLoop, Dbl.fin_div_fin_of_ne _ hd, Dbl.fin_mul_fin]
      have h2 : NetBalance.total
          (NetBalance.update (fun v => v - Dbl.fin (amount * (w / divisor))) p nb) =
            Dbl.fin (t - amount * (w / divisor)) := by
        rw [NetBalance.total_update_sub, ht]; rfl
      obtain ⟨nb', h3, h4⟩ := ih ws hlen2 h2
      refine ⟨nb', h3, ?_⟩
      rw [h4, List.sum_cons]
      congr 1; ring

theorem total_transactionStep (groupName : String) (t : Transaction)
    (hwf : t.Aggregated groupName → t.WellFormed)
    {nb : NetBalance} (ht : NetBalance.total nb = Dbl.fin 0) :
    ∃ nb', transactionStep groupName nb t = some nb' ∧
      NetBalance.total nb' = Dbl.fin 0 := by
  unfold transactionStep
  by_cases hs : t.isSettled = true
  · exact ⟨nb, by simp [hs], ht⟩
  · by_cases hg : groupName ≠ "" ∧ t.groupName ≠ groupName
    · exact ⟨nb, by simp [hs, hg], ht⟩
    · have hagg : t.Aggregated groupName := by
        refine ⟨by simpa using hs, ?_⟩
        by_cases h1 : groupName = ""
        · exact Or.inl h1
        · right
          by_contra h2
          exact hg ⟨h1, h2⟩
      have hw := hwf hagg
      rw [if_neg hs, if_neg hg]
      unfold Transaction.WellFormed at hw
      cases hsp : t.splitType with
      | EQUAL =>
        rw [hsp] at hw
        have hne : (t.participants.length : ℚ) ≠ 0 := by
          have : 0 < t.participants.length := hw
          exact_mod_cast this.ne'
        simp only [Dbl.fin_div_fin_of_ne _ hne, Option.map_some']
        refine ⟨_, rfl, ?_⟩
        rw [NetBalance.total_update_add, total_equalLoop _ _ ht, Dbl.fin_add_fin]
        congr 1
        field_simp
      | PERCENTAGE =>
        rw [hsp] at hw
        obtain ⟨nb', h3, h4⟩ :=
          total_weightedLoop t.amount (by norm_num : (100 : ℚ) ≠ 0) t.participants
            t.weights hw.1 ht
        simp only [h3, Option.map_some']
        refine ⟨_, rfl, ?_⟩
        rw [NetBalance.total_update_add, h4, Dbl.fin_add_fin, hw.2]
        congr 1
        field_simp
      | CUSTOM_WEIGHT =>
        rw [hsp] at hw
        have hne : totalWeight t.weights ≠ 0 := by
          rw [totalWeight_eq_sum]; exact hw.2
        obtain ⟨nb', h3, h4⟩ :=
          total_weightedLoop t.amount hne t.participants t.weights hw.1 ht
        simp only [h3, Option.map_some']
        refine ⟨_, rfl, ?_⟩
        rw [NetBalance.total_update_add, h4, Dbl.fin_add_fin, ← totalWeight_eq_sum]
        congr 1
        field_simp

theorem total_transactions (groupName : String) (txs : List Transaction)
    (hwf : ∀ t ∈ txs, t.Aggregated groupName → t.WellFormed)
    {nb : NetBalance} (ht : NetBalance.total nb = Dbl.fin 0) :
    ∃ nb', txs.foldlM (transactionStep groupName) nb = some nb' ∧
      NetBalance.total nb' = Dbl.fin 0 := by
  induction txs generalizing nb with
  | nil => exact ⟨nb, rfl, ht⟩
  | cons t txs ih =>
    obtain ⟨nb1, h1, h2⟩ :=
      total_transactionStep groupName t (hwf t (List.mem_cons_self _ _)) ht
    obtain ⟨nb2, h3, h4⟩ := ih (fun u hu => hwf u (List.mem_cons_of_mem _ hu)) h2
    exact ⟨nb2, by simp [List.foldlM_cons, h1, h3], h4⟩

theorem total_settlementStep (groupName : String) (nb : NetBalance) (s : Settlement) :
    NetBalance.total (settlementStep groupName nb s) = NetBalance.total nb := by
  unfold settlementStep
  split_ifs with h
  · rfl
  · rw [NetBalance.total_update_sub, NetBalance.total_update_add]
    cases NetBalance.total nb <;> simp

theorem total_settlements (groupName : String) (sts : List Settlement) (nb : NetBalance) :
    NetBalance.total (sts.foldl (settlementStep groupName) nb) = NetBalance.total nb := by
  induction sts generalizing nb with
  | nil => rfl
  | cons s sts ih => rw [List.foldl_cons, ih, total_settlementStep]

theorem total_calculateNetBalance (app : SplitWiseApp) (groupName : String)
    (hwf : ∀ t ∈ app.transactions, t.Aggregated groupName → t.WellFormed) :
    ∃ nb, calculateNetBalance app groupName = some nb ∧
      NetBalance.total nb = Dbl.fin 0 := by
  obtain ⟨nb, h1, h2⟩ :=
    total_transactions groupName app.transactions hwf
      (show NetBalance.total [] = Dbl.fin 0 from rfl)
  refine ⟨app.settlements.foldl (settlementStep groupName) nb, ?_, ?_⟩
  · simp [calculateNetBalance, h1]
  · rw [total_settlements, h2]

/-! ## Key order of the computed map -/

theorem ordered_transactionStep (groupName : String) (t : Transaction)
    {nb nb' : NetBalance} (h : NetBalance.Ordered nb)
    (hr : transactionStep groupName nb t = some nb') : NetBalance.Ordered nb' := by
  unfold transactionStep at hr
  split_ifs at hr with h1 h2
  · simp only [Option.some.injEq] at hr; rw [← hr]; exact h
  · simp only [Option.some.injEq] at hr; rw [← hr]; exact h
  · cases hsp : t.splitType with
    | EQUAL =>
      simp only [hsp, Option.map_some', Option.some.injEq] at hr
      rw [← hr]
      exact NetBalance.ordered_update _ _ (ordered_equalLoop _ _ h)
    | PERCENTAGE =>
      simp only [hsp, Option.map_eq_some'] at hr
      obtain ⟨nb1, h3, h4⟩ := hr
      rw [← h4]
      exact NetBalance.ordered_update _ _ (ordered_weightedLoop _ _ _ _ h h3)
    | CUSTOM_WEIGHT =>
      simp only [hsp, Option.map_eq_some'] at hr
      obtain ⟨nb1, h3, h4⟩ := hr
      rw [← h4]
      exact NetBalance.ordered_update _ _ (ordered_weightedLoop _ _ _ _ h h3)

theorem ordered_transactions (groupName : String) (txs : List Transaction)
    {nb nb' : NetBalance} (h : NetBalance.Ordered nb)
    (hr : txs.foldlM (transactionStep groupName) nb = some nb') : NetBalance.Ordered nb' := by
  induction txs generalizing nb with
  | nil =>
    simp only [List.foldlM_nil, pure, Option.some.injEq] at hr
    rw [← hr]; exact h
  | cons t txs ih =>
    simp only [List.foldlM_cons, Option.bind_eq_bind, Option.bind_eq_some] at hr
    obtain ⟨nb1, h1, h2⟩ := hr
    exact ih (ordered_transactionStep groupName t h h1) h2

theorem ordered_settlementStep (groupName : String) (s : Settlement)
    {nb : NetBalance} (h : NetBalance.Ordered nb) :
    NetBalance.Ordered (settlementStep groupName nb s) := by
  unfold settlementStep
  split_ifs
  · exact h
  · exact NetBalance.ordered_update _ _ (NetBalance.ordered_update _ _ h)

theorem ordered_settlements (groupName : String) (sts : List Settlement)
    {nb : NetBalance} (h : NetBalance.Ordered nb) :
    NetBalance.Ordered (sts.foldl (settlementStep groupName) nb) := by
  induction sts generalizing nb with
  | nil => exact h
  | cons s sts ih => exact ih (ordered_settlementStep groupName s h)

theorem ordered_calculateNetBalance (app : SplitWiseApp) (groupName : String)
    {nb : NetBalance} (hr : calculateNetBalance app groupName = some nb) :
    NetBalance.Ordered nb := by
  simp only [calculateNetBalance, Option.map_eq_some'] at hr
  obtain ⟨nb1, h1, h2⟩ := hr
  rw [← h2]
  exact ordered_settlements _ _ (ordered_transactions _ _ NetBalance.ordered_nil h1)

theorem calculateNetBalance_single (app : SplitWiseApp) (t : Transaction) (groupName : String)
    (htx : app.transactions = [t]) (hst : app.settlements = []) :
    calculateNetBalance app groupName = transactionStep groupName [] t := by
  simp [calculateNetBalance, htx, hst]

theorem calculateNetBalance_append_settlement (app : SplitWiseApp) (s : Settlement)
    (groupName : String) :
    calculateNetBalance { app with settlements := app.settlements ++ [s] } groupName =
      (calculateNetBalance app groupName).map (fun nb => settlementStep groupName nb s) := by
  simp [calculateNetBalance, List.foldl_append, Function.comp_def]

/-! ## Non-finite balances stay non-finite -/

theorem nonFinite_update {f : Dbl → Dbl} (hf : f Dbl.nonFinite = Dbl.nonFinite)
    (key person : String) {nb : NetBalance} (h : NetBalance.Ordered nb)
    (hb : NetBalance.balanceOf person nb = Dbl.nonFinite) :
    NetBalance.balanceOf person (NetBalance.update f key nb) = Dbl.nonFinite := by
  rw [NetBalance.balanceOf_update _ _ _ h]
  split_ifs with h1
  · rw [← h1, hb, hf]
  · exact hb

theorem nonFinite_update_add (x : Dbl) (key person : String) {nb : NetBalance}
    (h : NetBalance.Ordered nb) (hb : NetBalance.balanceOf person nb = Dbl.nonFinite) :
    NetBalance.balanceOf person (NetBalance.update (fun v => v + x) key nb) = Dbl.nonFinite :=
  nonFinite_update (Dbl.nonFinite_add x) key person h hb

theorem nonFinite_update_sub (x : Dbl) (key person : String) {nb : NetBalance}
    (h : NetBalance.Ordered nb) (hb : NetBalance.balanceOf person nb = Dbl.nonFinite) :
    NetBalance.balanceOf person (NetBalance.update (fun v => v - x) key nb) = Dbl.nonFinite :=
  nonFinite_update (Dbl.nonFinite_sub x) key person h hb

theorem nonFinite_equalLoop (s : Dbl) (person : String) (ps : List String)
    {nb : NetBalance} (h : NetBalance.Ordered nb)
    (hb : NetBalance.balanceOf person nb = Dbl.nonFinite) :
    NetBalance.balanceOf person (equalLoop s ps nb) = Dbl.nonFinite := by
  induction ps generalizing nb with
  | nil => exact hb
  | cons p ps ih =>
    exact ih (NetBalance.ordered_update _ _ h)
      (nonFinite_update_sub s p person h hb)

theorem nonFinite_weightedLoop (amount : ℚ) (divisor : Dbl) (person : String)
    (ps : List String) (ws : List ℚ) {nb nb' : NetBalance} (h : NetBalance.Ordered nb)
    (hb : NetBalance.balanceOf person nb = Dbl.nonFinite)
    (hr : weightedLoop amount divisor ps ws nb = some nb') :
    NetBalance.balanceOf person nb' = Dbl.nonFinite := by
  induction ps generalizing nb ws with
  | nil =>
    simp only [weightedLoop, Option.some.injEq] at hr
    rw [← hr]; exact hb
  | cons p ps ih =>
    cases ws with
    | nil => simp [weightedLoop] at hr
    | cons w ws =>
      simp only [weightedLoop] at hr
      exact ih ws (NetBalance.ordered_update _ _ h)
        (nonFinite_update_sub _ p person h hb) hr

theorem nonFinite_transactionStep (groupName : String) (t : Transaction) (person : String)
    {nb nb' : NetBalance} (h : NetBalance.Ordered nb)
    (hb : NetBalance.balanceOf person nb = Dbl.nonFinite)
    (hr : transactionStep groupName nb t = some nb') :
    NetBalance.balanceOf person nb' = Dbl.nonFinite := by
  unfold transactionStep at hr
  split_ifs at hr with h1 h2
  · simp only [Option.some.injEq] at hr; rw [← hr]; exact hb
  · simp only [Option.some.injEq] at hr; rw [← hr]; exact hb
  · cases hsp : t.splitType with
    | EQUAL =>
      simp only [hsp, Option.map_some', Option.some.injEq] at hr
      rw [← hr]
      exact nonFinite_update_add _ _ _ (ordered_equalLoop _ _ h)
        (nonFinite_equalLoop _ _ _ h hb)
    | PERCENTAGE =>
      simp only [hsp, Option.map_eq_some'] at hr
      obtain ⟨nb1, h3, h4⟩ := hr
      rw [← h4]
      exact nonFinite_update_add _ _ _ (ordered_weightedLoop _ _ _ _ h h3)
        (nonFinite_weightedLoop _ _ _ _ _ h hb h3)
    | CUSTOM_WEIGHT =>
      simp only [hsp, Option.map_eq_some'] at hr
      obtain ⟨nb1, h3, h4⟩ := hr
      rw [← h4]
      exact nonFinite_update_add _ _ _ (ordered_weightedLoop _ _ _ _ h h3)
        (nonFinite_weightedLoop _ _ _ _ _ h hb h3)

theorem nonFinite_transactions (groupName : String) (txs : List Transaction) (person : String)
    {nb nb' : NetBalance} (h : NetBalance.Ordered nb)
    (hb : NetBalance.balanceOf person nb = Dbl.nonFinite)
    (hr : txs.foldlM (transactionStep groupName) nb = some nb') :
    NetBalance.balanceOf person nb' = Dbl.nonFinite := by
  induction txs generalizing nb with
  | nil =>
    simp only [List.foldlM_nil, pure, Option.some.injEq] at hr
    rw [← hr]; exact hb
  | cons t txs ih =>
    simp only [List.foldlM_cons, Option.bind_eq_bind, Option.bind_eq_some] at hr
    obtain ⟨nb1, h1, h2⟩ := hr
    exact ih (ordered_transactionStep groupName t h h1)
      (nonFinite_transactionStep groupName t person h hb h1) h2

theorem nonFinite_settlements (groupName : String) (sts : List Settlement) (person : String)
    {nb : NetBalance} (h : NetBalance.Ordered nb)
    (hb : NetBalance.balanceOf person nb = Dbl.nonFinite) :
    NetBalance.balanceOf person (sts.foldl (settlementStep groupName) nb) = Dbl.nonFinite := by
  induction sts generalizing nb with
  | nil => exact hb
  | cons s sts ih =>
    refine ih (ordered_settlementStep groupName s h) ?_
    unfold settlementStep
    split_ifs
    · exact hb
    · exact nonFinite_update_sub _ _ _ (NetBalance.ordered_update _ _ h)
        (nonFinite_update_add _ _ _ h hb)

/-- Dividing by a zero divisor charges every participant a non-finite share. -/
theorem weightedLoop_zero_divisor (amount : ℚ) (person : String)
    (ps : List String) (ws : List ℚ) (hp : person ∈ ps)
    {nb nb' : NetBalance} (h : NetBalance.Ordered nb)
    (hr : weightedLoop amount (Dbl.fin 0) ps ws nb = some nb') :
    NetBalance.balanceOf person nb' = Dbl.nonFinite := by
  induction ps generalizing nb ws with
  | nil => simp at hp
  | cons p ps ih =>
    cases ws with
    | nil => simp [weightedLoop] at hr
    | cons w ws =>
      simp only [weightedLoop, Dbl.fin_div_zero, Dbl.mul_nonFinite] at hr
      by_cases h1 : person = p
      · subst h1
        refine nonFinite_weightedLoop _ _ _ _ _ (NetBalance.ordered_update _ _ h) ?_ hr
        rw [NetBalance.balanceOf_update _ _ _ h, if_pos rfl, Dbl.sub_nonFinite]
      · have h2 : person ∈ ps := by
          rcases List.mem_cons.mp hp with h3 | h3
          · exact absurd h3 h1
          · exact h3
        exact ih ws h2 (NetBalance.ordered_update _ _ h) hr

/-- The loops return a map whenever the weights do not run out. -/
theorem weightedLoop_isSome (amount : ℚ) (divisor : Dbl) (ps : List String) (ws : List ℚ)
    (hlen : ps.length ≤ ws.length) (nb : NetBalance) :
    ∃ nb', weightedLoop amount divisor ps ws nb = some nb' := by
  induction ps generalizing nb ws with
  | nil => exact ⟨nb, rfl⟩
  | cons p ps ih =>
    cases ws with
    | nil => simp at hlen
    | cons w ws =>
      simp only [weightedLoop]
      exact ih ws (by simpa using hlen) _

theorem transactionStep_isSome (groupName : String) (t : Transaction)
    (hlen : t.Aggregated groupName → t.splitType ≠ SplitType.EQUAL →
      t.participants.length ≤ t.weights.length) (nb : NetBalance) :
    ∃ nb', transactionStep groupName nb t = some nb' := by
  unfold transactionStep
  by_cases hs : t.isSettled = true
  · exact ⟨nb, by simp [hs]⟩
  · by_cases hg : groupName ≠ "" ∧ t.groupName ≠ groupName
    · exact ⟨nb, by simp [hs, hg]⟩
    · have hagg : t.Aggregated groupName := by
        refine ⟨by simpa using hs, ?_⟩
        by_cases h1 : groupName = ""
        · exact Or.inl h1
        · right
          by_contra h2
          exact hg ⟨h1, h2⟩
      rw [if_neg hs, if_neg hg]
      cases hsp : t.splitType with
      | EQUAL => exact ⟨_, rfl⟩
      | PERCENTAGE =>
        obtain ⟨nb1, h1⟩ := weightedLoop_isSome t.amount (Dbl.fin 100) t.participants
          t.weights (hlen hagg (by simp [hsp])) nb
        rw [h1]
        exact ⟨_, rfl⟩
      | CUSTOM_WEIGHT =>
        obtain ⟨nb1, h1⟩ := weightedLoop_isSome t.amount (Dbl.fin (totalWeight t.weights))
          t.participants t.weights (hlen hagg (by simp [hsp])) nb
        rw [h1]
        exact ⟨_, rfl⟩

theorem transactions_isSome (groupName : String) (txs : List Transaction)
    (hlen : ∀ t ∈ txs, t.Aggregated groupName → t.splitType ≠ SplitType.EQUAL →
      t.participants.length ≤ t.weights.length) (nb : NetBalance) :
    ∃ nb', txs.foldlM (transactionStep groupName) nb = some nb' := by
  induction txs generalizing nb with
  | nil => exact ⟨nb, rfl⟩
  | cons t txs ih =>
    obtain ⟨nb1, h1⟩ := transactionStep_isSome groupName t (hlen t (List.mem_cons_self _ _)) nb
    obtain ⟨nb2, h2⟩ := ih (fun u hu => hlen u (List.mem_cons_of_mem _ hu)) nb1
    exact ⟨nb2, by simp [List.foldlM_cons, h1, h2]⟩

theorem zero_weight_transactions (groupName : String) (txs : List Transaction)
    (t : Transaction) (ht : t ∈ txs) (hagg : t.Aggregated groupName)
    (hpol : t.splitType = SplitType.CUSTOM_WEIGHT) (hzero : t.weights.sum = 0)
    (person : String) (hp : person ∈ t.participants)
    {nb nb' : NetBalance} (h : NetBalance.Ordered nb)
    (hr : txs.foldlM (transactionStep groupName) nb = some nb') :
    NetBalance.balanceOf person nb' = Dbl.nonFinite := by
  induction txs generalizing nb with
  | nil => simp at ht
  | cons u txs ih =>
    simp only [List.foldlM_cons, Option.bind_eq_bind, Option.bind_eq_some] at hr
    obtain ⟨nb1, h1, h2⟩ := hr
    have hord1 := ordered_transactionStep groupName u h h1
    rcases List.mem_cons.mp ht with h3 | h3
    · subst h3
      refine nonFinite_transactions groupName txs person hord1 ?_ h2
      have hskip : ¬ (groupName ≠ "" ∧ t.groupName ≠ groupName) := by
        rintro ⟨h4, h5⟩
        rcases hagg.2 with h6 | h6
        · exact h4 h6
        · exact h5 h6
      simp only [transactionStep, hagg.1, hpol, totalWeight_eq_sum, hzero] at h1
      simp only [Bool.false_eq_true, if_false, if_neg hskip, Option.map_eq_some'] at h1
      obtain ⟨nb0, h4, h5⟩ := h1
      rw [← h5]
      exact nonFinite_update_add _ _ _ (ordered_weightedLoop _ _ _ _ h h4)
        (weightedLoop_zero_divisor _ _ _ _ hp h h4)
    · exact ih h3 hord1 h2

/-! ## The settlement loop and the payments it emits -/

theorem settleFrom_nil_left (ds : List (String × ℚ)) : settleFrom [] ds = [] := by
  rw [settleFrom]

theorem settleFrom_nil_right (cs : List (String × ℚ)) : settleFrom cs [] = [] := by
  cases cs <;> rw [settleFrom]

theorem settleFrom_cons (c : String × ℚ) (cs : List (String × ℚ)) (d : String × ℚ)
    (ds : List (String × ℚ)) :
    settleFrom (c :: cs) (d :: ds) =
      ⟨d.1, c.1, min c.2 d.2⟩ ::
        settleFrom
          (if c.2 - min c.2 d.2 < 1 / 100 then cs else (c.1, c.2 - min c.2 d.2) :: cs)
          (if d.2 - min c.2 d.2 < 1 / 100 then ds else (d.1, d.2 - min c.2 d.2) :: ds) := by
  rw [settleFrom]

theorem loopStep_eq_none_iff (s : LoopState) :
    loopStep s = none ↔ s.creditors.length ≤ s.i ∨ s.debtors.length ≤ s.j := by
  unfold loopStep
  cases hc : s.creditors[s.i]? with
  | none =>
    simp only [List.getElem?_eq_none_iff] at hc
    simp [hc]
  | some c =>
    cases hd : s.debtors[s.j]? with
    | none =>
      simp only [List.getElem?_eq_none_iff] at hd
      simp [hd]
    | some d =>
      have h1 := (List.getElem?_eq_some.mp hc).1
      have h2 := (List.getElem?_eq_some.mp hd).1
      simp only [reduceCtorEq, false_iff, not_or, not_le]
      exact ⟨h1, h2⟩

theorem runLoop_of_none (fuel : Nat) (s : LoopState) (h : loopStep s = none) :
    runLoop fuel s = some s := by
  cases fuel <;> simp [runLoop, h]

theorem runLoop_of_some (fuel : Nat) (s s' : LoopState) (h : loopStep s = some s') :
    runLoop (fuel + 1) s = runLoop fuel s' := by
  simp [runLoop, h]

theorem loopStep_of_lt (s : LoopState) (hi : s.i < s.creditors.length)
    (hj : s.j < s.debtors.length) :
    loopStep s = some
      { creditors := s.creditors.set s.i
          (s.creditors[s.i].1, s.creditors[s.i].2 - min s.creditors[s.i].2 s.debtors[s.j].2)
        debtors := s.debtors.set s.j
          (s.debtors[s.j].1, s.debtors[s.j].2 - min s.creditors[s.i].2 s.debtors[s.j].2)
        i := if s.creditors[s.i].2 - min s.creditors[s.i].2 s.debtors[s.j].2 < 1 / 100
          then s.i + 1 else s.i
        j := if s.debtors[s.j].2 - min s.creditors[s.i].2 s.debtors[s.j].2 < 1 / 100
          then s.j + 1 else s.j
        settlements := s.settlements ++
          [⟨s.debtors[s.j].1, s.creditors[s.i].1, min s.creditors[s.i].2 s.debtors[s.j].2⟩] } := by
  unfold loopStep
  rw [List.getElem?_eq_getElem hi, List.getElem?_eq_getElem hj]

theorem drop_cursor_set (l : List (String × ℚ)) (i : Nat) (hi : i < l.length)
    (e : String × ℚ) (p : Prop) [Decidable p] :
    (l.set i e).drop (if p then i + 1 else i) =
      if p then l.drop (i + 1) else e :: l.drop (i + 1) := by
  split_ifs
  · exact List.drop_set_of_lt e l (Nat.lt_succ_self i)
  · have h2 : i < (l.set i e).length := by simpa using hi
    rw [List.drop_eq_getElem_cons h2, List.getElem_set_self,
      List.drop_set_of_lt e l (Nat.lt_succ_self i)]

theorem loopStep_settleFrom (s : LoopState) (hi : s.i < s.creditors.length)
    (hj : s.j < s.debtors.length) :
    ∃ s', loopStep s = some s' ∧ s'.remaining + 1 ≤ s.remaining ∧
      s'.settlements ++ settleFrom (s'.creditors.drop s'.i) (s'.debtors.drop s'.j) =
        s.settlements ++ settleFrom (s.creditors.drop s.i) (s.debtors.drop s.j) := by
  refine ⟨_, loopStep_of_lt s hi hj, ?_, ?_⟩
  · have hadv : s.creditors[s.i].2 - min s.creditors[s.i].2 s.debtors[s.j].2 < 1 / 100 ∨
        s.debtors[s.j].2 - min s.creditors[s.i].2 s.debtors[s.j].2 < 1 / 100 := by
      rcases le_total s.creditors[s.i].2 s.debtors[s.j].2 with h1 | h1
      · left; rw [min_eq_left h1]; norm_num
      · right; rw [min_eq_right h1]; norm_num
    simp only [LoopState.remaining, List.length_set]
    rcases hadv with h4 | h4
    · rw [if_pos h4]; split_ifs <;> omega
    · rw [if_pos h4]; split_ifs <;> omega
  · dsimp only
    rw [drop_cursor_set _ _ hi, drop_cursor_set _ _ hj]
    rw [List.drop_eq_getElem_cons hi, List.drop_eq_getElem_cons hj, settleFrom_cons,
      List.append_assoc, List.singleton_append]

theorem runLoop_settleFrom (n : Nat) (s : LoopState) (h : s.remaining ≤ n + 1) :
    ∃ final, runLoop n s = some final ∧ loopStep final = none ∧
      final.settlements =
        s.settlements ++ settleFrom (s.creditors.drop s.i) (s.debtors.drop s.j) := by
  induction n generalizing s with
  | zero =>
    have hnone : loopStep s = none := by
      rw [loopStep_eq_none_iff]
      unfold LoopState.remaining at h
      omega
    refine ⟨s, runLoop_of_none 0 s hnone, hnone, ?_⟩
    rcases (loopStep_eq_none_iff s).mp hnone with h1 | h1
    · rw [List.drop_eq_nil_of_le h1, settleFrom_nil_left, List.append_nil]
    · rw [List.drop_eq_nil_of_le h1, settleFrom_nil_right, List.append_nil]
  | succ n ih =>
    by_cases hnone : loopStep s = none
    · refine ⟨s, runLoop_of_none _ s hnone, hnone, ?_⟩
      rcases (loopStep_eq_none_iff s).mp hnone with h1 | h1
      · rw [List.drop_eq_nil_of_le h1, settleFrom_nil_left, List.append_nil]
      · rw [List.drop_eq_nil_of_le h1, settleFrom_nil_right, List.append_nil]
    · have hlt : s.i < s.creditors.length ∧ s.j < s.debtors.length := by
        rw [loopStep_eq_none_iff] at hnone
        omega
      obtain ⟨s', hstep, hrem, hout⟩ := loopStep_settleFrom s hlt.1 hlt.2
      rw [runLoop_of_some n s s' hstep]
      obtain ⟨final, h1, h2, h3⟩ := ih s' (by omega)
      exact ⟨final, h1, h2, by rw [h3, hout]⟩

theorem minimizeBalances_eq_settleFrom (netBalance : List (String × ℚ)) :
    minimizeBalances netBalance =
      some (settleFrom (creditorsOf netBalance) (debtorsOf netBalance)) := by
  unfold minimizeBalances
  dsimp only
  split_ifs with h
  · rw [h.1, settleFrom_nil_left]
  · obtain ⟨final, h1, -, h3⟩ := runLoop_settleFrom
      ((creditorsOf netBalance).length + (debtorsOf netBalance).length)
      { creditors := creditorsOf netBalance, debtors := debtorsOf netBalance, i := 0, j := 0,
        settlements := [] }
      (by unfold LoopState.remaining; simp)
    rw [h1, Option.map_some', h3]
    simp

/-! ## Properties of the emitted payments -/

theorem settleFrom_next_length (c : String × ℚ) (cs : List (String × ℚ)) (d : String × ℚ)
    (ds : List (String × ℚ)) :
    (if c.2 - min c.2 d.2 < 1 / 100 then cs else (c.1, c.2 - min c.2 d.2) :: cs).length +
      (if d.2 - min c.2 d.2 < 1 / 100 then ds else (d.1, d.2 - min c.2 d.2) :: ds).length ≤
        cs.length + ds.length + 1 := by
  rcases le_total c.2 d.2 with h1 | h1
  · have h2 : c.2 - min c.2 d.2 < 1 / 100 := by rw [min_eq_left h1]; norm_num
    rw [if_pos h2]
    split_ifs <;> first | omega | (simp only [List.length_cons]; omega)
  · have h2 : d.2 - min c.2 d.2 < 1 / 100 := by rw [min_eq_right h1]; norm_num
    rw [if_pos h2]
    split_ifs <;> first | omega | (simp only [List.length_cons]; omega)

/-- Induction along the iterations of the loop. -/
theorem settleFrom_induction (P : List (String × ℚ) → List (String × ℚ) → Prop)
    (hleft : ∀ ds, P [] ds) (hright : ∀ cs, P cs [])
    (hcons : ∀ c cs d ds,
      P (if c.2 - min c.2 d.2 < 1 / 100 then cs else (c.1, c.2 - min c.2 d.2) :: cs)
        (if d.2 - min c.2 d.2 < 1 / 100 then ds else (d.1, d.2 - min c.2 d.2) :: ds) →
      P (c :: cs) (d :: ds)) :
    ∀ cs ds, P cs ds := by
  have key : ∀ n cs ds, cs.length + ds.length ≤ n → P cs ds := by
    intro n
    induction n with
    | zero =>
      intro cs ds h
      have h1 : cs = [] := List.length_eq_zero.mp (by omega)
      rw [h1]; exact hleft ds
    | succ n ih =>
      intro cs ds h
      cases cs with
      | nil => exact hleft ds
      | cons c cs =>
        cases ds with
        | nil => exact hright _
        | cons d ds =>
          apply hcons
          apply ih
          have hlen := settleFrom_next_length c cs d ds
          simp only [List.length_cons] at h
          omega
  exact fun cs ds => key _ cs ds le_rfl

theorem settleFrom_names (cs ds : List (String × ℚ)) :
    ∀ p ∈ settleFrom cs ds, p.creditor ∈ cs.map Prod.fst ∧ p.debtor ∈ ds.map Prod.fst := by
  refine settleFrom_induction
    (fun cs ds => ∀ p ∈ settleFrom cs ds,
      p.creditor ∈ cs.map Prod.fst ∧ p.debtor ∈ ds.map Prod.fst) ?_ ?_ ?_ cs ds
  · intro ds p hp; simp [settleFrom_nil_left] at hp
  · intro cs p hp; simp [settleFrom_nil_right] at hp
  · intro c cs d ds ih p hp
    rw [settleFrom_cons] at hp
    rcases List.mem_cons.mp hp with h | h
    · subst h; simp
    · obtain ⟨h1, h2⟩ := ih p h
      constructor
      · split_ifs at h1
        · exact List.mem_cons_of_mem _ h1
        · simpa using h1
      · split_ifs at h2
        · exact List.mem_cons_of_mem _ h2
        · simpa using h2

/-! ## The partition into creditors and debtors -/

theorem mem_creditorsOf (nb : List (String × ℚ)) (p : String) (b : ℚ) :
    (p, b) ∈ creditorsOf nb ↔ (p, b) ∈ nb ∧ 1 / 100 < b := by
  unfold creditorsOf
  rw [List.mem_filterMap]
  constructor
  · rintro ⟨⟨q, v⟩, he, h⟩
    split_ifs at h with h1
    · simp only [Option.some.injEq, Prod.mk.injEq] at h
      obtain ⟨rfl, rfl⟩ := h
      exact ⟨he, h1⟩
  · rintro ⟨he, h1⟩
    exact ⟨(p, b), he, by rw [if_pos h1]⟩

theorem mem_debtorsOf (nb : List (String × ℚ)) (p : String) (b : ℚ) :
    (p, b) ∈ debtorsOf nb ↔ (p, -b) ∈ nb ∧ -b < -(1 / 100) := by
  unfold debtorsOf
  rw [List.mem_filterMap]
  constructor
  · rintro ⟨e, he, h⟩
    split_ifs at h with h1 h2
    · simp only [Option.some.injEq, Prod.mk.injEq] at h
      obtain ⟨h3, h4⟩ := h
      rw [← h3, ← h4, neg_neg]
      exact ⟨he, h2⟩
  · rintro ⟨he, h1⟩
    refine ⟨(p, -b), he, ?_⟩
    have h2 : ¬ (-b > 1 / 100) := by
      intro h3
      have : (0 : ℚ) < 1 / 100 := by norm_num
      linarith
    rw [if_neg h2, if_pos h1, neg_neg]

theorem debtorsOf_pos (nb : List (String × ℚ)) :
    ∀ e ∈ debtorsOf nb, 1 / 100 < e.2 := by
  rintro ⟨p, b⟩ he
  have h := ((mem_debtorsOf nb p b).mp he).2
  simp only
  linarith

theorem creditorsOf_pos (nb : List (String × ℚ)) :
    ∀ e ∈ creditorsOf nb, 1 / 100 < e.2 := by
  rintro ⟨p, b⟩ he
  exact ((mem_creditorsOf nb p b).mp he).2

theorem creditorsOf_cons (e : String × ℚ) (nb : List (String × ℚ)) :
    creditorsOf (e :: nb) =
      if e.2 > 1 / 100 then e :: creditorsOf nb else creditorsOf nb := by
  unfold creditorsOf
  rw [List.filterMap_cons]
  split_ifs <;> rfl

theorem debtorsOf_cons (e : String × ℚ) (nb : List (String × ℚ)) :
    debtorsOf (e :: nb) =
      if e.2 > 1 / 100 then debtorsOf nb
      else if e.2 < -(1 / 100) then (e.1, -e.2) :: debtorsOf nb else debtorsOf nb := by
  unfold debtorsOf
  rw [List.filterMap_cons]
  split_ifs <;> rfl

theorem creditorsOf_names (nb : List (String × ℚ)) :
    ∀ p ∈ (creditorsOf nb).map Prod.fst, p ∈ nb.map Prod.fst := by
  intro p hp
  obtain ⟨⟨q, b⟩, he, rfl⟩ := List.mem_map.mp hp
  exact List.mem_map.mpr ⟨(q, b), ((mem_creditorsOf nb q b).mp he).1, rfl⟩

theorem debtorsOf_names (nb : List (String × ℚ)) :
    ∀ p ∈ (debtorsOf nb).map Prod.fst, p ∈ nb.map Prod.fst := by
  intro p hp
  obtain ⟨⟨q, b⟩, he, rfl⟩ := List.mem_map.mp hp
  exact List.mem_map.mpr ⟨(q, -b), ((mem_debtorsOf nb q b).mp he).1, rfl⟩

theorem ordered_creditorsOf {nb : List (String × ℚ)} (h : NetBalance.Ordered nb) :
    NetBalance.Ordered (creditorsOf nb) := by
  induction nb with
  | nil => simp [creditorsOf, NetBalance.Ordered]
  | cons e nb ih =>
    obtain ⟨k, v⟩ := e
    rw [NetBalance.ordered_cons] at h
    rw [creditorsOf_cons]
    split_ifs
    · rw [NetBalance.ordered_cons]
      refine ⟨?_, ih h.2⟩
      rintro ⟨q, b⟩ he
      exact h.1 (q, b) ((mem_creditorsOf nb q b).mp he).1
    · exact ih h.2

theorem ordered_debtorsOf {nb : List (String × ℚ)} (h : NetBalance.Ordered nb) :
    NetBalance.Ordered (debtorsOf nb) := by
  induction nb with
  | nil => simp [debtorsOf, NetBalance.Ordered]
  | cons e nb ih =>
    obtain ⟨k, v⟩ := e
    rw [NetBalance.ordered_cons] at h
    rw [debtorsOf_cons]
    split_ifs
    · exact ih h.2
    · rw [NetBalance.ordered_cons]
      refine ⟨?_, ih h.2⟩
      rintro ⟨q, b⟩ he
      exact h.1 (q, -b) ((mem_debtorsOf nb q b).mp he).1
    · exact ih h.2

/-- In a map with ascending keys an entry is the only one under its key. -/
theorem ordered_unique {α : Type} {nb : List (String × α)} (h : NetBalance.Ordered nb)
    {p : String} {a b : α} (ha : (p, a) ∈ nb) (hb : (p, b) ∈ nb) : a = b := by
  induction nb with
  | nil => simp at ha
  | cons e nb ih =>
    obtain ⟨k, v⟩ := e
    rw [NetBalance.ordered_cons] at h
    rcases List.mem_cons.mp ha with h1 | h1 <;> rcases List.mem_cons.mp hb with h2 | h2
    · simp only [Prod.mk.injEq] at h1 h2
      rw [h1.2, h2.2]
    · simp only [Prod.mk.injEq] at h1
      have := h.1 (p, b) h2
      rw [h1.1] at this
      exact absurd this (lt_irrefl _)
    · simp only [Prod.mk.injEq] at h2
      have := h.1 (p, a) h1
      rw [h2.1] at this
      exact absurd this (lt_irrefl _)
    · exact ih h.2 h1 h2

theorem paidTo_nil (n : String) : paidTo n [] = 0 := by
  simp [paidTo]

theorem paidTo_cons (n : String) (p : Payment) (ps : List Payment) :
    paidTo n (p :: ps) = (if p.creditor = n then p.settleAmount else 0) + paidTo n ps := by
  by_cases h : p.creditor = n <;> simp [paidTo, List.filter_cons, h]

theorem paidBy_nil (n : String) : paidBy n [] = 0 := by
  simp [paidBy]

theorem paidBy_cons (n : String) (p : Payment) (ps : List Payment) :
    paidBy n (p :: ps) = (if p.debtor = n then p.settleAmount else 0) + paidBy n ps := by
  by_cases h : p.debtor = n <;> simp [paidBy, List.filter_cons, h]

theorem paidTo_eq_zero (n : String) (ps : List Payment) (h : ∀ p ∈ ps, p.creditor ≠ n) :
    paidTo n ps = 0 := by
  induction ps with
  | nil => exact paidTo_nil n
  | cons p ps ih =>
    rw [paidTo_cons, if_neg (h p (List.mem_cons_self _ _)),
      ih (fun q hq => h q (List.mem_cons_of_mem _ hq)), add_zero]

theorem paidBy_eq_zero (n : String) (ps : List Payment) (h : ∀ p ∈ ps, p.debtor ≠ n) :
    paidBy n ps = 0 := by
  induction ps with
  | nil => exact paidBy_nil n
  | cons p ps ih =>
    rw [paidBy_cons, if_neg (h p (List.mem_cons_self _ _)),
      ih (fun q hq => h q (List.mem_cons_of_mem _ hq)), add_zero]

theorem sum_indicator (a : ℚ) (c : String) (ns : List String) (hnd : ns.Nodup) (hc : c ∈ ns) :
    (ns.map (fun n => if c = n then a else 0)).sum = a := by
  induction ns with
  | nil => simp at hc
  | cons n ns ih =>
    rw [List.nodup_cons] at hnd
    rw [List.map_cons, List.sum_cons]
    by_cases h : c = n
    · subst h
      have h0 : (ns.map (fun n => if c = n then a else 0)).sum = 0 := by
        apply List.sum_eq_zero
        intro x hx
        obtain ⟨n, hn, rfl⟩ := List.mem_map.mp hx
        have : c ≠ n := fun h2 => hnd.1 (h2 ▸ hn)
        simp [this]
      rw [if_pos rfl, h0, add_zero]
    · have hc2 : c ∈ ns := by
        rcases List.mem_cons.mp hc with h2 | h2
        · exact absurd h2 h
        · exact h2
      rw [if_neg h, ih hnd.2 hc2, zero_add]

theorem sum_paidTo (ns : List String) (hnd : ns.Nodup) (ps : List Payment)
    (h : ∀ p ∈ ps, p.creditor ∈ ns) :
    (ns.map (fun n => paidTo n ps)).sum = (ps.map Payment.settleAmount).sum := by
  induction ps with
  | nil => simp [paidTo_nil]
  | cons p ps ih =>
    simp only [paidTo_cons, List.map_cons, List.sum_cons]
    rw [List.sum_map_add, sum_indicator _ _ ns hnd (h p (List.mem_cons_self _ _)),
      ih (fun q hq => h q (List.mem_cons_of_mem _ hq))]

theorem sum_paidBy (ns : List String) (hnd : ns.Nodup) (ps : List Payment)
    (h : ∀ p ∈ ps, p.debtor ∈ ns) :
    (ns.map (fun n => paidBy n ps)).sum = (ps.map Payment.settleAmount).sum := by
  induction ps with
  | nil => simp [paidBy_nil]
  | cons p ps ih =>
    simp only [paidBy_cons, List.map_cons, List.sum_cons]
    rw [List.sum_map_add, sum_indicator _ _ ns hnd (h p (List.mem_cons_self _ _)),
      ih (fun q hq => h q (List.mem_cons_of_mem _ hq))]

theorem ordered_nodup {α : Type} {l : List (String × α)} (h : NetBalance.Ordered l) :
    (l.map Prod.fst).Nodup :=
  List.Pairwise.imp (fun hab => ne_of_lt hab) h

/-! ## No entry is settled beyond its amount -/

/-- The entries from a cursor onward after an iteration that paid `m` out of
the entry `c` at the cursor. -/
theorem next_entries (c : String × ℚ) (cs : List (String × ℚ)) (m : ℚ)
    (hnd : ((c :: cs).map Prod.fst).Nodup) (hnn : ∀ e ∈ c :: cs, 0 ≤ e.2) :
    ((if c.2 - m < 1 / 100 then cs else (c.1, c.2 - m) :: cs).map Prod.fst).Nodup ∧
    (∀ e ∈ (if c.2 - m < 1 / 100 then cs else (c.1, c.2 - m) :: cs), 0 ≤ e.2) ∧
    (∀ e ∈ cs, e ∈ (if c.2 - m < 1 / 100 then cs else (c.1, c.2 - m) :: cs)) ∧
    ((c.1, c.2 - m) ∈ (if c.2 - m < 1 / 100 then cs else (c.1, c.2 - m) :: cs) ∨
      c.1 ∉ (if c.2 - m < 1 / 100 then cs else (c.1, c.2 - m) :: cs).map Prod.fst) := by
  rw [List.map_cons, List.nodup_cons] at hnd
  have hnn2 : ∀ e ∈ cs, 0 ≤ e.2 := fun e he => hnn e (List.mem_cons_of_mem _ he)
  split_ifs with h
  · exact ⟨hnd.2, hnn2, fun e he => he, Or.inr hnd.1⟩
  · refine ⟨?_, ?_, fun e he => List.mem_cons_of_mem _ he, Or.inl (List.mem_cons_self _ _)⟩
    · rw [List.map_cons, List.nodup_cons]; exact hnd
    · intro e he
      rcases List.mem_cons.mp he with h1 | h1
      · rw [h1]; simp only; linarith
      · exact hnn2 e h1

theorem settleFrom_paid_le (cs ds : List (String × ℚ)) :
    (cs.map Prod.fst).Nodup → (ds.map Prod.fst).Nodup →
    (∀ e ∈ cs, 0 ≤ e.2) → (∀ e ∈ ds, 0 ≤ e.2) →
    (∀ e ∈ cs, paidTo e.1 (settleFrom cs ds) ≤ e.2) ∧
    (∀ e ∈ ds, paidBy e.1 (settleFrom cs ds) ≤ e.2) := by
  refine settleFrom_induction
    (fun cs ds => (cs.map Prod.fst).Nodup → (ds.map Prod.fst).Nodup →
      (∀ e ∈ cs, 0 ≤ e.2) → (∀ e ∈ ds, 0 ≤ e.2) →
      (∀ e ∈ cs, paidTo e.1 (settleFrom cs ds) ≤ e.2) ∧
      (∀ e ∈ ds, paidBy e.1 (settleFrom cs ds) ≤ e.2)) ?_ ?_ ?_ cs ds
  · intro ds _ _ _ hds
    rw [settleFrom_nil_left]
    exact ⟨fun e he => absurd he (List.not_mem_nil e),
      fun e he => by rw [paidBy_nil]; exact hds e he⟩
  · intro cs _ _ hcs _
    rw [settleFrom_nil_right]
    exact ⟨fun e he => by rw [paidTo_nil]; exact hcs e he,
      fun e he => absurd he (List.not_mem_nil e)⟩
  · intro c cs d ds ih hndc hndd hcs hds
    obtain ⟨c1, c2, c3, c4⟩ := next_entries c cs (min c.2 d.2) hndc hcs
    obtain ⟨d1, d2, d3, d4⟩ := next_entries d ds (min c.2 d.2) hndd hds
    obtain ⟨ihc, ihd⟩ := ih c1 d1 c2 d2
    have hnames := settleFrom_names
      (if c.2 - min c.2 d.2 < 1 / 100 then cs else (c.1, c.2 - min c.2 d.2) :: cs)
      (if d.2 - min c.2 d.2 < 1 / 100 then ds else (d.1, d.2 - min c.2 d.2) :: ds)
    rw [settleFrom_cons]
    rw [List.map_cons, List.nodup_cons] at hndc hndd
    constructor
    · intro e he
      rw [paidTo_cons]
      simp only
      rcases List.mem_cons.mp he with h1 | h1
      · subst h1
        rw [if_pos rfl]
        have hrest : paidTo e.1
            (settleFrom
              (if e.2 - min e.2 d.2 < 1 / 100 then cs else (e.1, e.2 - min e.2 d.2) :: cs)
              (if d.2 - min e.2 d.2 < 1 / 100 then ds else (d.1, d.2 - min e.2 d.2) :: ds)) ≤
            e.2 - min e.2 d.2 := by
          rcases c4 with h2 | h2
          · exact ihc _ h2
          · rw [paidTo_eq_zero _ _ (fun p hp h3 => h2 (Eq.subst (motive := fun x => x ∈ _) h3 (hnames p hp).1))]
            linarith [min_le_left e.2 d.2]
        linarith
      · have hne : c.1 ≠ e.1 := fun h2 => hndc.1 (h2 ▸ List.mem_map.mpr ⟨e, h1, rfl⟩)
        rw [if_neg hne, zero_add]
        exact ihc e (c3 e h1)
    · intro e he
      rw [paidBy_cons]
      simp only
      rcases List.mem_cons.mp he with h1 | h1
      · subst h1
        rw [if_pos rfl]
        have hrest : paidBy e.1
            (settleFrom
              (if c.2 - min c.2 e.2 < 1 / 100 then cs else (c.1, c.2 - min c.2 e.2) :: cs)
              (if e.2 - min c.2 e.2 < 1 / 100 then ds else (e.1, e.2 - min c.2 e.2) :: ds)) ≤
            e.2 - min c.2 e.2 := by
          rcases d4 with h2 | h2
          · exact ihd _ h2
          · rw [paidBy_eq_zero _ _ (fun p hp h3 => h2 (Eq.subst (motive := fun x => x ∈ _) h3 (hnames p hp).2))]
            linarith [min_le_right c.2 e.2]
        linarith
      · have hne : d.1 ≠ e.1 := fun h2 => hndd.1 (h2 ▸ List.mem_map.mpr ⟨e, h1, rfl⟩)
        rw [if_neg hne, zero_add]
        exact ihd e (d3 e h1)

/-! ## The total paid exhausts one side up to the tolerance per entry -/

theorem settleFrom_total (cs ds : List (String × ℚ)) :
    (cs.map Prod.snd).sum - (cs.length : ℚ) / 100 ≤
        ((settleFrom cs ds).map Payment.settleAmount).sum ∨
    (ds.map Prod.snd).sum - (ds.length : ℚ) / 100 ≤
        ((settleFrom cs ds).map Payment.settleAmount).sum := by
  refine settleFrom_induction
    (fun cs ds =>
      (cs.map Prod.snd).sum - (cs.length : ℚ) / 100 ≤
          ((settleFrom cs ds).map Payment.settleAmount).sum ∨
      (ds.map Prod.snd).sum - (ds.length : ℚ) / 100 ≤
          ((settleFrom cs ds).map Payment.settleAmount).sum) ?_ ?_ ?_ cs ds
  · intro ds; left; simp [settleFrom_nil_left]
  · intro cs; right; simp [settleFrom_nil_right]
  · intro c cs d ds ih
    rw [settleFrom_cons]
    simp only [List.map_cons, List.sum_cons, List.length_cons, Nat.cast_add, Nat.cast_one]
    rcases ih with h | h
    · left
      split_ifs at h with h1 h2 h2
      all_goals try simp only [List.map_cons, List.sum_cons, List.length_cons, Nat.cast_add,
        Nat.cast_one] at h
      all_goals first | (rw [if_pos h1]) | (rw [if_neg h1])
      all_goals first | (rw [if_pos h2]) | (rw [if_neg h2])
      all_goals linarith
    · right
      split_ifs at h with h1 h2 h2
      all_goals try simp only [List.map_cons, List.sum_cons, List.length_cons, Nat.cast_add,
        Nat.cast_one] at h
      all_goals first | (rw [if_pos h1]) | (rw [if_neg h1])
      all_goals first | (rw [if_pos h2]) | (rw [if_neg h2])
      all_goals linarith

/-! ## The partition and the sum of the balances -/

theorem partition_sum (nb : List (String × ℚ)) :
    ((creditorsOf nb).length + (debtorsOf nb).length ≤ nb.length) ∧
    (nb.map Prod.snd).sum -
        (((creditorsOf nb).map Prod.snd).sum - ((debtorsOf nb).map Prod.snd).sum) ≤
      ((nb.length : ℚ) - (creditorsOf nb).length - (debtorsOf nb).length) / 100 ∧
    (((creditorsOf nb).map Prod.snd).sum - ((debtorsOf nb).map Prod.snd).sum) -
        (nb.map Prod.snd).sum ≤
      ((nb.length : ℚ) - (creditorsOf nb).length - (debtorsOf nb).length) / 100 := by
  induction nb with
  | nil => simp [creditorsOf, debtorsOf]
  | cons e nb ih =>
    obtain ⟨h1, h2, h3⟩ := ih
    rw [creditorsOf_cons, debtorsOf_cons]
    by_cases hc : e.2 > 1 / 100
    · rw [if_pos hc, if_pos hc]
      simp only [List.map_cons, List.sum_cons, List.length_cons, Nat.cast_add, Nat.cast_one]
      refine ⟨by omega, by linarith, by linarith⟩
    · rw [if_neg hc, if_neg hc]
      by_cases hd : e.2 < -(1 / 100)
      · rw [if_pos hd]
        simp only [List.map_cons, List.sum_cons, List.length_cons, Nat.cast_add, Nat.cast_one]
        refine ⟨by omega, by linarith, by linarith⟩
      · rw [if_neg hd]
        simp only [List.map_cons, List.sum_cons, List.length_cons, Nat.cast_add, Nat.cast_one]
        have h4 : e.2 ≤ 1 / 100 := not_lt.mp hc
        have h5 : -(1 / 100) ≤ e.2 := not_lt.mp hd
        refine ⟨by omega, by linarith, by linarith⟩

/-- What an entry is short of is at most what all entries together are short of. -/
theorem shortfall_le_total (l : List (String × ℚ)) (paid : String → ℚ) (total : ℚ)
    (hnn : ∀ e ∈ l, paid e.1 ≤ e.2)
    (hsum : (l.map (fun e => paid e.1)).sum = total) :
    ∀ e ∈ l, e.2 - paid e.1 ≤ (l.map Prod.snd).sum - total := by
  intro e he
  have h1 : (l.map (fun e => e.2 - paid e.1)).sum = (l.map Prod.snd).sum - total := by
    rw [← hsum]
    clear hsum hnn he
    induction l with
    | nil => simp
    | cons x l ih =>
      simp only [List.map_cons, List.sum_cons, ih]
      ring
  rw [← h1]
  apply List.single_le_sum
  · intro x hx
    obtain ⟨e2, he2, rfl⟩ := List.mem_map.mp hx
    have := hnn e2 he2
    linarith
  · exact List.mem_map.mpr ⟨e, he, rfl⟩

/-- With balances summing to zero, no creditor and no debtor is left short of
more than 0.01 per person of the mapping, and none is paid beyond its amount. -/
theorem settleFrom_shortfall (nb : List (String × ℚ)) (hord : NetBalance.Ordered nb)
    (hsum : (nb.map Prod.snd).sum = 0) :
    (∀ e ∈ creditorsOf nb,
      0 ≤ e.2 - paidTo e.1 (settleFrom (creditorsOf nb) (debtorsOf nb)) ∧
      e.2 - paidTo e.1 (settleFrom (creditorsOf nb) (debtorsOf nb)) ≤ (nb.length : ℚ) / 100) ∧
    (∀ e ∈ debtorsOf nb,
      0 ≤ e.2 - paidBy e.1 (settleFrom (creditorsOf nb) (debtorsOf nb)) ∧
      e.2 - paidBy e.1 (settleFrom (creditorsOf nb) (debtorsOf nb)) ≤ (nb.length : ℚ) / 100) := by
  have hndc := ordered_nodup (ordered_creditorsOf hord)
  have hndd := ordered_nodup (ordered_debtorsOf hord)
  have hcs : ∀ e ∈ creditorsOf nb, 0 ≤ e.2 := fun e he => by
    have := creditorsOf_pos nb e he
    linarith
  have hds : ∀ e ∈ debtorsOf nb, 0 ≤ e.2 := fun e he => by
    have := debtorsOf_pos nb e he
    linarith
  obtain ⟨hle1, hle2⟩ := settleFrom_paid_le _ _ hndc hndd hcs hds
  have hnames := settleFrom_names (creditorsOf nb) (debtorsOf nb)
  have hT1 := sum_paidTo _ hndc (settleFrom (creditorsOf nb) (debtorsOf nb))
    (fun p hp => (hnames p hp).1)
  have hT2 := sum_paidBy _ hndd (settleFrom (creditorsOf nb) (debtorsOf nb))
    (fun p hp => (hnames p hp).2)
  rw [List.map_map] at hT1 hT2
  have hs1 := shortfall_le_total (creditorsOf nb)
    (fun n => paidTo n (settleFrom (creditorsOf nb) (debtorsOf nb))) _ hle1 hT1
  have hs2 := shortfall_le_total (debtorsOf nb)
    (fun n => paidBy n (settleFrom (creditorsOf nb) (debtorsOf nb))) _ hle2 hT2
  obtain ⟨hp1, hp2, hp3⟩ := partition_sum nb
  rw [hsum] at hp2 hp3
  have hlen1 : ((creditorsOf nb).length : ℚ) + (debtorsOf nb).length ≤ nb.length := by
    exact_mod_cast hp1
  have hc0 : (0 : ℚ) ≤ (creditorsOf nb).length := Nat.cast_nonneg _
  have hd0 : (0 : ℚ) ≤ (debtorsOf nb).length := Nat.cast_nonneg _
  constructor
  · intro e he
    refine ⟨by linarith [hle1 e he], ?_⟩
    have h1 := hs1 e he
    simp only at h1
    rcases settleFrom_total (creditorsOf nb) (debtorsOf nb) with h2 | h2
    · linarith
    · linarith
  · intro e he
    refine ⟨by linarith [hle2 e he], ?_⟩
    have h1 := hs2 e he
    simp only at h1
    rcases settleFrom_total (creditorsOf nb) (debtorsOf nb) with h2 | h2
    · linarith
    · linarith

theorem payment_creditor_balance (nb : List (String × ℚ)) (pay : Payment)
    (hpay : pay ∈ settleFrom (creditorsOf nb) (debtorsOf nb)) :
    ∃ x, (pay.creditor, x) ∈ nb ∧ 1 / 100 < x := by
  obtain ⟨⟨q, x⟩, he, hq⟩ := List.mem_map.mp (settleFrom_names _ _ pay hpay).1
  simp only at hq
  rw [hq] at he
  exact ⟨x, (mem_creditorsOf nb _ x).mp he⟩

theorem payment_debtor_balance (nb : List (String × ℚ)) (pay : Payment)
    (hpay : pay ∈ settleFrom (creditorsOf nb) (debtorsOf nb)) :
    ∃ y, (pay.debtor, y) ∈ nb ∧ y < -(1 / 100) := by
  obtain ⟨⟨q, x⟩, he, hq⟩ := List.mem_map.mp (settleFrom_names _ _ pay hpay).2
  simp only at hq
  rw [hq] at he
  exact ⟨-x, (mem_debtorsOf nb _ x).mp he⟩

theorem paidTo_of_not_creditor (nb : List (String × ℚ)) (hord : NetBalance.Ordered nb)
    (p : String) (b : ℚ) (hp : (p, b) ∈ nb) (hb : b ≤ 1 / 100) :
    paidTo p (settleFrom (creditorsOf nb) (debtorsOf nb)) = 0 := by
  apply paidTo_eq_zero
  intro pay hpay heq
  obtain ⟨x, h1, h2⟩ := payment_creditor_balance nb pay hpay
  rw [heq] at h1
  have := ordered_unique hord h1 hp
  linarith

theorem paidBy_of_not_debtor (nb : List (String × ℚ)) (hord : NetBalance.Ordered nb)
    (p : String) (b : ℚ) (hp : (p, b) ∈ nb) (hb : -(1 / 100) ≤ b) :
    paidBy p (settleFrom (creditorsOf nb) (debtorsOf nb)) = 0 := by
  apply paidBy_eq_zero
  intro pay hpay heq
  obtain ⟨y, h1, h2⟩ := payment_debtor_balance nb pay hpay
  rw [heq] at h1
  have := ordered_unique hord h1 hp
  linarith

theorem exampleDrift_creditors : creditorsOf exampleDrift = [("A", 50), ("B", 50)] := by
  norm_num [creditorsOf, exampleDrift, List.filterMap_cons]

theorem exampleDrift_debtors :
    debtorsOf exampleDrift = [("C", 49992 / 1000), ("D", 49992 / 1000), ("E", 16 / 1000)] := by
  norm_num [debtorsOf, exampleDrift, List.filterMap_cons]

theorem exampleDrift_ordered : NetBalance.Ordered exampleDrift := by
  simp +decide [NetBalance.Ordered, exampleDrift]

theorem exampleDrift_sum : (exampleDrift.map Prod.snd).sum = 0 := by
  norm_num [exampleDrift]

/-! ## The balance calculator: claims -/

/-- C1 (as amended). Conservation: for every store and every group filter in
which each aggregated (unsettled, in-scope) transaction is well-formed,
`calculateNetBalance` returns a mapping whose values sum to zero, whatever the
settlements are. -/
theorem conservation_of_wellFormed (app : SplitWiseApp) (groupName : String)
    (hwf : ∀ t ∈ app.transactions, t.Aggregated groupName → t.WellFormed) :
    ∃ nb, calculateNetBalance app groupName = some nb ∧
      NetBalance.total nb = Dbl.fin 0 :=
  total_calculateNetBalance app groupName hwf

/-- C1, witness: the equal-split store is well-formed and its balances sum to zero. -/
theorem conservation_of_wellFormed_witness :
    (∀ t ∈ exampleEqual.transactions, t.Aggregated "" → t.WellFormed) ∧
    ∃ nb, calculateNetBalance exampleEqual "" = some nb ∧
      NetBalance.total nb = Dbl.fin 0 :=
  have h : ∀ t ∈ exampleEqual.transactions, t.Aggregated "" → t.WellFormed := by
    intro t ht _
    simp only [exampleEqual, mkApp, List.mem_singleton] at ht
    subst ht
    simp [Transaction.WellFormed, mkTransaction]
  ⟨h, conservation_of_wellFormed exampleEqual "" h⟩

/-- C1, counterexample: 100 paid by A for [A, B] with percentages 60 and 30
gives the balances {A: +40, B: -30}, whose sum is 10 and not zero. -/
theorem conservation_counterexample :
    calculateNetBalance examplePercentageShort "" =
      some [("A", Dbl.fin 40), ("B", Dbl.fin (-30))] ∧
    NetBalance.total [("A", Dbl.fin 40), ("B", Dbl.fin (-30))] = Dbl.fin 10 ∧
    Dbl.fin 10 ≠ Dbl.fin 0 := by
  refine ⟨?_, ?_, ?_⟩
  · simp +decide [calculateNetBalance, examplePercentageShort, mkApp, mkTransaction,
      transactionStep, weightedLoop, NetBalance.update, Dbl.fin_div_fin]
    norm_num
  · simp [NetBalance.total]
    norm_num
  · simp

/-- C2. Equal split: a single unsettled Equal transaction with `n ≥ 1`
participants, no settlements and the empty group filter gives every person `p`
the balance (amount if `p` is the payer, else 0) minus `k * amount / n`, `k`
being the number of positions at which `p` occurs in the participants; and 300
paid by A for [A, B, C] yields exactly {A: +200, B: -100, C: -100}. -/
theorem equal_split_balances (app : SplitWiseApp) (t : Transaction)
    (htx : app.transactions = [t]) (hst : app.settlements = [])
    (hunsettled : t.isSettled = false) (hpolicy : t.splitType = SplitType.EQUAL)
    (hn : 1 ≤ t.participants.length) :
    (∃ nb, calculateNetBalance app "" = some nb ∧
      ∀ p, NetBalance.balanceOf p nb =
        Dbl.fin ((if p = t.payer then t.amount else 0)
          - (t.participants.count p : ℚ) * t.amount / (t.participants.length : ℚ))) ∧
    calculateNetBalance exampleEqual "" =
      some [("A", Dbl.fin 200), ("B", Dbl.fin (-100)), ("C", Dbl.fin (-100))] := by
  constructor
  · rw [calculateNetBalance_single app t "" htx hst]
    have hne : (t.participants.length : ℚ) ≠ 0 := by
      have : 0 < t.participants.length := hn
      exact_mod_cast this.ne'
    simp only [transactionStep, hunsettled, hpolicy, Dbl.fin_div_fin_of_ne _ hne]
    simp only [ne_eq, not_true_eq_false, false_and, if_false, Bool.false_eq_true,
      Option.map_some']
    refine ⟨_, rfl, fun p => ?_⟩
    have hord := ordered_equalLoop (Dbl.fin (t.amount / t.participants.length)) t.participants
      (@NetBalance.ordered_nil Dbl)
    have hb := balanceOf_equalLoop (t.amount / t.participants.length) p t.participants
      (@NetBalance.ordered_nil Dbl) (b := 0) rfl
    rw [NetBalance.balanceOf_update _ _ _ hord]
    by_cases hp : p = t.payer
    · subst hp
      rw [if_pos rfl, if_pos rfl, hb, Dbl.fin_add_fin]
      congr 1; ring
    · rw [if_neg hp, if_neg hp, hb]
      congr 1; ring
  · simp +decide [calculateNetBalance, exampleEqual, mkApp, mkTransaction, transactionStep,
      equalLoop, NetBalance.update]
    norm_num

/-- C2, witness: the equal-split store of the example. -/
theorem equal_split_balances_witness :
    1 ≤ ["A", "B", "C"].length ∧
    ((∃ nb, calculateNetBalance exampleEqual "" = some nb ∧
      ∀ p, NetBalance.balanceOf p nb =
        Dbl.fin ((if p = "A" then 300 else 0)
          - ((["A", "B", "C"].count p : ℕ) : ℚ) * 300 / ((["A", "B", "C"].length : ℕ) : ℚ))) ∧
    calculateNetBalance exampleEqual "" =
      some [("A", Dbl.fin 200), ("B", Dbl.fin (-100)), ("C", Dbl.fin (-100))]) :=
  ⟨by decide, equal_split_balances exampleEqual _ rfl rfl rfl rfl (by decide)⟩

/-- C3. Percentage split: a single unsettled Percentage transaction with one
weight per participant, no settlements and the empty group filter gives every
person `p` the balance (amount if `p` is the payer, else 0) minus the sum of
`amount * weights[i] / 100` over the positions `i` where `participants[i] = p`,
whatever the percentages sum to; and 100 paid by A for [A, B] with weights
[60, 40] yields exactly {A: +40, B: -40}. -/
theorem percentage_split_balances (app : SplitWiseApp) (t : Transaction)
    (htx : app.transactions = [t]) (hst : app.settlements = [])
    (hunsettled : t.isSettled = false) (hpolicy : t.splitType = SplitType.PERCENTAGE)
    (hlen : t.weights.length = t.participants.length) :
    (∃ nb, calculateNetBalance app "" = some nb ∧
      ∀ p, NetBalance.balanceOf p nb =
        Dbl.fin ((if p = t.payer then t.amount else 0)
          - chargedTo t.amount 100 p t.participants t.weights)) ∧
    calculateNetBalance examplePercentage "" =
      some [("A", Dbl.fin 40), ("B", Dbl.fin (-40))] := by
  constructor
  · rw [calculateNetBalance_single app t "" htx hst]
    simp only [transactionStep, hunsettled, hpolicy]
    simp only [ne_eq, not_true_eq_false, false_and, if_false, Bool.false_eq_true]
    obtain ⟨nb1, h1, -⟩ := balanceOf_weightedLoop t.amount (by norm_num : (100 : ℚ) ≠ 0)
      t.payer t.participants t.weights (le_of_eq hlen.symm)
      (@NetBalance.ordered_nil Dbl) (b := 0) rfl
    rw [h1, Option.map_some']
    refine ⟨_, rfl, fun p => ?_⟩
    have hord := ordered_weightedLoop _ _ _ _ (@NetBalance.ordered_nil Dbl) h1
    obtain ⟨nb2, h2, hb⟩ := balanceOf_weightedLoop t.amount (by norm_num : (100 : ℚ) ≠ 0)
      p t.participants t.weights (le_of_eq hlen.symm)
      (@NetBalance.ordered_nil Dbl) (b := 0) rfl
    rw [h1, Option.some.injEq] at h2
    subst h2
    rw [NetBalance.balanceOf_update _ _ _ hord]
    by_cases hp : p = t.payer
    · subst hp
      rw [if_pos rfl, if_pos rfl, hb, Dbl.fin_add_fin]
      congr 1; ring
    · rw [if_neg hp, if_neg hp, hb]
  · simp +decide [calculateNetBalance, examplePercentage, mkApp, mkTransaction,
      transactionStep, weightedLoop, NetBalance.update, Dbl.fin_div_fin]
    norm_num

/-- C3, witness: the percentage store of the example. -/
theorem percentage_split_balances_witness :
    [(60 : ℚ), 40].length = ["A", "B"].length ∧
    ((∃ nb, calculateNetBalance examplePercentage "" = some nb ∧
      ∀ p, NetBalance.balanceOf p nb =
        Dbl.fin ((if p = "A" then 100 else 0)
          - chargedTo 100 100 p ["A", "B"] [60, 40])) ∧
    calculateNetBalance examplePercentage "" =
      some [("A", Dbl.fin 40), ("B", Dbl.fin (-40))]) :=
  ⟨by decide, percentage_split_balances examplePercentage _ rfl rfl rfl rfl (by decide)⟩

/-- C4. CustomWeight split: a single unsettled CustomWeight transaction with one
weight per participant and a non-zero weight total `W`, no settlements and the
empty group filter gives every person `p` the balance (amount if `p` is the
payer, else 0) minus the sum of `amount * weights[i] / W` over the positions
`i` where `participants[i] = p`; and 90 paid by A for [A, B, C] with weights
[1, 2, 3] yields exactly {A: +75, B: -30, C: -45}. -/
theorem customWeight_split_balances (app : SplitWiseApp) (t : Transaction)
    (htx : app.transactions = [t]) (hst : app.settlements = [])
    (hunsettled : t.isSettled = false) (hpolicy : t.splitType = SplitType.CUSTOM_WEIGHT)
    (hlen : t.weights.length = t.participants.length)
    (hW : t.weights.sum ≠ 0) :
    (∃ nb, calculateNetBalance app "" = some nb ∧
      ∀ p, NetBalance.balanceOf p nb =
        Dbl.fin ((if p = t.payer then t.amount else 0)
          - chargedTo t.amount t.weights.sum p t.participants t.weights)) ∧
    calculateNetBalance exampleCustomWeight "" =
      some [("A", Dbl.fin 75), ("B", Dbl.fin (-30)), ("C", Dbl.fin (-45))] := by
  constructor
  · rw [calculateNetBalance_single app t "" htx hst]
    simp only [transactionStep, hunsettled, hpolicy, totalWeight_eq_sum]
    simp only [ne_eq, not_true_eq_false, false_and, if_false, Bool.false_eq_true]
    obtain ⟨nb1, h1, -⟩ := balanceOf_weightedLoop t.amount hW
      t.payer t.participants t.weights (le_of_eq hlen.symm)
      (@NetBalance.ordered_nil Dbl) (b := 0) rfl
    rw [h1, Option.map_some']
    refine ⟨_, rfl, fun p => ?_⟩
    have hord := ordered_weightedLoop _ _ _ _ (@NetBalance.ordered_nil Dbl) h1
    obtain ⟨nb2, h2, hb⟩ := balanceOf_weightedLoop t.amount hW
      p t.participants t.weights (le_of_eq hlen.symm)
      (@NetBalance.ordered_nil Dbl) (b := 0) rfl
    rw [h1, Option.some.injEq] at h2
    subst h2
    rw [NetBalance.balanceOf_update _ _ _ hord]
    by_cases hp : p = t.payer
    · subst hp
      rw [if_pos rfl, if_pos rfl, hb, Dbl.fin_add_fin]
      congr 1; ring
    · rw [if_neg hp, if_neg hp, hb]
  · simp +decide [calculateNetBalance, exampleCustomWeight, mkApp, mkTransaction,
      transactionStep, weightedLoop, NetBalance.update, Dbl.fin_div_fin, totalWeight]
    norm_num

/-- C4, witness: the custom-weight store of the example. -/
theorem customWeight_split_balances_witness :
    ([(1 : ℚ), 2, 3].length = ["A", "B", "C"].length ∧ [(1 : ℚ), 2, 3].sum ≠ 0) ∧
    ((∃ nb, calculateNetBalance exampleCustomWeight "" = some nb ∧
      ∀ p, NetBalance.balanceOf p nb =
        Dbl.fin ((if p = "A" then 90 else 0)
          - chargedTo 90 [(1 : ℚ), 2, 3].sum p ["A", "B", "C"] [1, 2, 3])) ∧
    calculateNetBalance exampleCustomWeight "" =
      some [("A", Dbl.fin 75), ("B", Dbl.fin (-30)), ("C", Dbl.fin (-45))]) :=
  ⟨⟨by decide, by norm_num⟩,
    customWeight_split_balances exampleCustomWeight _ rfl rfl rfl rfl (by decide)
      (by norm_num [mkTransaction])⟩

/-- C5. Settlement adjustment: appending to any store one settlement from `d`
to `c ≠ d` of amount `x` that the group filter does not skip turns the result
`nb` of `calculateNetBalance` into a result in which `d` has its former balance
plus `x`, `c` its former balance minus `x`, and every other person the former
balance; and after 300 paid by A for [A, B, C] split equally, a settlement of
100 from B to A yields {A: +100, B: 0, C: -100}. -/
theorem settlement_adjusts_balances (app : SplitWiseApp) (s : Settlement)
    (groupName : String) (nb : NetBalance)
    (hdc : s.from_ ≠ s.to_) (hpass : s.Applied groupName)
    (hnb : calculateNetBalance app groupName = some nb) :
    (∃ nb', calculateNetBalance { app with settlements := app.settlements ++ [s] } groupName
        = some nb' ∧
      NetBalance.balanceOf s.from_ nb' = NetBalance.balanceOf s.from_ nb + Dbl.fin s.amount ∧
      NetBalance.balanceOf s.to_ nb' = NetBalance.balanceOf s.to_ nb - Dbl.fin s.amount ∧
      ∀ p, p ≠ s.from_ → p ≠ s.to_ →
        NetBalance.balanceOf p nb' = NetBalance.balanceOf p nb) ∧
    calculateNetBalance exampleSettled "" =
      some [("A", Dbl.fin 100), ("B", Dbl.fin 0), ("C", Dbl.fin (-100))] := by
  constructor
  · have hord := ordered_calculateNetBalance app groupName hnb
    have hskip : ¬ (groupName ≠ "" ∧ s.groupName ≠ groupName) := by
      rintro ⟨h1, h2⟩
      rcases hpass with h | h
      · exact h1 h
      · exact h2 h
    rw [calculateNetBalance_append_settlement, hnb, Option.map_some']
    refine ⟨_, rfl, ?_, ?_, ?_⟩
    · simp only [settlementStep, if_neg hskip]
      rw [NetBalance.balanceOf_update _ _ _ (NetBalance.ordered_update _ _ hord),
        if_neg hdc, NetBalance.balanceOf_update _ _ _ hord, if_pos rfl]
    · simp only [settlementStep, if_neg hskip]
      rw [NetBalance.balanceOf_update _ _ _ (NetBalance.ordered_update _ _ hord),
        if_pos rfl, NetBalance.balanceOf_update _ _ _ hord, if_neg (Ne.symm hdc)]
    · intro p hp1 hp2
      simp only [settlementStep, if_neg hskip]
      rw [NetBalance.balanceOf_update _ _ _ (NetBalance.ordered_update _ _ hord),
        if_neg hp2, NetBalance.balanceOf_update _ _ _ hord, if_neg hp1]
  · simp +decide [calculateNetBalance, exampleSettled, exampleEqual, exampleSettlement, mkApp,
      mkTransaction, transactionStep, settlementStep, equalLoop, NetBalance.update]
    norm_num

/-- C5, witness: the settlement of 100 from B to A appended to the equal-split
store. -/
theorem settlement_adjusts_balances_witness :
    ("B" ≠ "A" ∧ exampleSettlement.Applied "" ∧
      calculateNetBalance exampleEqual "" =
        some [("A", Dbl.fin 200), ("B", Dbl.fin (-100)), ("C", Dbl.fin (-100))]) ∧
    ((∃ nb', calculateNetBalance
          { exampleEqual with settlements := exampleEqual.settlements ++ [exampleSettlement] } ""
        = some nb' ∧
      NetBalance.balanceOf "B" nb' =
        NetBalance.balanceOf "B" [("A", Dbl.fin 200), ("B", Dbl.fin (-100)), ("C", Dbl.fin (-100))]
          + Dbl.fin 100 ∧
      NetBalance.balanceOf "A" nb' =
        NetBalance.balanceOf "A" [("A", Dbl.fin 200), ("B", Dbl.fin (-100)), ("C", Dbl.fin (-100))]
          - Dbl.fin 100 ∧
      ∀ p, p ≠ "B" → p ≠ "A" →
        NetBalance.balanceOf p nb' =
          NetBalance.balanceOf p
            [("A", Dbl.fin 200), ("B", Dbl.fin (-100)), ("C", Dbl.fin (-100))]) ∧
    calculateNetBalance exampleSettled "" =
      some [("A", Dbl.fin 100), ("B", Dbl.fin 0), ("C", Dbl.fin (-100))]) :=
  have h : calculateNetBalance exampleEqual "" =
      some [("A", Dbl.fin 200), ("B", Dbl.fin (-100)), ("C", Dbl.fin (-100))] := by
    simp +decide [calculateNetBalance, exampleEqual, mkApp, mkTransaction, transactionStep,
      equalLoop, NetBalance.update]
    norm_num
  ⟨⟨by decide, Or.inl rfl, h⟩,
    settlement_adjusts_balances exampleEqual exampleSettlement "" _ (by decide) (Or.inl rfl) h⟩

/-! ## The settlement minimizer: claims -/

theorem exampleBalances_ordered : NetBalance.Ordered exampleBalances := by
  simp +decide [NetBalance.Ordered, exampleBalances]

/-- C6 (as amended). For every balance mapping of `N` persons whose values sum
to zero, `minimizeTransactions` emits payments such that for each creditor the
amounts of the payments naming it as creditor sum to at most its original
credit and to at least that credit minus `0.01 * N`, for each debtor the amounts
of the payments naming it as debtor sum to at most its original debt and to at
least that debt minus `0.01 * N`, so that applying all emitted payments leaves
every balance within `0.01 * N` of zero. -/
theorem settles_within_scaled_tolerance (netBalance : List (String × ℚ))
    (hord : NetBalance.Ordered netBalance)
    (hsum : (netBalance.map Prod.snd).sum = 0) :
    ∃ payments, minimizeBalances netBalance = some payments ∧
      (∀ c x, (c, x) ∈ creditorsOf netBalance →
        0 ≤ x - paidTo c payments ∧ x - paidTo c payments ≤ (netBalance.length : ℚ) / 100) ∧
      (∀ d y, (d, y) ∈ debtorsOf netBalance →
        0 ≤ y - paidBy d payments ∧ y - paidBy d payments ≤ (netBalance.length : ℚ) / 100) ∧
      (∀ p b, (p, b) ∈ netBalance →
        |b - paidTo p payments + paidBy p payments| ≤ (netBalance.length : ℚ) / 100) := by
  obtain ⟨hc, hd⟩ := settleFrom_shortfall netBalance hord hsum
  refine ⟨_, minimizeBalances_eq_settleFrom netBalance, fun c x h => hc (c, x) h,
    fun d y h => hd (d, y) h, ?_⟩
  intro p b hp
  by_cases h1 : 1 / 100 < b
  · have h2 := hc (p, b) ((mem_creditorsOf netBalance p b).mpr ⟨hp, h1⟩)
    have h3 := paidBy_of_not_debtor netBalance hord p b hp (by linarith)
    simp only at h2
    rw [h3, add_zero, abs_le]
    constructor <;> linarith
  · by_cases h2 : b < -(1 / 100)
    · have h3 := hd (p, -b) ((mem_debtorsOf netBalance p (-b)).mpr
        ⟨by rw [neg_neg]; exact hp, by rw [neg_neg]; exact h2⟩)
      have h4 := paidTo_of_not_creditor netBalance hord p b hp (by linarith)
      simp only at h3
      rw [h4, sub_zero, abs_le]
      constructor <;> linarith
    · have h3 := paidTo_of_not_creditor netBalance hord p b hp (not_lt.mp h1)
      have h4 := paidBy_of_not_debtor netBalance hord p b hp (not_lt.mp h2)
      have hlen : (1 : ℚ) ≤ netBalance.length := by
        have : 0 < netBalance.length := List.length_pos_of_mem hp
        exact_mod_cast this
      rw [h3, h4, sub_zero, add_zero, abs_le]
      constructor <;> linarith [not_lt.mp h1, not_lt.mp h2]

/-- C6, witness: the balances {A: +50, B: +50, C: -49.992, D: -49.992,
E: -0.016} ascend by key and sum to zero. -/
theorem settles_within_scaled_tolerance_witness :
    (NetBalance.Ordered exampleDrift ∧ (exampleDrift.map Prod.snd).sum = 0) ∧
    ∃ payments, minimizeBalances exampleDrift = some payments ∧
      (∀ c x, (c, x) ∈ creditorsOf exampleDrift →
        0 ≤ x - paidTo c payments ∧ x - paidTo c payments ≤ (exampleDrift.length : ℚ) / 100) ∧
      (∀ d y, (d, y) ∈ debtorsOf exampleDrift →
        0 ≤ y - paidBy d payments ∧ y - paidBy d payments ≤ (exampleDrift.length : ℚ) / 100) ∧
      (∀ p b, (p, b) ∈ exampleDrift →
        |b - paidTo p payments + paidBy p payments| ≤ (exampleDrift.length : ℚ) / 100) :=
  ⟨⟨exampleDrift_ordered, exampleDrift_sum⟩,
    settles_within_scaled_tolerance exampleDrift exampleDrift_ordered exampleDrift_sum⟩

/-- C6, counterexample: the balances {A: +50, B: +50, C: -49.992, D: -49.992,
E: -0.016} sum to zero; the loop emits (C -> A, 49.992) and (D -> B, 49.992)
and stops; E is a debtor with debt 0.016 and no payment names E, so the
payments naming E sum to 0, which is not within 0.01 of the debt 0.016, and
applying the payments leaves E at -0.016. -/
theorem settles_everyone_counterexample :
    (exampleDrift.map Prod.snd).sum = 0 ∧
    minimizeBalances exampleDrift =
      some [⟨"C", "A", 49992 / 1000⟩, ⟨"D", "B", 49992 / 1000⟩] ∧
    ("E", (16 / 1000 : ℚ)) ∈ debtorsOf exampleDrift ∧
    paidBy "E" [⟨"C", "A", 49992 / 1000⟩, ⟨"D", "B", 49992 / 1000⟩] = 0 ∧
    ¬ |(16 / 1000 : ℚ) - paidBy "E" [⟨"C", "A", 49992 / 1000⟩, ⟨"D", "B", 49992 / 1000⟩]|
        ≤ 1 / 100 := by
  have hpaid : paidBy "E" [⟨"C", "A", 49992 / 1000⟩, ⟨"D", "B", 49992 / 1000⟩] = 0 := by
    simp +decide [paidBy, List.filter_cons]
  refine ⟨exampleDrift_sum, ?_, ?_, hpaid, ?_⟩
  · rw [minimizeBalances, exampleDrift_creditors, exampleDrift_debtors]
    simp only [List.cons_ne_nil, false_and, if_false]
    norm_num [runLoop, loopStep]
  · rw [exampleDrift_debtors]; simp
  · rw [hpaid, sub_zero, abs_of_pos (by norm_num)]
    norm_num

/-- C9. Tolerance boundary: an entry is among the creditors iff its balance is
strictly greater than 0.01 and among the debtors (with its sign changed) iff
its balance is strictly less than -0.01; a person whose balance lies in
[-0.01, 0.01] is named by no emitted payment; a mapping whose balances all lie
in [-0.01, 0.01] yields the empty payment sequence; +0.011 is a creditor and
-0.011 a debtor, while exactly +0.01 and exactly -0.01 are neither. -/
theorem tolerance_boundary (netBalance : List (String × ℚ))
    (hord : NetBalance.Ordered netBalance) :
    (∀ p b, (p, b) ∈ creditorsOf netBalance ↔ (p, b) ∈ netBalance ∧ 1 / 100 < b) ∧
    (∀ p b, (p, b) ∈ debtorsOf netBalance ↔ (p, -b) ∈ netBalance ∧ -b < -(1 / 100)) ∧
    (∀ p b, (p, b) ∈ netBalance → -(1 / 100) ≤ b → b ≤ 1 / 100 →
      ∃ payments, minimizeBalances netBalance = some payments ∧
        ∀ pay ∈ payments, pay.debtor ≠ p ∧ pay.creditor ≠ p) ∧
    ((∀ e ∈ netBalance, -(1 / 100) ≤ e.2 ∧ e.2 ≤ 1 / 100) →
      minimizeBalances netBalance = some []) ∧
    (creditorsOf [("A", 11 / 1000)] = [("A", 11 / 1000)] ∧
      debtorsOf [("A", -(11 / 1000))] = [("A", 11 / 1000)] ∧
      creditorsOf [("A", 1 / 100)] = [] ∧ debtorsOf [("A", 1 / 100)] = [] ∧
      creditorsOf [("A", -(1 / 100))] = [] ∧ debtorsOf [("A", -(1 / 100))] = []) := by
  refine ⟨mem_creditorsOf netBalance, mem_debtorsOf netBalance, ?_, ?_, ?_⟩
  · intro p b hp hlo hhi
    refine ⟨_, minimizeBalances_eq_settleFrom netBalance, ?_⟩
    intro pay hpay
    obtain ⟨h1, h2⟩ := settleFrom_names _ _ pay hpay
    constructor
    · intro heq
      obtain ⟨⟨q, y⟩, he, hq⟩ := List.mem_map.mp h2
      simp only at hq
      rw [hq, heq] at he
      obtain ⟨h3, h4⟩ := (mem_debtorsOf netBalance p y).mp he
      have h5 : -y = b := ordered_unique hord h3 hp
      linarith
    · intro heq
      obtain ⟨⟨q, x⟩, he, hq⟩ := List.mem_map.mp h1
      simp only at hq
      rw [hq, heq] at he
      obtain ⟨h3, h4⟩ := (mem_creditorsOf netBalance p x).mp he
      have h5 : x = b := ordered_unique hord h3 hp
      linarith
  · intro hall
    have hc : creditorsOf netBalance = [] := by
      rw [List.eq_nil_iff_forall_not_mem]
      rintro ⟨p, b⟩ he
      obtain ⟨h3, h4⟩ := (mem_creditorsOf netBalance p b).mp he
      have := (hall (p, b) h3).2
      simp only at this
      linarith
    rw [minimizeBalances_eq_settleFrom, hc, settleFrom_nil_left]
  · refine ⟨?_, ?_, ?_, ?_, ?_, ?_⟩ <;>
      norm_num [creditorsOf, debtorsOf, List.filterMap_cons]

/-- C9, witness: the balances {A: +100, B: -60, C: -40}, whose keys ascend. -/
theorem tolerance_boundary_witness :
    NetBalance.Ordered exampleBalances ∧
    ((∀ p b, (p, b) ∈ creditorsOf exampleBalances ↔ (p, b) ∈ exampleBalances ∧ 1 / 100 < b) ∧
    (∀ p b, (p, b) ∈ debtorsOf exampleBalances ↔
      (p, -b) ∈ exampleBalances ∧ -b < -(1 / 100)) ∧
    (∀ p b, (p, b) ∈ exampleBalances → -(1 / 100) ≤ b → b ≤ 1 / 100 →
      ∃ payments, minimizeBalances exampleBalances = some payments ∧
        ∀ pay ∈ payments, pay.debtor ≠ p ∧ pay.creditor ≠ p) ∧
    ((∀ e ∈ exampleBalances, -(1 / 100) ≤ e.2 ∧ e.2 ≤ 1 / 100) →
      minimizeBalances exampleBalances = some []) ∧
    (creditorsOf [("A", 11 / 1000)] = [("A", 11 / 1000)] ∧
      debtorsOf [("A", -(11 / 1000))] = [("A", 11 / 1000)] ∧
      creditorsOf [("A", 1 / 100)] = [] ∧ debtorsOf [("A", 1 / 100)] = [] ∧
      creditorsOf [("A", -(1 / 100))] = [] ∧ debtorsOf [("A", -(1 / 100))] = [])) :=
  ⟨exampleBalances_ordered, tolerance_boundary exampleBalances exampleBalances_ordered⟩

/-! ## The balance calculator: zero total weight -/

/-- C10 (as amended). A zero total weight is not rejected: `calculateNetBalance`
has no failure for it. Whenever no aggregated Percentage or CustomWeight
transaction has fewer weights than participants, it returns a balance mapping,
and every participant of an aggregated CustomWeight transaction whose weights
sum to zero has a non-finite balance (NaN or ±Inf) in that mapping. -/
theorem zero_total_weight_not_rejected (app : SplitWiseApp) (groupName : String)
    (hlen : ∀ u ∈ app.transactions, u.Aggregated groupName →
      u.splitType ≠ SplitType.EQUAL → u.participants.length ≤ u.weights.length) :
    ∃ nb, calculateNetBalance app groupName = some nb ∧
      ∀ t ∈ app.transactions, t.Aggregated groupName →
        t.splitType = SplitType.CUSTOM_WEIGHT → t.weights.sum = 0 →
        ∀ p ∈ t.participants, NetBalance.balanceOf p nb = Dbl.nonFinite := by
  obtain ⟨nb1, h1⟩ := transactions_isSome groupName app.transactions hlen []
  refine ⟨app.settlements.foldl (settlementStep groupName) nb1, ?_, ?_⟩
  · simp [calculateNetBalance, h1]
  · intro t ht hagg hpol hzero p hp
    exact nonFinite_settlements groupName app.settlements p
      (ordered_transactions groupName app.transactions NetBalance.ordered_nil h1)
      (zero_weight_transactions groupName app.transactions t ht hagg hpol hzero p hp
        NetBalance.ordered_nil h1)

/-- C10, witness: the store with 90 paid by A for [A, B] under weights 0 and 0,
which has one weight per participant. -/
theorem zero_total_weight_not_rejected_witness :
    (∀ u ∈ exampleZeroWeight.transactions, u.Aggregated "" →
      u.splitType ≠ SplitType.EQUAL → u.participants.length ≤ u.weights.length) ∧
    ∃ nb, calculateNetBalance exampleZeroWeight "" = some nb ∧
      ∀ t ∈ exampleZeroWeight.transactions, t.Aggregated "" →
        t.splitType = SplitType.CUSTOM_WEIGHT → t.weights.sum = 0 →
        ∀ p ∈ t.participants, NetBalance.balanceOf p nb = Dbl.nonFinite :=
  have hlen : ∀ u ∈ exampleZeroWeight.transactions, u.Aggregated "" →
      u.splitType ≠ SplitType.EQUAL → u.participants.length ≤ u.weights.length := by
    intro u hu _ _
    rw [List.mem_singleton.mp hu]
    decide
  ⟨hlen, zero_total_weight_not_rejected exampleZeroWeight "" hlen⟩

/-- C10, counterexample: the store holds an unsettled CustomWeight transaction
without a group whose weights 0 and 0 sum to zero, and `calculateNetBalance`
returns a balance mapping, in which the balances of A and B are non-finite. -/
theorem zero_total_weight_counterexample :
    (∃ t ∈ exampleZeroWeight.transactions, t.Aggregated "" ∧
      t.splitType = SplitType.CUSTOM_WEIGHT ∧ t.weights.sum = 0) ∧
    calculateNetBalance exampleZeroWeight "" =
      some [("A", Dbl.nonFinite), ("B", Dbl.nonFinite)] := by
  constructor
  · refine ⟨mkTransaction "A" 90 ["A", "B"] SplitType.CUSTOM_WEIGHT [0, 0],
      List.mem_singleton.mpr rfl, ⟨rfl, Or.inl rfl⟩, rfl, ?_⟩
    norm_num [mkTransaction]
  · simp +decide [calculateNetBalance, exampleZeroWeight, mkApp, mkTransaction,
      transactionStep, weightedLoop, NetBalance.update, Dbl.fin_div_fin, totalWeight]

/-! ## Group scoping -/

theorem transactionStep_other_group {groupName : String} (hg : groupName ≠ "")
    (nb : NetBalance) (t : Transaction) (ht : t.groupName ≠ groupName) :
    transactionStep groupName nb t = some nb := by
  unfold transactionStep
  split_ifs with h1 h2
  · rfl
  · rfl
  · exact absurd ⟨hg, ht⟩ h2

theorem transactionStep_same_group (nb : NetBalance) (t : Transaction) :
    transactionStep t.groupName nb t = transactionStep "" nb t := by
  simp [transactionStep]

theorem transactionStep_regroup (nb : NetBalance) (t : Transaction) (g : String) :
    transactionStep "" nb { t with groupName := g } = transactionStep "" nb t := by
  simp [transactionStep]

theorem settlementStep_other_group {groupName : String} (hg : groupName ≠ "")
    (nb : NetBalance) (s : Settlement) (hs : s.groupName ≠ groupName) :
    settlementStep groupName nb s = nb := by
  unfold settlementStep
  rw [if_pos ⟨hg, hs⟩]

theorem settlementStep_same_group (nb : NetBalance) (s : Settlement) :
    settlementStep s.groupName nb s = settlementStep "" nb s := by
  simp [settlementStep]

theorem settlementStep_regroup (nb : NetBalance) (s : Settlement) (g : String) :
    settlementStep "" nb { s with groupName := g } = settlementStep "" nb s := by
  simp [settlementStep]

theorem transactions_filter_group {groupName : String} (hg : groupName ≠ "")
    (txs : List Transaction) (nb : NetBalance) :
    txs.foldlM (transactionStep groupName) nb =
      (txs.filter (fun t => t.groupName = groupName)).foldlM (transactionStep "") nb := by
  induction txs generalizing nb with
  | nil => rfl
  | cons t txs ih =>
    by_cases ht : t.groupName = groupName
    · rw [List.filter_cons_of_pos (by simpa using ht), List.foldlM_cons, List.foldlM_cons]
      have h1 : transactionStep groupName nb t = transactionStep "" nb t := by
        rw [← ht]; exact transactionStep_same_group nb t
      rw [h1]
      cases transactionStep "" nb t with
      | none => rfl
      | some nb1 => exact ih nb1
    · rw [List.filter_cons_of_neg (by simpa using ht), List.foldlM_cons,
        transactionStep_other_group hg nb t ht]
      exact ih nb

theorem settlements_filter_group {groupName : String} (hg : groupName ≠ "")
    (sts : List Settlement) (nb : NetBalance) :
    sts.foldl (settlementStep groupName) nb =
      (sts.filter (fun s => s.groupName = groupName)).foldl (settlementStep "") nb := by
  induction sts generalizing nb with
  | nil => rfl
  | cons s sts ih =>
    by_cases hs : s.groupName = groupName
    · rw [List.filter_cons_of_pos (by simpa using hs), List.foldl_cons, List.foldl_cons]
      have h1 : settlementStep groupName nb s = settlementStep "" nb s := by
        rw [← hs]; exact settlementStep_same_group nb s
      rw [h1]
      exact ih _
    · rw [List.filter_cons_of_neg (by simpa using hs), List.foldl_cons,
        settlementStep_other_group hg nb s hs]
      exact ih nb

theorem transactions_regroup (f : Transaction → String) (txs : List Transaction)
    (nb : NetBalance) :
    (txs.map (fun t => { t with groupName := f t })).foldlM (transactionStep "") nb =
      txs.foldlM (transactionStep "") nb := by
  induction txs generalizing nb with
  | nil => rfl
  | cons t txs ih =>
    rw [List.map_cons, List.foldlM_cons, List.foldlM_cons, transactionStep_regroup]
    cases transactionStep "" nb t with
    | none => rfl
    | some nb1 => exact ih nb1

theorem settlements_regroup (f : Settlement → String) (sts : List Settlement)
    (nb : NetBalance) :
    (sts.map (fun s => { s with groupName := f s })).foldl (settlementStep "") nb =
      sts.foldl (settlementStep "") nb := by
  induction sts generalizing nb with
  | nil => rfl
  | cons s sts ih =>
    rw [List.map_cons, List.foldl_cons, List.foldl_cons, settlementStep_regroup]
    exact ih _

/-! ## Maps with ascending keys are determined by their keys and balances -/

theorem mem_keys_update (f : Dbl → Dbl) (key p : String) (nb : NetBalance) :
    p ∈ (NetBalance.update f key nb).map Prod.fst ↔ p = key ∨ p ∈ nb.map Prod.fst := by
  induction nb with
  | nil => simp [NetBalance.update]
  | cons e nb ih =>
    obtain ⟨k, v⟩ := e
    simp only [NetBalance.update]
    split_ifs with h1 h2
    · subst h1; simp
    · simp
    · simp only [List.map_cons, List.mem_cons, ih]
      tauto

theorem ordered_ext {a b : NetBalance} (ha : NetBalance.Ordered a) (hb : NetBalance.Ordered b)
    (hkeys : ∀ p, p ∈ a.map Prod.fst ↔ p ∈ b.map Prod.fst)
    (hbal : ∀ p, NetBalance.balanceOf p a = NetBalance.balanceOf p b) : a = b := by
  induction a generalizing b with
  | nil =>
    cases b with
    | nil => rfl
    | cons e b =>
      have := (hkeys e.1).mpr (by simp)
      simp at this
  | cons e a ih =>
    cases b with
    | nil =>
      have := (hkeys e.1).mp (by simp)
      simp at this
    | cons e' b =>
      obtain ⟨k, v⟩ := e
      obtain ⟨k', v'⟩ := e'
      rw [NetBalance.ordered_cons] at ha hb
      have hlta : ∀ p ∈ a.map Prod.fst, k < p := by
        intro p hp
        obtain ⟨x, hx, rfl⟩ := List.mem_map.mp hp
        exact ha.1 x hx
      have hltb : ∀ p ∈ b.map Prod.fst, k' < p := by
        intro p hp
        obtain ⟨x, hx, rfl⟩ := List.mem_map.mp hp
        exact hb.1 x hx
      have hk : k = k' := by
        by_contra hne
        have h1 : k ∈ ((k', v') :: b).map Prod.fst := (hkeys k).mp (by simp)
        have h2 : k' ∈ ((k, v) :: a).map Prod.fst := (hkeys k').mpr (by simp)
        simp only [List.map_cons, List.mem_cons] at h1 h2
        have h3 : k' < k := by
          rcases h1 with h1 | h1
          · exact absurd h1 hne
          · exact hltb k h1
        have h4 : k < k' := by
          rcases h2 with h2 | h2
          · exact absurd h2.symm hne
          · exact hlta k' h2
        exact lt_asymm h3 h4
      subst hk
      have hv : v = v' := by
        have := hbal k
        simpa [NetBalance.balanceOf] using this
      subst hv
      have htail : a = b := by
        apply ih ha.2 hb.2
        · intro p
          have h1 := hkeys p
          simp only [List.map_cons, List.mem_cons] at h1
          constructor
          · intro hp
            rcases h1.mp (Or.inr hp) with h2 | h2
            · exact absurd (hlta p hp) (by rw [h2]; exact lt_irrefl _)
            · exact h2
          · intro hp
            rcases h1.mpr (Or.inr hp) with h2 | h2
            · exact absurd (hltb p hp) (by rw [h2]; exact lt_irrefl _)
            · exact h2
        · intro p
          by_cases hp : p = k
          · subst hp
            rw [NetBalance.balanceOf_eq_zero_of_lt (fun x hx => ha.1 x hx),
              NetBalance.balanceOf_eq_zero_of_lt (fun x hx => hb.1 x hx)]
          · have := hbal p
            simpa [NetBalance.balanceOf, hp] using this
      rw [htail]

/-! ## Negation, and addition in any order -/

theorem Dbl.dsub_eq_add_neg (v x : Dbl) : v - x = v + Dbl.neg x := by
  cases v <;> cases x <;> simp [Dbl.neg, sub_eq_add_neg]

theorem Dbl.dadd_right_comm (v x y : Dbl) : v + x + y = v + y + x := by
  rw [Dbl.dadd_assoc, Dbl.dadd_comm x y, ← Dbl.dadd_assoc]

/-! ## Steps that shift the balances -/

theorem shifts_trans {K1 K2 : List String} {d1 d2 : String → Dbl} {a b c : NetBalance}
    (h1 : Shifts K1 d1 a b) (h2 : Shifts K2 d2 b c) :
    Shifts (K1 ++ K2) (fun p => d1 p + d2 p) a c := by
  refine ⟨h2.1, ?_, ?_⟩
  · intro p
    rw [h2.2.1 p, h1.2.1 p, List.mem_append, or_assoc]
  · intro p
    rw [h2.2.2 p, h1.2.2 p, Dbl.dadd_assoc]

theorem shifts_unique {K K' : List String} {d d' : String → Dbl} {nb a b : NetBalance}
    (ha : Shifts K d nb a) (hb : Shifts K' d' nb b)
    (hK : ∀ p, p ∈ K ↔ p ∈ K') (hd : ∀ p, d p = d' p) : a = b := by
  apply ordered_ext ha.1 hb.1
  · intro p
    rw [ha.2.1 p, hb.2.1 p, hK p]
  · intro p
    rw [ha.2.2 p, hb.2.2 p, hd p]

theorem shifts_update_add (x : Dbl) (key : String) {nb : NetBalance}
    (h : NetBalance.Ordered nb) :
    Shifts [key] (fun p => if p = key then x else Dbl.fin 0) nb
      (NetBalance.update (fun v => v + x) key nb) := by
  refine ⟨NetBalance.ordered_update _ _ h, ?_, ?_⟩
  · intro p
    rw [mem_keys_update, List.mem_singleton, or_comm]
  · intro p
    dsimp only
    rw [NetBalance.balanceOf_update _ _ _ h]
    split_ifs with h1
    · rw [h1]
    · rw [Dbl.dadd_zero]

theorem shifts_update_sub (x : Dbl) (key : String) {nb : NetBalance}
    (h : NetBalance.Ordered nb) :
    Shifts [key] (fun p => if p = key then Dbl.neg x else Dbl.fin 0) nb
      (NetBalance.update (fun v => v - x) key nb) := by
  refine ⟨NetBalance.ordered_update _ _ h, ?_, ?_⟩
  · intro p
    rw [mem_keys_update, List.mem_singleton, or_comm]
  · intro p
    dsimp only
    rw [NetBalance.balanceOf_update _ _ _ h]
    split_ifs with h1
    · rw [h1, Dbl.dsub_eq_add_neg]
    · rw [Dbl.dadd_zero]

theorem isShift_some : IsShift (fun nb => some nb) := by
  right
  refine ⟨[], fun _ => Dbl.fin 0, fun nb h => ⟨nb, rfl, h, ?_, ?_⟩⟩
  · intro p; simp
  · intro p; rw [Dbl.dadd_zero]

theorem isShift_update_add (x : Dbl) (key : String) :
    IsShift (fun nb => some (NetBalance.update (fun v => v + x) key nb)) :=
  Or.inr ⟨_, _, fun _ h => ⟨_, rfl, shifts_update_add x key h⟩⟩

theorem isShift_update_sub (x : Dbl) (key : String) :
    IsShift (fun nb => some (NetBalance.update (fun v => v - x) key nb)) :=
  Or.inr ⟨_, _, fun _ h => ⟨_, rfl, shifts_update_sub x key h⟩⟩

theorem isShift_bind {f g : NetBalance → Option NetBalance} (hf : IsShift f)
    (hg : IsShift g) : IsShift (fun nb => (f nb).bind g) := by
  rcases hf with hf | ⟨K1, d1, hf⟩
  · left; intro nb; dsimp only; rw [hf nb]; rfl
  · rcases hg with hg | ⟨K2, d2, hg⟩
    · left
      intro nb
      dsimp only
      cases f nb with
      | none => rfl
      | some nb1 => exact hg nb1
    · right
      refine ⟨K1 ++ K2, fun p => d1 p + d2 p, fun nb h => ?_⟩
      obtain ⟨nb1, h1, h2⟩ := hf nb h
      obtain ⟨nb2, h3, h4⟩ := hg nb1 h2.1
      exact ⟨nb2, by dsimp only; rw [h1]; exact h3, shifts_trans h2 h4⟩

theorem isShift_ordered {f : NetBalance → Option NetBalance} (hf : IsShift f)
    {nb nb' : NetBalance} (h : NetBalance.Ordered nb) (hr : f nb = some nb') :
    NetBalance.Ordered nb' := by
  rcases hf with hf | ⟨K, d, hf⟩
  · rw [hf nb] at hr; simp at hr
  · obtain ⟨nb1, h1, h2⟩ := hf nb h
    rw [h1, Option.some.injEq] at hr
    rw [← hr]; exact h2.1

/-- Two shifting steps give the same result in either order. -/
theorem isShift_comm {f g : NetBalance → Option NetBalance} (hf : IsShift f)
    (hg : IsShift g) {nb : NetBalance} (h : NetBalance.Ordered nb) :
    (f nb).bind g = (g nb).bind f := by
  rcases hf with hf | ⟨K1, d1, hf⟩
  · rw [hf nb]
    cases g nb with
    | none => rfl
    | some nb1 => exact (hf nb1).symm
  · rcases hg with hg | ⟨K2, d2, hg⟩
    · rw [hg nb]
      cases f nb with
      | none => rfl
      | some nb1 => exact hg nb1
    · obtain ⟨a1, h1, h2⟩ := hf nb h
      obtain ⟨a2, h3, h4⟩ := hg a1 h2.1
      obtain ⟨b1, h5, h6⟩ := hg nb h
      obtain ⟨b2, h7, h8⟩ := hf b1 h6.1
      rw [h1, h5]
      simp only [Option.some_bind, h3, h7, Option.some.injEq]
      exact shifts_unique (shifts_trans h2 h4) (shifts_trans h6 h8)
        (fun p => by simp only [List.mem_append]; exact or_comm)
        (fun p => Dbl.dadd_comm _ _)

/-- Folding shifting steps over a permuted list gives the same result. -/
theorem foldlM_perm {α : Type} (step : NetBalance → α → Option NetBalance)
    (hstep : ∀ x, IsShift (fun nb => step nb x)) {l₁ l₂ : List α} (hp : l₁.Perm l₂) :
    ∀ nb, NetBalance.Ordered nb → l₁.foldlM step nb = l₂.foldlM step nb := by
  induction hp with
  | nil => intro nb _; rfl
  | cons x _ ih =>
    intro nb h
    rw [List.foldlM_cons, List.foldlM_cons]
    cases hx : step nb x with
    | none => rfl
    | some nb1 => exact ih nb1 (isShift_ordered (hstep x) h hx)
  | swap x y l =>
    intro nb h
    simp only [List.foldlM_cons]
    have hc := isShift_comm (hstep y) (hstep x) h
    simp only at hc
    cases hy : step nb y with
    | none =>
      rw [hy] at hc
      cases hx : step nb x with
      | none => rfl
      | some nb1 =>
        rw [hx] at hc
        simp only [Option.none_bind, Option.some_bind] at hc
        simp only [Option.bind_eq_bind, Option.none_bind, Option.some_bind, ← hc]
    | some nb1 =>
      rw [hy] at hc
      cases hx : step nb x with
      | none =>
        rw [hx] at hc
        simp only [Option.none_bind, Option.some_bind] at hc
        simp only [Option.bind_eq_bind, Option.none_bind, Option.some_bind, hc]
      | some nb2 =>
        rw [hx] at hc
        simp only [Option.some_bind] at hc
        simp only [Option.bind_eq_bind, Option.some_bind, hc]
  | trans _ _ ih1 ih2 =>
    intro nb h
    rw [ih1 nb h, ih2 nb h]

/-! ## The steps of `calculateNetBalance` shift the balances -/

theorem isShift_congr {f g : NetBalance → Option NetBalance} (h : ∀ nb, f nb = g nb)
    (hg : IsShift g) : IsShift f := by
  have : f = g := funext h
  rw [this]; exact hg

theorem isShift_foldlM {α : Type} (step : NetBalance → α → Option NetBalance)
    (hstep : ∀ x, IsShift (fun nb => step nb x)) (l : List α) :
    IsShift (fun nb => l.foldlM step nb) := by
  induction l with
  | nil => exact isShift_congr (fun nb => rfl) isShift_some
  | cons x l ih =>
    exact isShift_congr (fun nb => by rw [List.foldlM_cons]; rfl) (isShift_bind (hstep x) ih)

theorem equalLoop_eq_foldlM (s : Dbl) (ps : List String) (nb : NetBalance) :
    some (equalLoop s ps nb) =
      ps.foldlM (fun nb p => some (NetBalance.update (fun v => v - s) p nb)) nb := by
  induction ps generalizing nb with
  | nil => rfl
  | cons p ps ih =>
    rw [List.foldlM_cons]
    exact ih _

theorem weightedLoop_eq_foldlM (amount : ℚ) (divisor : Dbl) (pairs : List (String × ℚ))
    (nb : NetBalance) :
    weightedLoop amount divisor (pairs.map Prod.fst) (pairs.map Prod.snd) nb =
      pairs.foldlM (fun nb e => some (NetBalance.update
        (fun v => v - Dbl.fin amount * (Dbl.fin e.2 / divisor)) e.1 nb)) nb := by
  induction pairs generalizing nb with
  | nil => rfl
  | cons e pairs ih =>
    rw [List.foldlM_cons]
    exact ih _

theorem isShift_equalLoop (s : Dbl) (ps : List String) :
    IsShift (fun nb => some (equalLoop s ps nb)) :=
  isShift_congr (fun nb => equalLoop_eq_foldlM s ps nb)
    (isShift_foldlM _ (fun p => isShift_update_sub s p) ps)

theorem isShift_weightedLoop (amount : ℚ) (divisor : Dbl) (ps : List String) (ws : List ℚ) :
    IsShift (fun nb => weightedLoop amount divisor ps ws nb) := by
  induction ps generalizing ws with
  | nil => exact isShift_congr (fun nb => by simp [weightedLoop]) isShift_some
  | cons p ps ih =>
    cases ws with
    | nil => exact Or.inl (fun nb => rfl)
    | cons w ws =>
      exact isShift_congr (fun nb => rfl)
        (isShift_bind
          (isShift_update_sub (Dbl.fin amount * (Dbl.fin w / divisor)) p) (ih ws))

theorem isShift_transactionStep (groupName : String) (t : Transaction) :
    IsShift (fun nb => transactionStep groupName nb t) := by
  by_cases h1 : t.isSettled = true
  · exact isShift_congr (fun nb => by simp [transactionStep, h1]) isShift_some
  · by_cases h2 : groupName ≠ "" ∧ t.groupName ≠ groupName
    · exact isShift_congr (fun nb => by simp only [transactionStep, if_neg h1, if_pos h2])
        isShift_some
    · have hpay := isShift_update_add (Dbl.fin t.amount) t.payer
      cases hsp : t.splitType with
      | EQUAL =>
        refine isShift_congr (fun nb => ?_)
          (isShift_bind (isShift_equalLoop
            (Dbl.fin t.amount / Dbl.fin (t.participants.length : ℚ)) t.participants) hpay)
        simp only [transactionStep, if_neg h1, if_neg h2, hsp]
        rfl
      | PERCENTAGE =>
        refine isShift_congr (fun nb => ?_)
          (isShift_bind (isShift_weightedLoop t.amount (Dbl.fin 100) t.participants
            t.weights) hpay)
        simp only [transactionStep, if_neg h1, if_neg h2, hsp]
        cases weightedLoop t.amount (Dbl.fin 100) t.participants t.weights nb <;> rfl
      | CUSTOM_WEIGHT =>
        refine isShift_congr (fun nb => ?_)
          (isShift_bind (isShift_weightedLoop t.amount (Dbl.fin (totalWeight t.weights))
            t.participants t.weights) hpay)
        simp only [transactionStep, if_neg h1, if_neg h2, hsp]
        cases weightedLoop t.amount (Dbl.fin (totalWeight t.weights)) t.participants
          t.weights nb <;> rfl

theorem isShift_settlementStep (groupName : String) (s : Settlement) :
    IsShift (fun nb => some (settlementStep groupName nb s)) := by
  by_cases h : groupName ≠ "" ∧ s.groupName ≠ groupName
  · exact isShift_congr (fun nb => by simp only [settlementStep, if_pos h]) isShift_some
  · refine isShift_congr (fun nb => ?_)
      (isShift_bind (isShift_update_add (Dbl.fin s.amount) s.from_)
        (isShift_update_sub (Dbl.fin s.amount) s.to_))
    simp only [settlementStep, if_neg h]
    rfl

theorem foldl_eq_foldlM {α : Type} (f : NetBalance → α → NetBalance) (l : List α)
    (nb : NetBalance) :
    some (l.foldl f nb) = l.foldlM (fun nb x => some (f nb x)) nb := by
  induction l generalizing nb with
  | nil => rfl
  | cons x l ih =>
    rw [List.foldl_cons, List.foldlM_cons]
    exact ih _

/-! ## Order independence of the steps -/

theorem transactions_perm (groupName : String) {txs txs' : List Transaction}
    (hp : txs.Perm txs') {nb : NetBalance} (h : NetBalance.Ordered nb) :
    txs.foldlM (transactionStep groupName) nb = txs'.foldlM (transactionStep groupName) nb :=
  foldlM_perm (transactionStep groupName) (isShift_transactionStep groupName) hp nb h

theorem settlements_perm (groupName : String) {sts sts' : List Settlement}
    (hp : sts.Perm sts') {nb : NetBalance} (h : NetBalance.Ordered nb) :
    sts.foldl (settlementStep groupName) nb = sts'.foldl (settlementStep groupName) nb := by
  have h1 := foldlM_perm (fun nb s => some (settlementStep groupName nb s))
    (isShift_settlementStep groupName) hp nb h
  rw [← foldl_eq_foldlM, ← foldl_eq_foldlM, Option.some.injEq] at h1
  exact h1

theorem equalLoop_perm (s : Dbl) {ps ps' : List String} (hp : ps.Perm ps')
    {nb : NetBalance} (h : NetBalance.Ordered nb) :
    equalLoop s ps nb = equalLoop s ps' nb := by
  have h1 := foldlM_perm (fun nb p => some (NetBalance.update (fun v => v - s) p nb))
    (fun p => isShift_update_sub s p) hp nb h
  rw [← equalLoop_eq_foldlM, ← equalLoop_eq_foldlM, Option.some.injEq] at h1
  exact h1

theorem weightedLoop_perm (amount : ℚ) (divisor : Dbl) {pairs pairs' : List (String × ℚ)}
    (hp : pairs.Perm pairs') {nb : NetBalance} (h : NetBalance.Ordered nb) :
    weightedLoop amount divisor (pairs.map Prod.fst) (pairs.map Prod.snd) nb =
      weightedLoop amount divisor (pairs'.map Prod.fst) (pairs'.map Prod.snd) nb := by
  rw [weightedLoop_eq_foldlM, weightedLoop_eq_foldlM]
  exact foldlM_perm _
    (fun e => isShift_update_sub (Dbl.fin amount * (Dbl.fin e.2 / divisor)) e.1) hp nb h

theorem transactionStep_reordered (groupName : String) {t t' : Transaction}
    (hr : t.Reordered t') {nb : NetBalance} (h : NetBalance.Ordered nb) :
    transactionStep groupName nb t = transactionStep groupName nb t' := by
  obtain ⟨hpayer, hamount, hsplit, hgroup, hsettled, hparts⟩ := hr
  unfold transactionStep
  rw [hpayer, hamount, hsplit, hgroup, hsettled]
  by_cases h1 : t.isSettled = true
  · rw [if_pos h1, if_pos h1]
  · rw [if_neg h1, if_neg h1]
    by_cases h2 : groupName ≠ "" ∧ t.groupName ≠ groupName
    · rw [if_pos h2, if_pos h2]
    · rw [if_neg h2, if_neg h2]
      rcases hparts with ⟨hsame1, hsame2⟩ | ⟨heq, hperm⟩ |
        ⟨pairs, pairs', hperm, hp1, hw1, hp2, hw2⟩
      · rw [hsame1, hsame2]
      · simp only [heq]
        rw [equalLoop_perm _ hperm h, hperm.length_eq]
      · have hsum : totalWeight t.weights = totalWeight t'.weights := by
          rw [totalWeight_eq_sum, totalWeight_eq_sum, hw1, hw2]
          exact (hperm.map Prod.snd).sum_eq
        have hlen : t.participants.length = t'.participants.length := by
          rw [hp1, hp2, List.length_map, List.length_map]; exact hperm.length_eq
        cases hsp : t.splitType with
        | EQUAL =>
          have hpp : t.participants.Perm t'.participants := by
            rw [hp1, hp2]; exact hperm.map Prod.fst
          simp only
          rw [hlen, equalLoop_perm _ hpp h]
        | PERCENTAGE =>
          simp only
          rw [hp1, hw1, hp2, hw2, weightedLoop_perm _ _ hperm h]
        | CUSTOM_WEIGHT =>
          simp only
          rw [hsum, hp1, hw1, hp2, hw2, weightedLoop_perm _ _ hperm h]

theorem transactions_reordered (groupName : String) {txs txs' : List Transaction}
    (hr : List.Forall₂ Transaction.Reordered txs txs') {nb : NetBalance}
    (h : NetBalance.Ordered nb) :
    txs.foldlM (transactionStep groupName) nb = txs'.foldlM (transactionStep groupName) nb := by
  induction hr generalizing nb with
  | nil => rfl
  | cons hhead _ ih =>
    rw [List.foldlM_cons, List.foldlM_cons, transactionStep_reordered groupName hhead h]
    rename_i t t' l l' _
    cases hstep : transactionStep groupName nb t' with
    | none => rfl
    | some nb1 => exact ih (ordered_transactionStep groupName t' h hstep)

/-! ## A finite total is the sum of finite balances -/

theorem finiteBalances_of_total (nb : NetBalance) (t : ℚ)
    (h : NetBalance.total nb = Dbl.fin t) :
    ∃ balances, finiteBalances nb = some balances ∧ (balances.map Prod.snd).sum = t := by
  induction nb generalizing t with
  | nil =>
    simp only [NetBalance.total, Dbl.fin.injEq] at h
    exact ⟨[], rfl, by simpa using h⟩
  | cons e nb ih =>
    obtain ⟨k, v⟩ := e
    simp only [NetBalance.total] at h
    cases v with
    | nonFinite => simp at h
    | fin a =>
      cases hr : NetBalance.total nb with
      | nonFinite => rw [hr] at h; simp at h
      | fin b =>
        rw [hr, Dbl.fin_add_fin, Dbl.fin.injEq] at h
        obtain ⟨m, h1, h2⟩ := ih b hr
        refine ⟨(k, a) :: m, ?_, ?_⟩
        · simp only [finiteBalances, h1, Option.map_some']
        · simp only [List.map_cons, List.sum_cons, h2, h]

/-! ## Scoping, order and conservation: claims -/


/-- C11. Group scoping: for every store and every non-empty group name `g`,
`calculateNetBalance(g)` equals `calculateNetBalance` with the empty filter on
the store restricted to the transactions and settlements whose `groupName` is
exactly `g`; and with the empty filter the result does not depend on the group
of any transaction or settlement, so none is left out on account of its group. -/
theorem group_scoping (app : SplitWiseApp) (groupName : String) (hg : groupName ≠ "") :
    calculateNetBalance app groupName =
      calculateNetBalance (restrictToGroup app groupName) "" ∧
    (∀ (ofTransaction : Transaction → String) (ofSettlement : Settlement → String),
      calculateNetBalance (regroup app ofTransaction ofSettlement) "" =
        calculateNetBalance app "") ∧
    (∀ (nb : NetBalance) (s : Settlement),
      settlementStep "" nb s =
        (nb.update (fun v => v + Dbl.fin s.amount) s.from_).update
          (fun v => v - Dbl.fin s.amount) s.to_) := by
  refine ⟨?_, ?_, ?_⟩
  · simp only [calculateNetBalance, restrictToGroup]
    rw [transactions_filter_group hg]
    cases (app.transactions.filter (fun t => t.groupName = groupName)).foldlM
        (transactionStep "") ([] : NetBalance) with
    | none => rfl
    | some nb => simp only [Option.map_some', settlements_filter_group hg]
  · intro f1 f2
    simp only [calculateNetBalance, regroup]
    rw [transactions_regroup]
    cases app.transactions.foldlM (transactionStep "") ([] : NetBalance) with
    | none => rfl
    | some nb => simp only [Option.map_some', settlements_regroup]
  · intro nb s
    simp [settlementStep]

/-- C11, witness: a store with a transaction and a settlement in the group
"trip" and a personal transaction, scoped to "trip". -/
theorem group_scoping_witness :
    "trip" ≠ "" ∧
    (calculateNetBalance exampleGrouped "trip" =
      calculateNetBalance (restrictToGroup exampleGrouped "trip") "" ∧
    (∀ (ofTransaction : Transaction → String) (ofSettlement : Settlement → String),
      calculateNetBalance (regroup exampleGrouped ofTransaction ofSettlement) "" =
        calculateNetBalance exampleGrouped "") ∧
    (∀ (nb : NetBalance) (s : Settlement),
      settlementStep "" nb s =
        (nb.update (fun v => v + Dbl.fin s.amount) s.from_).update
          (fun v => v - Dbl.fin s.amount) s.to_)) :=
  ⟨by decide, group_scoping exampleGrouped "trip" (by decide)⟩


/-- C13. Order independence: for every group filter, `calculateNetBalance`
returns the same mapping when the transaction list is permuted, when the
settlement list is permuted, and when the participants of any of the
transactions are permuted together with their positionally aligned weights. -/
theorem order_independence (groupName : String) :
    (∀ app app' : SplitWiseApp, app.transactions.Perm app'.transactions →
      app.settlements = app'.settlements →
      calculateNetBalance app groupName = calculateNetBalance app' groupName) ∧
    (∀ app app' : SplitWiseApp, app.transactions = app'.transactions →
      app.settlements.Perm app'.settlements →
      calculateNetBalance app groupName = calculateNetBalance app' groupName) ∧
    (∀ app app' : SplitWiseApp,
      List.Forall₂ Transaction.Reordered app.transactions app'.transactions →
      app.settlements = app'.settlements →
      calculateNetBalance app groupName = calculateNetBalance app' groupName) := by
  refine ⟨?_, ?_, ?_⟩
  · intro app app' htx hst
    unfold calculateNetBalance
    rw [transactions_perm groupName htx NetBalance.ordered_nil, hst]
  · intro app app' htx hst
    unfold calculateNetBalance
    rw [← htx]
    cases hr : app.transactions.foldlM (transactionStep groupName) ([] : NetBalance) with
    | none => rfl
    | some nb =>
      have hord := ordered_transactions groupName app.transactions NetBalance.ordered_nil hr
      simp only [Option.map_some', settlements_perm groupName hst hord]
  · intro app app' htx hst
    unfold calculateNetBalance
    rw [transactions_reordered groupName htx NetBalance.ordered_nil, hst]

/-- C13, witness: the store `exampleOrder` gives the same mapping with its
transactions exchanged, with its settlements exchanged, and with two
participants of its first transaction exchanged together with their weights. -/
theorem order_independence_witness :
    calculateNetBalance exampleOrder "" = calculateNetBalance exampleOrderTransactions "" ∧
    calculateNetBalance exampleOrder "" = calculateNetBalance exampleOrderSettlements "" ∧
    calculateNetBalance exampleOrder "" = calculateNetBalance exampleOrderParticipants "" :=
  ⟨(order_independence "").1 exampleOrder exampleOrderTransactions
      (List.Perm.swap _ _ _) rfl,
    (order_independence "").2.1 exampleOrder exampleOrderSettlements rfl
      (List.Perm.swap _ _ _),
    (order_independence "").2.2 exampleOrder exampleOrderParticipants
      (List.Forall₂.cons
        ⟨rfl, rfl, rfl, rfl, rfl, Or.inr (Or.inr ⟨[("A", 1), ("B", 2), ("C", 3)],
          [("B", 2), ("A", 1), ("C", 3)], List.Perm.swap _ _ _, rfl, rfl, rfl, rfl⟩)⟩
        (List.Forall₂.cons ⟨rfl, rfl, rfl, rfl, rfl, Or.inl ⟨rfl, rfl⟩⟩
          List.Forall₂.nil))
      rfl⟩


/-- C14. Conservation for well-formed stores: if every unsettled transaction
passing the group filter is well-formed - Equal with at least one participant;
Percentage with as many weights as participants and weights summing to exactly
100; CustomWeight with as many weights as participants and a non-zero weight
total - then for every list of settlements `calculateNetBalance` returns a
mapping whose values are all finite and sum to exactly zero, whether or not the
payer is among the participants or a participant is repeated. -/
theorem conservation_wellFormed_stores (app : SplitWiseApp) (groupName : String)
    (hwf : ∀ t ∈ app.transactions, t.isSettled = false →
      (groupName = "" ∨ t.groupName = groupName) →
      (t.splitType = SplitType.EQUAL → 1 ≤ t.participants.length) ∧
      (t.splitType = SplitType.PERCENTAGE →
        t.weights.length = t.participants.length ∧ t.weights.sum = 100) ∧
      (t.splitType = SplitType.CUSTOM_WEIGHT →
        t.weights.length = t.participants.length ∧ t.weights.sum ≠ 0)) :
    ∃ nb balances, calculateNetBalance app groupName = some nb ∧
      finiteBalances nb = some balances ∧ (balances.map Prod.snd).sum = 0 := by
  have hwf2 : ∀ t ∈ app.transactions, t.Aggregated groupName → t.WellFormed := by
    intro t ht hagg
    obtain ⟨h1, h2, h3⟩ := hwf t ht hagg.1 hagg.2
    unfold Transaction.WellFormed
    cases hsp : t.splitType with
    | EQUAL => exact h1 hsp
    | PERCENTAGE => exact h2 hsp
    | CUSTOM_WEIGHT => exact h3 hsp
  obtain ⟨nb, hnb, htotal⟩ := total_calculateNetBalance app groupName hwf2
  obtain ⟨balances, hfin, hsum⟩ := finiteBalances_of_total nb 0 htotal
  exact ⟨nb, balances, hnb, hfin, hsum⟩

/-- C14, witness: 90 paid by D for [A, A, B], split equally, and a settlement
of 100 from B to A: the payer is no participant and A is repeated. -/
theorem conservation_wellFormed_stores_witness :
    (∀ t ∈ exampleOutsidePayer.transactions, t.isSettled = false →
      (("" : String) = "" ∨ t.groupName = "") →
      (t.splitType = SplitType.EQUAL → 1 ≤ t.participants.length) ∧
      (t.splitType = SplitType.PERCENTAGE →
        t.weights.length = t.participants.length ∧ t.weights.sum = 100) ∧
      (t.splitType = SplitType.CUSTOM_WEIGHT →
        t.weights.length = t.participants.length ∧ t.weights.sum ≠ 0)) ∧
    ∃ nb balances, calculateNetBalance exampleOutsidePayer "" = some nb ∧
      finiteBalances nb = some balances ∧ (balances.map Prod.snd).sum = 0 :=
  have h : ∀ t ∈ exampleOutsidePayer.transactions, t.isSettled = false →
      (("" : String) = "" ∨ t.groupName = "") →
      (t.splitType = SplitType.EQUAL → 1 ≤ t.participants.length) ∧
      (t.splitType = SplitType.PERCENTAGE →
        t.weights.length = t.participants.length ∧ t.weights.sum = 100) ∧
      (t.splitType = SplitType.CUSTOM_WEIGHT →
        t.weights.length = t.participants.length ∧ t.weights.sum ≠ 0) := by
    intro t ht _ _
    simp only [exampleOutsidePayer, mkApp, List.mem_singleton] at ht
    subst ht
    simp [mkTransaction]
  ⟨h, conservation_wellFormed_stores exampleOutsidePayer "" h⟩

/-! ## The loop on finite balances is the loop on arbitrary doubles restricted -/

theorem ieee_lt_fin (a b : ℚ) : Ieee.lt (Ieee.fin a) (Ieee.fin b) = decide (a < b) := rfl

theorem ieee_min_fin (a b : ℚ) :
    Ieee.min (Ieee.fin a) (Ieee.fin b) = Ieee.fin (min a b) := by
  unfold Ieee.min
  rw [ieee_lt_fin]
  by_cases h : b < a
  · simp [h, min_eq_right (le_of_lt h)]
  · simp [h, min_eq_left (not_lt.mp h)]

theorem ieee_sub_fin (a b : ℚ) : Ieee.sub (Ieee.fin a) (Ieee.fin b) = Ieee.fin (a - b) := rfl

theorem ieee_creditorsOf_cons (e : String × Ieee) (nb : List (String × Ieee)) :
    Ieee.creditorsOf (e :: nb) =
      if Ieee.lt (Ieee.fin (1 / 100)) e.2 then (e.1, e.2) :: Ieee.creditorsOf nb
      else Ieee.creditorsOf nb := by
  unfold Ieee.creditorsOf
  rw [List.filterMap_cons]
  split_ifs <;> rfl

theorem ieee_debtorsOf_cons (e : String × Ieee) (nb : List (String × Ieee)) :
    Ieee.debtorsOf (e :: nb) =
      if Ieee.lt (Ieee.fin (1 / 100)) e.2 then Ieee.debtorsOf nb
      else if Ieee.lt e.2 (Ieee.fin (-(1 / 100))) then (e.1, Ieee.neg e.2) :: Ieee.debtorsOf nb
      else Ieee.debtorsOf nb := by
  unfold Ieee.debtorsOf
  rw [List.filterMap_cons]
  split_ifs <;> rfl

theorem creditorsOf_asDoubles (nb : List (String × ℚ)) :
    Ieee.creditorsOf (asDoubles nb) = asDoubles (creditorsOf nb) := by
  induction nb with
  | nil => rfl
  | cons e nb ih =>
    have h0 : asDoubles (e :: nb) = (e.1, Ieee.fin e.2) :: asDoubles nb := rfl
    rw [h0, ieee_creditorsOf_cons, creditorsOf_cons, ih]
    simp only [ieee_lt_fin, decide_eq_true_eq]
    by_cases h : e.2 > 1 / 100
    · rw [if_pos h, if_pos h]; rfl
    · rw [if_neg h, if_neg h]

theorem debtorsOf_asDoubles (nb : List (String × ℚ)) :
    Ieee.debtorsOf (asDoubles nb) = asDoubles (debtorsOf nb) := by
  induction nb with
  | nil => rfl
  | cons e nb ih =>
    have h0 : asDoubles (e :: nb) = (e.1, Ieee.fin e.2) :: asDoubles nb := rfl
    rw [h0, ieee_debtorsOf_cons, debtorsOf_cons, ih]
    simp only [ieee_lt_fin, decide_eq_true_eq]
    by_cases h : e.2 > 1 / 100
    · rw [if_pos h, if_pos h]
    · rw [if_neg h, if_neg h]
      by_cases h2 : e.2 < -(1 / 100)
      · rw [if_pos h2, if_pos h2]; rfl
      · rw [if_neg h2, if_neg h2]

theorem asDoubles_eq_nil (l : List (String × ℚ)) : asDoubles l = [] ↔ l = [] := by
  simp [asDoubles]

theorem loopStep_toIeee (s : LoopState) :
    Ieee.loopStep s.toIeee = (loopStep s).map LoopState.toIeee := by
  unfold Ieee.loopStep loopStep
  simp only [LoopState.toIeee, asDoubles, List.getElem?_map]
  cases hc : s.creditors[s.i]? with
  | none => rfl
  | some c =>
    cases hd : s.debtors[s.j]? with
    | none => rfl
    | some d =>
      simp only [Option.map_some', ieee_min_fin, ieee_sub_fin, ieee_lt_fin, List.map_set,
        List.map_append, List.map_cons, List.map_nil, Payment.toIeee, decide_eq_true_eq,
        LoopState.toIeee, asDoubles]

theorem runLoop_toIeee (fuel : Nat) (s : LoopState) :
    Ieee.runLoop fuel s.toIeee = (runLoop fuel s).map LoopState.toIeee := by
  induction fuel generalizing s with
  | zero =>
    simp only [Ieee.runLoop, runLoop, loopStep_toIeee]
    cases loopStep s <;> rfl
  | succ fuel ih =>
    simp only [Ieee.runLoop, runLoop, loopStep_toIeee]
    cases loopStep s with
    | none => rfl
    | some s' => exact ih s'

/-- On a map of finite balances the loop on arbitrary doubles, allowed one
iteration less than the sizes of the partition or more, ends and returns the
payments of `minimizeBalances`. -/
theorem minimizeBalances_asDoubles (nb : List (String × ℚ)) (fuel : Nat)
    (hfuel : (creditorsOf nb).length + (debtorsOf nb).length ≤ fuel + 1) :
    Ieee.minimizeBalances fuel (asDoubles nb) =
      (minimizeBalances nb).map (List.map Payment.toIeee) := by
  rw [minimizeBalances_eq_settleFrom, Option.map_some']
  unfold Ieee.minimizeBalances
  simp only [creditorsOf_asDoubles, debtorsOf_asDoubles, asDoubles_eq_nil]
  split_ifs with h
  · rw [h.1, settleFrom_nil_left]; rfl
  · obtain ⟨final, h1, -, h3⟩ := runLoop_settleFrom fuel
      { creditors := creditorsOf nb, debtors := debtorsOf nb, i := 0, j := 0,
        settlements := [] }
      (by simp only [LoopState.remaining]; omega)
    have h4 := runLoop_toIeee fuel
      { creditors := creditorsOf nb, debtors := debtorsOf nb, i := 0, j := 0,
        settlements := [] }
    simp only [LoopState.toIeee, List.map_nil] at h4
    rw [h4, h1]
    simp only [Option.map_some', LoopState.toIeee, h3, List.nil_append, List.drop_zero]

/-! ## `calculateNetBalance` on arbitrary doubles and its image in `Dbl` -/

theorem ieee_toDbl_add (a b : Ieee) : (Ieee.add a b).toDbl = a.toDbl + b.toDbl := by
  cases a <;> cases b <;> rfl

theorem ieee_toDbl_sub (a b : Ieee) : (Ieee.sub a b).toDbl = a.toDbl - b.toDbl := by
  cases a <;> cases b <;> rfl

theorem ieee_div_fin (a b : ℚ) :
    Ieee.div (Ieee.fin a) (Ieee.fin b) =
      if b = 0 then
        (if 0 < a then Ieee.posInf else if a < 0 then Ieee.negInf else Ieee.nan)
      else Ieee.fin (a / b) := rfl

theorem ieee_toDbl_div (a b : ℚ) :
    (Ieee.div (Ieee.fin a) (Ieee.fin b)).toDbl = Dbl.fin a / Dbl.fin b := by
  rw [Dbl.fin_div_fin, ieee_div_fin]
  by_cases h : b = 0
  · rw [if_pos h, if_pos h]
    split_ifs <;> rfl
  · rw [if_neg h, if_neg h]
    rfl

theorem ieee_mul_nonFinite (a : ℚ) (x : Ieee) (hx : x.toDbl = Dbl.nonFinite) :
    (Ieee.mul (Ieee.fin a) x).toDbl = Dbl.nonFinite := by
  cases x with
  | fin q => simp [Ieee.toDbl] at hx
  | posInf =>
    have h : Ieee.mul (Ieee.fin a) Ieee.posInf =
        if 0 < a then Ieee.posInf else if a < 0 then Ieee.negInf else Ieee.nan := rfl
    rw [h]
    split_ifs <;> rfl
  | negInf =>
    have h : Ieee.mul (Ieee.fin a) Ieee.negInf =
        if 0 < a then Ieee.negInf else if a < 0 then Ieee.posInf else Ieee.nan := rfl
    rw [h]
    split_ifs <;> rfl
  | nan => rfl

theorem ieee_toDbl_share (amount weight divisor : ℚ) :
    (Ieee.mul (Ieee.fin amount) (Ieee.div (Ieee.fin weight) (Ieee.fin divisor))).toDbl =
      Dbl.fin amount * (Dbl.fin weight / Dbl.fin divisor) := by
  rw [Dbl.fin_div_fin, ieee_div_fin]
  by_cases h : divisor = 0
  · rw [if_pos h, if_pos h, Dbl.mul_nonFinite]
    apply ieee_mul_nonFinite
    split_ifs <;> rfl
  · rw [if_neg h, if_neg h]
    rfl

theorem toNetBalance_update (f : Ieee → Ieee) (g : Dbl → Dbl)
    (hfg : ∀ v, (f v).toDbl = g v.toDbl) (key : String) (nb : List (String × Ieee)) :
    Ieee.toNetBalance (Ieee.update f key nb) =
      NetBalance.update g key (Ieee.toNetBalance nb) := by
  induction nb with
  | nil =>
    simp only [Ieee.update, Ieee.toNetBalance, List.map_cons, List.map_nil,
      NetBalance.update, hfg]
    rfl
  | cons e nb ih =>
    obtain ⟨k, v⟩ := e
    have h0 : Ieee.toNetBalance ((k, v) :: nb) = (k, v.toDbl) :: Ieee.toNetBalance nb := rfl
    rw [h0]
    unfold Ieee.update NetBalance.update
    split_ifs with h1 h2
    · simp only [Ieee.toNetBalance, List.map_cons, hfg]
    · simp only [Ieee.toNetBalance, List.map_cons, hfg]
      rfl
    · have h3 : Ieee.toNetBalance ((k, v) :: Ieee.update f key nb) =
          (k, v.toDbl) :: Ieee.toNetBalance (Ieee.update f key nb) := rfl
      rw [h3, ih]

theorem toNetBalance_equalLoop (x : Ieee) (participants : List String)
    (nb : List (String × Ieee)) :
    Ieee.toNetBalance (Ieee.equalLoop x participants nb) =
      equalLoop x.toDbl participants (Ieee.toNetBalance nb) := by
  induction participants generalizing nb with
  | nil => rfl
  | cons p rest ih =>
    simp only [Ieee.equalLoop, equalLoop]
    rw [ih, toNetBalance_update _ (fun v => v - x.toDbl) (fun v => ieee_toDbl_sub v x)]

theorem toNetBalance_weightedLoop (amount divisor : ℚ) (participants : List String)
    (weights : List ℚ) (nb : List (String × Ieee)) :
    (Ieee.weightedLoop amount (Ieee.fin divisor) participants weights nb).map
        Ieee.toNetBalance =
      weightedLoop amount (Dbl.fin divisor) participants weights (Ieee.toNetBalance nb) := by
  induction participants generalizing weights nb with
  | nil => cases weights <;> rfl
  | cons p rest ih =>
    cases weights with
    | nil => rfl
    | cons w ws =>
      simp only [Ieee.weightedLoop, weightedLoop]
      rw [ih, toNetBalance_update _
        (fun v => v - Dbl.fin amount * (Dbl.fin w / Dbl.fin divisor))
        (fun v => by rw [ieee_toDbl_sub, ieee_toDbl_share])]

theorem toNetBalance_transactionStep (groupName : String) (nb : List (String × Ieee))
    (t : Transaction) :
    (Ieee.transactionStep groupName nb t).map Ieee.toNetBalance =
      transactionStep groupName (Ieee.toNetBalance nb) t := by
  have hpay : ∀ m : List (String × Ieee),
      Ieee.toNetBalance (Ieee.update (fun v => Ieee.add v (Ieee.fin t.amount)) t.payer m) =
        NetBalance.update (fun v => v + Dbl.fin t.amount) t.payer (Ieee.toNetBalance m) :=
    fun m => toNetBalance_update _ (fun v => v + Dbl.fin t.amount)
      (fun v => ieee_toDbl_add v (Ieee.fin t.amount)) t.payer m
  unfold Ieee.transactionStep transactionStep
  split_ifs with h1 h2
  · rfl
  · rfl
  · cases hs : t.splitType with
    | EQUAL =>
      simp only [Option.map_some', hpay, toNetBalance_equalLoop, ieee_toDbl_div]
    | PERCENTAGE =>
      simp only [← toNetBalance_weightedLoop, Option.map_map]
      congr 1
      funext m
      exact hpay m
    | CUSTOM_WEIGHT =>
      simp only [← toNetBalance_weightedLoop, Option.map_map]
      congr 1
      funext m
      exact hpay m

theorem toNetBalance_transactions (groupName : String) (ts : List Transaction)
    (nb : List (String × Ieee)) :
    (ts.foldlM (Ieee.transactionStep groupName) nb).map Ieee.toNetBalance =
      ts.foldlM (transactionStep groupName) (Ieee.toNetBalance nb) := by
  induction ts generalizing nb with
  | nil => rfl
  | cons t ts ih =>
    rw [List.foldlM_cons, List.foldlM_cons, ← toNetBalance_transactionStep]
    cases Ieee.transactionStep groupName nb t with
    | none => rfl
    | some nb' => exact ih nb'

theorem toNetBalance_settlementStep (groupName : String) (nb : List (String × Ieee))
    (s : Settlement) :
    Ieee.toNetBalance (Ieee.settlementStep groupName nb s) =
      settlementStep groupName (Ieee.toNetBalance nb) s := by
  unfold Ieee.settlementStep settlementStep
  split_ifs
  · rfl
  · rw [toNetBalance_update _ (fun v => v - Dbl.fin s.amount)
        (fun v => ieee_toDbl_sub v (Ieee.fin s.amount)),
      toNetBalance_update _ (fun v => v + Dbl.fin s.amount)
        (fun v => ieee_toDbl_add v (Ieee.fin s.amount))]

theorem toNetBalance_settlements (groupName : String) (ss : List Settlement)
    (nb : List (String × Ieee)) :
    Ieee.toNetBalance (ss.foldl (Ieee.settlementStep groupName) nb) =
      ss.foldl (settlementStep groupName) (Ieee.toNetBalance nb) := by
  induction ss generalizing nb with
  | nil => rfl
  | cons s ss ih => rw [List.foldl_cons, List.foldl_cons, ih, toNetBalance_settlementStep]

/-- The map that `calculateNetBalance` returns is the map on arbitrary doubles
with `+Inf`, `-Inf` and NaN taken together. -/
theorem calculateNetBalance_toDbl (app : SplitWiseApp) (groupName : String) :
    (Ieee.calculateNetBalance app groupName).map Ieee.toNetBalance =
      calculateNetBalance app groupName := by
  unfold Ieee.calculateNetBalance calculateNetBalance
  have h := toNetBalance_transactions groupName app.transactions []
  rw [show Ieee.toNetBalance [] = ([] : NetBalance) from rfl] at h
  rw [← h]
  cases app.transactions.foldlM (Ieee.transactionStep groupName) [] with
  | none => rfl
  | some nb => simp only [Option.map_some', toNetBalance_settlements]

/-! ## Arithmetic of the loop on arbitrary doubles -/

theorem ieee_runLoop_of_some (fuel : Nat) (s s' : Ieee.LoopState)
    (h : Ieee.loopStep s = some s') :
    Ieee.runLoop (fuel + 1) s = Ieee.runLoop fuel s' := by
  simp [Ieee.runLoop, h]

theorem ieee_loopStep_of_lt (s : Ieee.LoopState) (hi : s.i < s.creditors.length)
    (hj : s.j < s.debtors.length) :
    Ieee.loopStep s = some
      { creditors := s.creditors.set s.i
          (s.creditors[s.i].1,
            Ieee.sub s.creditors[s.i].2 (Ieee.min s.creditors[s.i].2 s.debtors[s.j].2))
        debtors := s.debtors.set s.j
          (s.debtors[s.j].1,
            Ieee.sub s.debtors[s.j].2 (Ieee.min s.creditors[s.i].2 s.debtors[s.j].2))
        i := if Ieee.lt
            (Ieee.sub s.creditors[s.i].2 (Ieee.min s.creditors[s.i].2 s.debtors[s.j].2))
            (Ieee.fin (1 / 100))
          then s.i + 1 else s.i
        j := if Ieee.lt
            (Ieee.sub s.debtors[s.j].2 (Ieee.min s.creditors[s.i].2 s.debtors[s.j].2))
            (Ieee.fin (1 / 100))
          then s.j + 1 else s.j
        settlements := s.settlements ++
          [⟨s.debtors[s.j].1, s.creditors[s.i].1,
            Ieee.min s.creditors[s.i].2 s.debtors[s.j].2⟩] } := by
  unfold Ieee.loopStep
  rw [List.getElem?_eq_getElem hi, List.getElem?_eq_getElem hj]

theorem ieee_mem_creditorsOf (nb : List (String × Ieee)) (p : String) (b : Ieee) :
    (p, b) ∈ Ieee.creditorsOf nb ↔ (p, b) ∈ nb ∧ Ieee.lt (Ieee.fin (1 / 100)) b = true := by
  unfold Ieee.creditorsOf
  rw [List.mem_filterMap]
  constructor
  · rintro ⟨⟨q, v⟩, he, h⟩
    split_ifs at h with h1
    simp only [Option.some.injEq, Prod.mk.injEq] at h
    obtain ⟨rfl, rfl⟩ := h
    exact ⟨he, h1⟩
  · rintro ⟨he, h1⟩
    exact ⟨(p, b), he, by rw [if_pos h1]⟩

theorem ieee_not_creditor_of_debtor (v : Ieee)
    (h : Ieee.lt v (Ieee.fin (-(1 / 100))) = true) :
    ¬ Ieee.lt (Ieee.fin (1 / 100)) v = true := by
  cases v with
  | fin q =>
    simp only [Ieee.lt, decide_eq_true_eq] at h ⊢
    intro h2
    have : (0 : ℚ) < 1 / 100 := by norm_num
    linarith
  | posInf => simp [Ieee.lt] at h
  | negInf => simp [Ieee.lt]
  | nan => simp [Ieee.lt]

theorem ieee_mem_debtorsOf (nb : List (String × Ieee)) (p : String) (b : Ieee) :
    (p, b) ∈ Ieee.debtorsOf nb ↔
      ∃ v, (p, v) ∈ nb ∧ Ieee.lt v (Ieee.fin (-(1 / 100))) = true ∧ b = Ieee.neg v := by
  unfold Ieee.debtorsOf
  rw [List.mem_filterMap]
  constructor
  · rintro ⟨⟨q, v⟩, he, h⟩
    split_ifs at h with h1 h2
    simp only [Option.some.injEq, Prod.mk.injEq] at h
    obtain ⟨rfl, rfl⟩ := h
    exact ⟨v, he, h2, rfl⟩
  · rintro ⟨v, he, h1, rfl⟩
    refine ⟨(p, v), he, ?_⟩
    simp only
    rw [if_neg (ieee_not_creditor_of_debtor v h1), if_pos h1]

theorem ieee_stuck_creditor (a b : Ieee) (ha : a = Ieee.posInf ∨ a = Ieee.nan) :
    (Ieee.sub a (Ieee.min a b) = Ieee.posInf ∨ Ieee.sub a (Ieee.min a b) = Ieee.nan) ∧
      Ieee.lt (Ieee.sub a (Ieee.min a b)) (Ieee.fin (1 / 100)) = false := by
  rcases ha with h | h <;> subst h <;> cases b <;> simp [Ieee.min, Ieee.lt, Ieee.sub]

theorem ieee_stuck_debtor (a b : Ieee) (hb : b = Ieee.posInf ∨ b = Ieee.nan) :
    (Ieee.sub b (Ieee.min a b) = Ieee.posInf ∨ Ieee.sub b (Ieee.min a b) = Ieee.nan) ∧
      Ieee.lt (Ieee.sub b (Ieee.min a b)) (Ieee.fin (1 / 100)) = false := by
  rcases hb with h | h <;> subst h <;> cases a <;> simp [Ieee.min, Ieee.lt, Ieee.sub]

/-- An entry at or after the cursor that holds `+Inf` or NaN is still there, at
or after the cursor, after a write at the cursor that leaves `+Inf` or NaN and
does not advance the cursor. -/
theorem ieee_stuck_entry (l : List (String × Ieee)) (i : Nat) (hi : i < l.length)
    (x : Ieee) (c : Bool)
    (hx : l[i].2 = Ieee.posInf ∨ l[i].2 = Ieee.nan →
      (x = Ieee.posInf ∨ x = Ieee.nan) ∧ c = false)
    (h : ∃ k e, i ≤ k ∧ l[k]? = some e ∧ (e.2 = Ieee.posInf ∨ e.2 = Ieee.nan)) :
    ∃ k e, (if c then i + 1 else i) ≤ k ∧ (l.set i (l[i].1, x))[k]? = some e ∧
      (e.2 = Ieee.posInf ∨ e.2 = Ieee.nan) := by
  obtain ⟨k, e, hk, he, hv⟩ := h
  by_cases hki : k = i
  · subst hki
    rw [List.getElem?_eq_getElem hi, Option.some.injEq] at he
    subst he
    obtain ⟨h1, h2⟩ := hx hv
    refine ⟨k, (l[k].1, x), by rw [h2]; simp, ?_, h1⟩
    rw [List.getElem?_set_self hi]
  · refine ⟨k, e, by split_ifs <;> omega, ?_, hv⟩
    rw [List.getElem?_set_ne (fun h => hki h.symm)]
    exact he

/-- With `+Inf` or NaN at or after both cursors, the loop condition holds and an
iteration leaves `+Inf` or NaN at or after both cursors. -/
theorem ieee_loopStep_blocked (s : Ieee.LoopState)
    (hc : ∃ k e, s.i ≤ k ∧ s.creditors[k]? = some e ∧ (e.2 = Ieee.posInf ∨ e.2 = Ieee.nan))
    (hd : ∃ k e, s.j ≤ k ∧ s.debtors[k]? = some e ∧ (e.2 = Ieee.posInf ∨ e.2 = Ieee.nan)) :
    ∃ s', Ieee.loopStep s = some s' ∧
      (∃ k e, s'.i ≤ k ∧ s'.creditors[k]? = some e ∧
        (e.2 = Ieee.posInf ∨ e.2 = Ieee.nan)) ∧
      (∃ k e, s'.j ≤ k ∧ s'.debtors[k]? = some e ∧
        (e.2 = Ieee.posInf ∨ e.2 = Ieee.nan)) := by
  have hi : s.i < s.creditors.length := by
    obtain ⟨k, e, hk, he, -⟩ := hc
    have := (List.getElem?_eq_some.mp he).1
    omega
  have hj : s.j < s.debtors.length := by
    obtain ⟨k, e, hk, he, -⟩ := hd
    have := (List.getElem?_eq_some.mp he).1
    omega
  refine ⟨_, ieee_loopStep_of_lt s hi hj, ?_, ?_⟩
  · dsimp only
    exact ieee_stuck_entry s.creditors s.i hi _ _
      (fun h => by
        obtain ⟨h1, h2⟩ := ieee_stuck_creditor _ s.debtors[s.j].2 h
        exact ⟨h1, by simpa using h2⟩) hc
  · dsimp only
    exact ieee_stuck_entry s.debtors s.j hj _ _
      (fun h => by
        obtain ⟨h1, h2⟩ := ieee_stuck_debtor s.creditors[s.i].2 _ h
        exact ⟨h1, by simpa using h2⟩) hd

theorem ieee_runLoop_blocked (fuel : Nat) (s : Ieee.LoopState)
    (hc : ∃ k e, s.i ≤ k ∧ s.creditors[k]? = some e ∧ (e.2 = Ieee.posInf ∨ e.2 = Ieee.nan))
    (hd : ∃ k e, s.j ≤ k ∧ s.debtors[k]? = some e ∧ (e.2 = Ieee.posInf ∨ e.2 = Ieee.nan)) :
    Ieee.runLoop fuel s = none := by
  induction fuel generalizing s with
  | zero =>
    obtain ⟨s', h, -, -⟩ := ieee_loopStep_blocked s hc hd
    simp [Ieee.runLoop, h]
  | succ fuel ih =>
    obtain ⟨s', h, hc', hd'⟩ := ieee_loopStep_blocked s hc hd
    rw [ieee_runLoop_of_some fuel s s' h]
    exact ih s' hc' hd'

/-- On a map that holds both a `+Inf` and a `-Inf` balance the loop does not end,
whatever the number of iterations allowed. -/
theorem ieee_minimizeBalances_diverges (nb : List (String × Ieee)) (h : ¬ Ieee.OneSided nb)
    (fuel : Nat) : Ieee.minimizeBalances fuel nb = none := by
  unfold Ieee.OneSided at h
  rw [not_or] at h
  obtain ⟨h1, h2⟩ := h
  simp only [not_forall, not_not] at h1 h2
  obtain ⟨⟨p, x⟩, hp, hx⟩ := h1
  obtain ⟨⟨q, y⟩, hq, hy⟩ := h2
  simp only at hx hy
  subst hx hy
  have hc : (p, Ieee.posInf) ∈ Ieee.creditorsOf nb :=
    (ieee_mem_creditorsOf nb p Ieee.posInf).mpr ⟨hp, rfl⟩
  have hd : (q, Ieee.posInf) ∈ Ieee.debtorsOf nb :=
    (ieee_mem_debtorsOf nb q Ieee.posInf).mpr ⟨Ieee.negInf, hq, rfl, rfl⟩
  obtain ⟨k, hk⟩ := List.mem_iff_getElem?.mp hc
  obtain ⟨l, hl⟩ := List.mem_iff_getElem?.mp hd
  have hrun := ieee_runLoop_blocked fuel
    { creditors := Ieee.creditorsOf nb, debtors := Ieee.debtorsOf nb, i := 0, j := 0,
      settlements := [] }
    ⟨k, _, Nat.zero_le _, hk, Or.inl rfl⟩ ⟨l, _, Nat.zero_le _, hl, Or.inl rfl⟩
  unfold Ieee.minimizeBalances
  dsimp only
  rw [hrun, if_neg (fun h0 => by rw [h0.1] at hc; exact absurd hc (List.not_mem_nil _))]
  rfl

/-! ## The loop on the balances {A: -Inf, B: +Inf} -/

theorem exampleOneInfinity_creditors :
    Ieee.creditorsOf exampleOneInfinity = [("B", Ieee.fin 60), ("C", Ieee.fin 40)] := by
  norm_num [Ieee.creditorsOf, exampleOneInfinity, Ieee.lt, List.filterMap_cons]

theorem exampleOneInfinity_debtors :
    Ieee.debtorsOf exampleOneInfinity = [("A", Ieee.posInf)] := by
  norm_num [Ieee.debtorsOf, exampleOneInfinity, Ieee.lt, Ieee.neg, List.filterMap_cons]

theorem exampleOneInfinityStore_ieee :
    Ieee.calculateNetBalance exampleOneInfinityStore "" = some exampleOneInfinity := by
  norm_num +decide [Ieee.calculateNetBalance, exampleOneInfinityStore, exampleOneInfinity,
    mkApp, mkTransaction, Ieee.transactionStep, Ieee.weightedLoop, Ieee.equalLoop,
    Ieee.update, totalWeight, ieee_div_fin, Ieee.mul, Ieee.sub, Ieee.add]

theorem exampleOneInfinity_minimize :
    Ieee.minimizeBalances 2 exampleOneInfinity =
      some [⟨"A", "B", Ieee.fin 60⟩, ⟨"A", "C", Ieee.fin 40⟩] := by
  unfold Ieee.minimizeBalances
  rw [exampleOneInfinity_creditors, exampleOneInfinity_debtors]
  norm_num [Ieee.runLoop, Ieee.loopStep, Ieee.min, Ieee.lt, Ieee.sub]

theorem exampleOneInfinityStore_minimize :
    Ieee.minimizeTransactions 2 exampleOneInfinityStore "" = some [("A", "B"), ("A", "C")] := by
  unfold Ieee.minimizeTransactions
  rw [exampleOneInfinityStore_ieee, Option.some_bind, exampleOneInfinity_minimize]
  rfl

/-! ## The settlement minimizer on arbitrary doubles: claims -/

end SplitWise
